import Mathlib

/-!
Verification of the taskbuffer core (Go implementation): config-driven task
parsing, horizon resolution, and report building.  The Go code is shallowly
embedded: strings become `List Char`, `time.Time` values (which the core only
ever uses at day granularity, via `extractDate`) become ordinal day counts
(`Int`, days since 1970-01-01), Go maps become association lists, and each
compiled regular expression becomes a dedicated matching function implementing
the leftmost-first semantics of Go's regexp package for that fixed pattern.
-/

namespace TB

/-- Strings are modelled as lists of characters (the sources are ASCII, where
Go's byte indexing and character indexing agree). -/
abbrev Str := List Char

/-- Characters matched by Go's regexp class `\s` (Perl syntax): `[\t\n\f\r ]`. -/
def reSpace (c : Char) : Bool :=
  c = '\t' || c = '\n' || c = '\x0c' || c = '\r' || c = ' '

/-- Characters matched by Go's regexp class `\w`: `[0-9A-Za-z_]`. -/
def isWordCh (c : Char) : Bool :=
  ('0' ≤ c && c ≤ '9') || ('A' ≤ c && c ≤ 'Z') || ('a' ≤ c && c ≤ 'z') || c = '_'

/-- ASCII decimal digit. -/
def isDigitCh (c : Char) : Bool := '0' ≤ c && c ≤ '9'

/-- Characters treated as white space by Go's `unicode.IsSpace` (restricted to
the Latin-1 range, which covers every input the program handles). -/
def isUniSpace (c : Char) : Bool :=
  c = ' ' || c = '\t' || c = '\n' || c = '\x0b' || c = '\x0c' || c = '\r' ||
    c = '\x85' || c = '\xa0'

/-- Go `strings.TrimLeft` for a character-set predicate. -/
def trimLeftSet (p : Char → Bool) : Str → Str
  | [] => []
  | c :: cs => if p c then trimLeftSet p cs else c :: cs

/-- Go `strings.TrimRight` for a character-set predicate. -/
def trimRightSet (p : Char → Bool) (s : Str) : Str :=
  (trimLeftSet p s.reverse).reverse

/-- Go `strings.TrimSpace`. -/
def goTrimSpace (s : Str) : Str :=
  trimRightSet isUniSpace (trimLeftSet isUniSpace s)

/-- Go `strings.Index`: byte index of the first occurrence of `pat` in `s`
(`none` models Go's `-1`). -/
def indexOfSub (pat : Str) : Str → Option Nat
  | [] => if pat.isPrefixOf ([] : Str) then some 0 else none
  | c :: cs =>
    if pat.isPrefixOf (c :: cs) then some 0
    else (indexOfSub pat cs).map (· + 1)

/-- Fuelled worker for `splitGo` (the fuel is the string length, which always
suffices because each step consumes at least one character). -/
def splitGoAux (sep : Str) : Nat → Str → List Str
  | _, [] => [[]]
  | 0, s => [s]
  | fuel + 1, c :: cs =>
    if sep.isPrefixOf (c :: cs) then
      [] :: splitGoAux sep fuel (cs.drop (sep.length - 1))
    else
      match splitGoAux sep fuel cs with
      | [] => [[c]]
      | t :: ts => (c :: t) :: ts

/-- Go `strings.Split` for a non-empty separator. -/
def splitGo (sep s : Str) : List Str := splitGoAux sep s.length s

/-- Go `strings.Replace(s, old, new, 1)`: replace the first occurrence. -/
def replaceFirst (s old new : Str) : Str :=
  match indexOfSub old s with
  | none => s
  | some i => s.take i ++ new ++ s.drop (i + old.length)

/-- Go string comparison `<` (bytewise; equals character-wise order here). -/
def lexLt : Str → Str → Bool
  | [], [] => false
  | [], _ :: _ => true
  | _ :: _, [] => false
  | a :: as, b :: bs => if a < b then true else if b < a then false else lexLt as bs

/-- The characters Go's `regexp.QuoteMeta` escapes. -/
def isReSpecial (c : Char) : Bool :=
  c = '\\' || c = '.' || c = '+' || c = '*' || c = '?' || c = '(' || c = ')' ||
    c = '|' || c = '[' || c = ']' || c = '^' || c = '$' ||
    c = (Char.ofNat 123) || c = (Char.ofNat 125)

/-- Go `regexp.QuoteMeta`. -/
def quoteMeta : Str → Str
  | [] => []
  | c :: cs => if isReSpecial c then '\\' :: c :: quoteMeta cs else c :: quoteMeta cs

/-- Split a string at newline characters; used to talk about the lines of a
generated report. -/
def linesOf : Str → List Str
  | [] => [[]]
  | c :: cs =>
    if c = '\n' then [] :: linesOf cs
    else
      match linesOf cs with
      | [] => [[c]]
      | t :: ts => (c :: t) :: ts

/-! ## Calendar arithmetic

`time.Time` values are embedded as ordinal day counts (days since 1970-01-01).
The conversions implement the standard proleptic-Gregorian civil-calendar
algorithms, which agree with Go's `time` package at day granularity. -/

/-- Days since 1970-01-01 of the civil date `(y, m, d)`; `m` must be in
`[1,12]` while `d` may be arbitrary (the formula is linear in `d`, matching
Go's normalization of day overflow).  `/` on `Int` is Euclidean division,
which coincides with floor division for these positive divisors. -/
def daysFromCivil (y m d : Int) : Int :=
  let y2 : Int := if m ≤ 2 then y - 1 else y
  let era : Int := y2 / 400
  let yoe : Int := y2 - era * 400
  let mp : Int := if 2 < m then m - 3 else m + 9
  let doy : Int := (153 * mp + 2) / 5 + d - 1
  let doe : Int := yoe * 365 + yoe / 4 - yoe / 100 + doy
  era * 146097 + doe - 719468

/-- Civil date `(y, m, d)` of an ordinal day count. -/
def civilFromDays (z0 : Int) : Int × Int × Int :=
  let z : Int := z0 + 719468
  let era : Int := z / 146097
  let doe : Int := z - era * 146097
  let yoe : Int := (doe - doe / 1460 + doe / 36524 - doe / 146096) / 365
  let y : Int := yoe + era * 400
  let doy : Int := doe - (365 * yoe + yoe / 4 - yoe / 100)
  let mp : Int := (5 * doy + 2) / 153
  let d : Int := doy - (153 * mp + 2) / 5 + 1
  let m : Int := if mp < 10 then mp + 3 else mp - 9
  (if m ≤ 2 then y + 1 else y, m, d)

/-- Go `time.Date(y, m, d, 0, 0, 0, 0, loc)` at day granularity: months are
normalized into `[1,12]` (floor semantics, as in Go's `norm`), day overflow is
absorbed by `daysFromCivil` being linear in `d`. -/
def dateYMD (y m d : Int) : Int :=
  let mtot : Int := 12 * y + (m - 1)
  daysFromCivil (mtot / 12) (mtot % 12 + 1) d

/-- Go `t.Weekday()` of an ordinal day: `0 = Sunday` … `6 = Saturday`
(1970-01-01 was a Thursday). -/
def goWeekday (o : Int) : Int := (o + 4) % 7

/-- Go `t.AddDate(years, months, days)` at day granularity. -/
def addDateGo (t years months days : Int) : Int :=
  let c := civilFromDays t
  dateYMD (c.1 + years) (c.2.1 + months) (c.2.2 + days)

/-- Gregorian leap-year test. -/
def isLeap (y : Int) : Bool :=
  y % 4 = 0 && (y % 100 ≠ 0 || y % 400 = 0)

/-- Number of days in a month (for month validation, as in `time.Parse`). -/
def daysInMonth (y m : Int) : Int :=
  if m = 2 then (if isLeap y then 29 else 28)
  else if m = 4 || m = 6 || m = 9 || m = 11 then 30
  else 31

/-- Strict date validation as performed by Go `time.Parse("2006-01-02", ·)`:
month in `[1,12]`, day valid for the month (leap years included). -/
def mkValidDate (y m d : Int) : Option Int :=
  if 1 ≤ m && m ≤ 12 && 1 ≤ d && d ≤ daysInMonth y m then
    some (daysFromCivil y m d)
  else none

/-- Numeric value of a decimal digit character. -/
def digVal (c : Char) : Int := (c.toNat : Int) - 48

/-- Parse a ten-character `YYYY-MM-DD` string with strict validation, as
`time.Parse("2006-01-02", ·)` does for strings of that shape. -/
def goParseDateStr : Str → Option Int
  | [a, b, c, d, h1, e, f, h2, g, h] =>
    if isDigitCh a && isDigitCh b && isDigitCh c && isDigitCh d &&
        h1 = '-' && isDigitCh e && isDigitCh f && h2 = '-' &&
        isDigitCh g && isDigitCh h then
      mkValidDate (1000 * digVal a + 100 * digVal b + 10 * digVal c + digVal d)
        (10 * digVal e + digVal f) (10 * digVal g + digVal h)
    else none
  | _ => none

/-- Fuelled worker for `natDigits`. -/
def natDigitsAux : Nat → Nat → Str
  | 0, _ => []
  | f + 1, n =>
    if n < 10 then [Nat.digitChar n]
    else natDigitsAux f (n / 10) ++ [Nat.digitChar (n % 10)]

/-- Decimal digits of a natural number. -/
def natDigits (n : Nat) : Str := natDigitsAux (n + 1) n

/-- Decimal rendering of an integer (Go `%d`). -/
def intToStr (n : Int) : Str :=
  if n < 0 then '-' :: natDigits (-n).toNat else natDigits n.toNat

/-- Zero-pad a rendering to width `w` (Go's `Format` layouts `2006`/`01`/`02`). -/
def padZero (w : Nat) (s : Str) : Str :=
  List.replicate (w - s.length) '0' ++ s

/-- Go `t.Format("2006-01-02")` of an ordinal day. -/
def dateToStr (t : Int) : Str :=
  let c := civilFromDays t
  padZero 4 (intToStr c.1) ++ '-' :: padZero 2 (intToStr c.2.1) ++
    '-' :: padZero 2 (intToStr c.2.2)

/-! ## Horizon resolver (horizons.go)

`HorizonSpec.After` is Go's `interface{}`: a JSON number (`float64`), a string,
or `nil`; integral numbers are the only numbers the program ever receives, so
the numeric case carries an `Int`. -/

/-- The polymorphic `after` field of a horizon spec. -/
inductive AfterVal where
  | num (n : Int)
  | str (s : Str)
  | nil
deriving DecidableEq, Repr

/-- User-facing config for a single time horizon (`HorizonSpec`). -/
structure HorizonSpec where
  label : Str
  after : AfterVal := .nil
  undated : Bool := false
  order : Option Int := none
deriving DecidableEq, Repr

/-- A horizon with its cutoff date computed (`ResolvedHorizon`).  For undated
horizons the Go struct keeps the zero `time.Time` (January 1, year 1); its
ordinal is `daysFromCivil 1 1 1`. -/
structure ResolvedHorizon where
  label : Str
  cutoff : Int := daysFromCivil 1 1 1
  undated : Bool := false
  order : Int := 0
deriving DecidableEq, Repr

/-- Default value used for out-of-range list reads of resolved horizons. -/
def rhDefault : ResolvedHorizon := {label := []}

/-- The built-in horizon configuration (`defaultHorizonSpecs`). -/
def defaultHorizonSpecs : List HorizonSpec :=
  [ {label := "# Overdue".toList, after := .str "past".toList},
    {label := "# Today".toList, after := .num 0},
    {label := "# Tomorrow".toList, after := .num 1},
    {label := "# This Week".toList, after := .num 2},
    {label := "# This Month".toList, after := .num 8},
    {label := "# This Year".toList, after := .str "31d".toList},
    {label := "# Far Off".toList, after := .str "366d".toList},
    {label := "# Someday".toList, undated := true} ]

/-- Digits of an optionally `-`-signed decimal integer (used by
`parseDuration`'s capture group, which `strconv.Atoi` then reads). -/
def signedDigits? (s : Str) : Option Int :=
  match s with
  | '-' :: ds =>
    if ds ≠ [] && ds.all isDigitCh then
      some (-(ds.foldl (fun a c => 10 * a + digVal c) 0))
    else none
  | ds =>
    if ds ≠ [] && ds.all isDigitCh then
      some (ds.foldl (fun a c => 10 * a + digVal c) 0)
    else none

/-- `parseDuration`: `^(-?\d+)([dwmy])$` with unit conversions d=1, w=7, m=30,
y=365 (calendar-naive, as in the source). -/
def parseDuration (s : Str) : Option Int :=
  match s.getLast? with
  | none => none
  | some u =>
    match signedDigits? s.dropLast with
    | none => none
    | some n =>
      if u = 'd' then some n
      else if u = 'w' then some (n * 7)
      else if u = 'm' then some (n * 30)
      else if u = 'y' then some (n * 365)
      else none

/-- `resolveCalendarKeyword`: resolve a calendar keyword to a cutoff day.
`weekStart` is a Go `time.Weekday` (`0 = Sunday` … `6 = Saturday`).  The `%`
in the source is Go's truncated mod on a non-negative operand, so `Int.tmod`
matches it exactly. -/
def resolveCalendarKeyword (kw : Str) (today : Int) (weekStart : Int) : Option Int :=
  if kw = "past".toList then some (addDateGo today (-100) 0 0)
  else if kw = "yesterday".toList then some (addDateGo today 0 0 (-1))
  else if kw = "end_of_week".toList then
    let weekEnd : Int := if weekStart - 1 < 0 then 6 else weekStart - 1
    let daysUntilEnd : Int := Int.tmod (weekEnd - goWeekday today + 7) 7
    let daysUntilEnd : Int := if daysUntilEnd = 0 then 7 else daysUntilEnd
    some (addDateGo today 0 0 (daysUntilEnd + 1))
  else if kw = "end_of_month".toList then
    let c := civilFromDays today
    some (dateYMD c.1 (c.2.1 + 1) 1)
  else if kw = "end_of_quarter".toList then
    let c := civilFromDays today
    let qMonth : Int := Int.tdiv (c.2.1 - 1) 3 * 3 + 4
    some (dateYMD c.1 qMonth 1)
  else if kw = "end_of_year".toList then
    some (dateYMD ((civilFromDays today).1 + 1) 1 1)
  else none

/-- `parseAfterValue`: resolve the polymorphic `after` field to a cutoff day
relative to the start of `now`'s calendar day (`now` is already an ordinal
day, so `extractDate` is the identity here).  Errors carry a message whose
details mirror the source's `fmt.Errorf` strings. -/
def parseAfterValue (val : AfterVal) (now : Int) (weekStart : Int) : Except Str Int :=
  match val with
  | .num n => .ok (addDateGo now 0 0 n)
  | .str s =>
    match parseDuration s with
    | some days => .ok (addDateGo now 0 0 days)
    | none =>
      match resolveCalendarKeyword s now weekStart with
      | some t => .ok t
      | none => .error ("unknown calendar keyword: ".toList ++ s)
  | .nil => .error "after value is nil".toList

/-- The warning `ResolveHorizons` prints for one unresolvable spec
(`fmt.Sprintf("horizon %q: %v", label, err)`; `%q`'s escaping is the identity
on the quote-free labels the program handles). -/
def warnOf (label e : Str) : Str :=
  "horizon \"".toList ++ label ++ "\": ".toList ++ e

/-- Worker of `ResolveHorizons`' main loop: `i` is the current spec index, `n`
the total spec count (`len(specs)`). -/
def resolveLoopAux (n : Nat) (now weekStart : Int) :
    Nat → List HorizonSpec → List ResolvedHorizon × List ResolvedHorizon × List Str
  | _, [] => ([], [], [])
  | i, s :: rest =>
    let r := resolveLoopAux n now weekStart (i + 1) rest
    if s.undated then
      let order : Int := s.order.getD ((n : Int) + (i : Int))
      (r.1, {label := s.label, undated := true, order := order} :: r.2.1, r.2.2)
    else
      match parseAfterValue s.after now weekStart with
      | .error e => (r.1, r.2.1, warnOf s.label e :: r.2.2)
      | .ok cutoff =>
        let order : Int := s.order.getD (i : Int)
        ({label := s.label, cutoff := cutoff, undated := false, order := order} :: r.1,
          r.2.1, r.2.2)

/-- One pass of `ResolveHorizons`' main loop: returns `(dated, undated,
parseErrors)`, each in input order. -/
def resolveLoop (specs : List HorizonSpec) (now : Int) (weekStart : Int) :
    List ResolvedHorizon × List ResolvedHorizon × List Str :=
  resolveLoopAux specs.length now weekStart 0 specs

/-- `cutoff`-before comparator used by the `sorted` overlap branch. -/
def cutoffLt (a b : ResolvedHorizon) : Bool := a.cutoff < b.cutoff

/-- Insertion step of the sort used to model `sort.Slice` (the Go sort is
unspecified on ties; this model is stable, and every theorem that depends on
the sorted order assumes pairwise distinct cutoffs). -/
def insertBy (lt : α → α → Bool) (x : α) : List α → List α
  | [] => [x]
  | y :: ys => if lt x y then x :: y :: ys else y :: insertBy lt x ys

/-- Sort by a boolean comparator (model of `sort.Slice`). -/
def sortBy (lt : α → α → Bool) : List α → List α
  | [] => []
  | x :: xs => insertBy lt x (sortBy lt xs)

/-- Worker for `reassignOrder`. -/
def reassignOrderAux : Nat → List ResolvedHorizon → List ResolvedHorizon
  | _, [] => []
  | i, h :: t => {h with order := (i : Int)} :: reassignOrderAux (i + 1) t

/-- Reassign `order` to the position in the (sorted) dated list. -/
def reassignOrder (l : List ResolvedHorizon) : List ResolvedHorizon :=
  reassignOrderAux 0 l

/-- The `sorted`-policy reordering of the dated horizons; other policies keep
the caller's order. -/
def sortDatedIfSorted (overlap : Str) (dated : List ResolvedHorizon) :
    List ResolvedHorizon :=
  if overlap = [] || overlap = "sorted".toList then
    reassignOrder (sortBy cutoffLt dated)
  else dated

/-- `ResolveHorizons`.  Returns the resolved list together with the warnings
printed to stderr.  The Go function recurses on `defaultHorizonSpecs` when all
dated specs failed; the defaults always resolve without parse errors, so that
recursive call is exactly one unfolding of the non-fallback path, inlined
here. -/
def ResolveHorizons (specs0 : List HorizonSpec) (now : Int) (weekStart : Int)
    (overlap : Str) : List ResolvedHorizon × List Str :=
  let specs := if specs0.isEmpty then defaultHorizonSpecs else specs0
  let r := resolveLoop specs now weekStart
  let dated := r.1
  let undated := r.2.1
  let errs := r.2.2
  if ¬ errs.isEmpty ∧ dated.isEmpty then
    let r2 := resolveLoop defaultHorizonSpecs now weekStart
    (sortDatedIfSorted overlap r2.1 ++ r2.2.1, errs)
  else
    (sortDatedIfSorted overlap dated ++ undated, errs)

/-! ## Report builder (format.go) -/

/-- A state-change annotation (`Marker`). -/
structure GoMarker where
  kind : Str
  date : Str
  time : Str
deriving DecidableEq, Repr

/-- One parsed task line (`Task`).  `dueDate` is an ordinal day
(`none` = undated). -/
structure GoTask where
  filePath : Str
  lineNumber : Int
  body : Str
  dueDate : Option Int := none
  dueTime : Str := []
  duration : Str := []
  tags : List Str := []
  status : Str := []
  markers : List GoMarker := []
deriving DecidableEq, Repr

/-- `inHorizon`: interval membership for the `sorted` policy — `[cutoff,
nextCutoff)`, the final horizon unbounded above. -/
def inHorizon (date : Int) (idx : Nat) (hs : List ResolvedHorizon) : Bool :=
  if idx = hs.length - 1 then
    decide ((hs.getD idx rhDefault).cutoff ≤ date)
  else
    decide ((hs.getD idx rhDefault).cutoff ≤ date) &&
      decide (date < (hs.getD (idx + 1) rhDefault).cutoff)

/-- `firstMatchHorizon`: first horizon in list order with `cutoff ≤ date`
(undated entries skipped); falls back to the last non-undated index, else 0. -/
def firstMatchHorizon (date : Int) (hs : List ResolvedHorizon) : Nat :=
  match (List.range hs.length).find?
      (fun i =>
        let h := hs.getD i rhDefault
        !h.undated && decide (h.cutoff ≤ date)) with
  | some i => i
  | none =>
    match (List.range hs.length).reverse.find?
        (fun i => !(hs.getD i rhDefault).undated) with
    | some i => i
    | none => 0

/-- Interval width used by `narrowestHorizon`, in nanoseconds as in the Go
source (`time.Duration`); day differences are scaled by 86400e9. -/
def nsPerDay : Int := 86400000000000

/-- One iteration of `narrowestHorizon`'s loop: the accumulator carries
`(bestIdx, bestSpan, i)`. -/
def narrowestStep (date : Int) (hs : List ResolvedHorizon)
    (acc : Int × Int × Nat) (h : ResolvedHorizon) : Int × Int × Nat :=
  if h.undated then (acc.1, acc.2.1, acc.2.2 + 1)
  else
    let i := acc.2.2
    let lastish := i = hs.length - 1 || (hs.getD (i + 1) rhDefault).undated
    let inRange :=
      if lastish then decide (h.cutoff ≤ date)
      else decide (h.cutoff ≤ date) &&
        decide (date < (hs.getD (i + 1) rhDefault).cutoff)
    let span : Int :=
      if lastish then 4611686018427387903
      else ((hs.getD (i + 1) rhDefault).cutoff - h.cutoff) * nsPerDay
    if inRange && decide (span < acc.2.1) then ((i : Int), span, i + 1)
    else (acc.1, acc.2.1, i + 1)

/-- `narrowestHorizon`: the horizon with the tightest range containing the
date; the final (or undated-followed) horizon counts as unbounded
(`1<<62 - 1` ns). -/
def narrowestHorizon (date : Int) (hs : List ResolvedHorizon) : Nat :=
  let best := hs.foldl (narrowestStep date hs) (-1, 9223372036854775807, 0)
  if best.1 = -1 then
    match (List.range hs.length).reverse.find?
        (fun i => !(hs.getD i rhDefault).undated) with
    | some i => i
    | none => 0
  else best.1.toNat

/-- Formatting options (`FormatOpts`).  The tag/marker prefix fields are
modelled from the spec: the repository's current `formatTaskLine` writes tag
and marker tokens with the configured prefixes (defaulting to `#` and `::`),
per §4.4/§8 of the spec and the adversarial round-trip tests; the remaining
fields and column layout follow `src/go/format.go`. -/
structure FormatOpts where
  showMarkers : Bool := false
  ignoreUndated : Bool := false
  tagFilter : List Str := []
  horizons : List ResolvedHorizon := []
  overlap : Str := []
  tagPre : Str := []
  markerPre : Str := []

/-- Modelled from the spec: `formatTaskLine` of the current repository, which
is `src/go/format.go` lines 86–143 except that the tag token prefix is
`opts.tagPre` (default `"#"`) and the marker token prefix is `opts.markerPre`
(default `"::"`), as required by §4.4 step 8 / §8 of the spec and exercised by
the adversarial format-round-trip tests. -/
def formatTaskLine (t : GoTask) (opts : FormatOpts) : Str :=
  let tagP := if opts.tagPre = [] then "#".toList else opts.tagPre
  let markerP := if opts.markerPre = [] then "::".toList else opts.markerPre
  let loc := t.filePath ++ ':' :: intToStr t.lineNumber ++ ":1:".toList
  let dateCol :=
    match t.dueDate with
    | some d => '\t' :: "[[".toList ++ dateToStr d ++ "]]".toList
    | none => '\t' :: "          ".toList
  let timeCol :=
    if t.dueTime ≠ [] then " | ".toList ++ t.dueTime ++ " |".toList
    else '\t' :: " |       |".toList
  let durCol :=
    if t.duration ≠ [] then
      List.replicate (4 - t.duration.length) ' ' ++ t.duration ++ " |".toList
    else "     |".toList
  let bodyCol := '\t' :: ' ' :: t.body ++ ' ' :: '\t' :: []
  let tagsCol :=
    if t.tags ≠ [] then
      ' ' :: ((t.tags.map (fun tg => tagP ++ tg)).intersperse " ".toList).flatten
    else []
  let markersCol :=
    if opts.showMarkers then
      (t.markers.map (fun m =>
        ' ' :: markerP ++ m.kind ++ ' ' :: "[[".toList ++ m.date ++ "]]".toList ++
          (if m.time ≠ [] then ' ' :: m.time else []))).flatten
    else []
  loc ++ dateCol ++ timeCol ++ durCol ++ bodyCol ++ tagsCol ++ markersCol

/-- `taskMatchesTags`: OR semantics, case-sensitive exact match. -/
def taskMatchesTags (t : GoTask) (tags : List Str) : Bool :=
  tags.any (fun f => t.tags.any (fun tg => tg = f))

/-- Comparator of the dated-task sort: date, then file path, then line. -/
def datedLess (a b : GoTask) : Bool :=
  if a.dueDate.getD 0 ≠ b.dueDate.getD 0 then a.dueDate.getD 0 < b.dueDate.getD 0
  else if a.filePath ≠ b.filePath then lexLt a.filePath b.filePath
  else a.lineNumber < b.lineNumber

/-- Comparator of the undated-task sort: file path, then line. -/
def undatedLess (a b : GoTask) : Bool :=
  if a.filePath ≠ b.filePath then lexLt a.filePath b.filePath
  else a.lineNumber < b.lineNumber

/-- The bucket index the per-task `switch` in `FormatTaskfile` computes, given
the previous `interval` (only the `sorted` policy reads it). -/
def nextInterval (overlap : Str) (date : Int) (hs : List ResolvedHorizon)
    (interval : Nat) : Nat :=
  if overlap = "first_match".toList then firstMatchHorizon date hs
  else if overlap = "narrowest".toList then narrowestHorizon date hs
  else
    match ((List.range hs.length).drop interval).find?
        (fun i => inHorizon date i hs) with
    | some i => i
    | none => interval

/-- The emission loop of `FormatTaskfile` over the sorted dated tasks:
carries `interval` and `lastInterval` (`-1` initially) and appends a label
line whenever the bucket index changes. -/
def reportLoop (opts : FormatOpts) (hs : List ResolvedHorizon) (overlap : Str) :
    List GoTask → Nat → Int → Str
  | [], _, _ => []
  | t :: ts, interval, lastInterval =>
    let date := t.dueDate.getD 0
    let interval2 := nextInterval overlap date hs interval
    let header : Str :=
      if (interval2 : Int) ≠ lastInterval then
        (if lastInterval ≠ -1 then ['\n'] else []) ++
          (hs.getD interval2 rhDefault).label ++ ['\n']
      else []
    header ++ formatTaskLine t opts ++ ['\n'] ++
      reportLoop opts hs overlap ts interval2 (interval2 : Int)

/-- The sequence of bucket indices the loop assigns (same recursion as
`reportLoop`, projected to the assignments). -/
def bucketSeq (overlap : Str) (hs : List ResolvedHorizon) :
    List GoTask → Nat → List Nat
  | [], _ => []
  | t :: ts, interval =>
    let interval2 := nextInterval overlap (t.dueDate.getD 0) hs interval
    interval2 :: bucketSeq overlap hs ts interval2

/-- `FormatTaskfile`: filter, resolve horizons if absent, split, sort,
bucket, and emit the report. -/
def FormatTaskfile (tasks0 : List GoTask) (now : Int) (opts : FormatOpts) : Str :=
  let tasks :=
    if opts.tagFilter ≠ [] then tasks0.filter (fun t => taskMatchesTags t opts.tagFilter)
    else tasks0
  let horizons :=
    if opts.horizons = [] then (ResolveHorizons [] now 1 "sorted".toList).1
    else opts.horizons
  let datedHorizons := horizons.filter (fun h => !h.undated)
  let undatedHorizon := (horizons.filter (fun h => h.undated)).getLast?
  let dated := sortBy datedLess (tasks.filter (fun t => t.dueDate.isSome))
  let undated := sortBy undatedLess (tasks.filter (fun t => t.dueDate.isNone))
  let overlap := if opts.overlap = [] then "sorted".toList else opts.overlap
  let body := reportLoop opts datedHorizons overlap dated 0 (-1)
  let undatedLabel :=
    match undatedHorizon with
    | some h => h.label
    | none => "# Someday".toList
  if undated ≠ [] && !opts.ignoreUndated then
    body ++ (if body ≠ [] then ['\n'] else []) ++ undatedLabel ++ ['\n'] ++
      (undated.map (fun t => formatTaskLine t opts ++ ['\n'])).flatten
  else body

/-! ## Syntax compiler and line parser (parse.go, config-driven version)

Each compiled regular expression is embedded as a dedicated function
implementing Go's leftmost-first matching for that fixed pattern shape. -/

/-- The raw input of `ParseTask` (`RawMatch`). -/
structure RawMatch where
  path : Str
  lineNumber : Int
  text : Str

/-- The date-group pattern, determined by the configured wrapper.  The default
pattern is `\(@\[\[ … (\d{4}-\d{2}-\d{2}) \]\] \s* (\d{2}:\d{2})? \)`; a
custom two-element wrapper `(w0, w1)` gives `w0 … (date) \s* (time)? w1`
(both wrappers quoted literally via `QuoteMeta`).  `openLit`/`midLit`/
`closeLit` are the three literal segments around the captures. -/
structure DatePat where
  openLit : Str
  midLit : Str
  closeLit : Str
deriving DecidableEq, Repr

/-- Compiled matcher set (`ParseContext`). -/
structure ParseCtx where
  statusMap : List (Str × Str)
  statusAlts : List Str
  tagPre : Str
  markerPre : Str
  datePat : DatePat
  checkbox : List (Str × Str)

/-- Association-list read of a Go map. -/
def assocGet (m : List (Str × Str)) (k : Str) : Option Str :=
  (m.find? (fun e => e.1 = k)).map (·.2)

/-- Association-list write of a Go map (overwrite in place, append if new). -/
def assocSet (m : List (Str × Str)) (k v : Str) : List (Str × Str) :=
  if (m.find? (fun e => e.1 = k)).isSome then
    m.map (fun e => if e.1 = k then (k, v) else e)
  else m ++ [(k, v)]

/-- The default checkbox configuration. -/
def defaultCheckbox : List (Str × Str) :=
  [ ("open".toList, "- [ ]".toList),
    ("done".toList, "- [x]".toList),
    ("irrelevant".toList, "- [-]".toList),
    ("partial".toList, "- [~]".toList) ]

/-- `statusMap` construction: iterate the (validated) checkbox entries and map
each literal to a status name, overwriting only when the new name sorts
earlier alphabetically — the alphabetically first status name wins for
duplicated literals, whatever the iteration order. -/
def statusStep (m : List (Str × Str)) (e : Str × Str) : List (Str × Str) :=
  match assocGet m e.2 with
  | some existing => if lexLt e.1 existing then assocSet m e.2 e.1 else m
  | none => assocSet m e.2 e.1

/-- See `statusStep` for the per-entry update. -/
def buildStatusMap (checkbox : List (Str × Str)) : List (Str × Str) :=
  checkbox.foldl statusStep []

/-- The `sortByLengthDesc` comparator on escaped literals: descending length,
ties broken lexicographically ascending. -/
def lenDescBefore (a b : Str) : Bool :=
  a.length > b.length || (a.length = b.length && lexLt a b)

/-- Deduplicate escaped literals keeping first occurrences (the `seen` set of
the source), carrying the raw literal alongside its escape. -/
def dedupEsc : List (Str × Str) → List Str → List (Str × Str)
  | [], _ => []
  | p :: ps, seen =>
    if seen.contains p.2 then dedupEsc ps seen
    else p :: dedupEsc ps (p.2 :: seen)

/-- The alternation list of `statusRe`: escape each configured literal,
deduplicate, and sort via `sortByLengthDesc`; the raw literals are kept for
matching (escaping only affects pattern text, not what is matched). -/
def buildStatusAlts (checkbox : List (Str × Str)) : List Str :=
  let pairs := dedupEsc (checkbox.map (fun e => (e.2, quoteMeta e.2))) []
  (sortBy (fun a b => lenDescBefore a.2 b.2) pairs).map (·.1)

/-- `NewParseContext`: validate the checkbox map, build the status lookup and
the alternation, and fill in prefix/wrapper defaults. -/
def NewParseContext (checkbox0 : List (Str × Str)) (tagPre0 markerPre0 : Str)
    (dateWrapper : List Str) : ParseCtx :=
  let checkbox1 := if checkbox0.isEmpty then defaultCheckbox else checkbox0
  let checkbox := checkbox1.filter (fun e => goTrimSpace e.2 ≠ [])
  let tagP := if tagPre0 = [] then "#".toList else tagPre0
  let markerP := if markerPre0 = [] then "::".toList else markerPre0
  let datePat :=
    match dateWrapper with
    | [w0, w1] =>
      if w0 ≠ [] && w1 ≠ [] then {openLit := w0, midLit := [], closeLit := w1}
      else {openLit := "(@[[".toList, midLit := "]]".toList, closeLit := ")".toList}
    | _ => {openLit := "(@[[".toList, midLit := "]]".toList, closeLit := ")".toList}
  { statusMap := buildStatusMap checkbox
    statusAlts := buildStatusAlts checkbox
    tagPre := tagP
    markerPre := markerP
    datePat := datePat
    checkbox := checkbox }

/-- `statusRe = ^\s*(lit1|lit2|…)` applied to a line: `\s*` is greedy, so the
largest whitespace prefix is tried first; within one position the alternation
is first-match.  Returns the captured literal. -/
def statusFindAux (alts : List Str) (line : Str) : Nat → Option Str
  | 0 => alts.find? (fun l => l.isPrefixOf line)
  | i + 1 =>
    match alts.find? (fun l => l.isPrefixOf (line.drop (i + 1))) with
    | some l => some l
    | none => statusFindAux alts line i

/-- Apply `statusRe` to a line.  With an empty alternation the Go pattern is
`^\s*()`, which matches every line with an empty capture. -/
def statusFind (alts : List Str) (line : Str) : Option Str :=
  if alts.isEmpty then some []
  else statusFindAux alts line (line.takeWhile reSpace).length

/-- Ordered-choice helper: return the first alternative on which the
continuation succeeds (models regexp backtracking). -/
def firstSome (xs : List α) (f : α → Option β) : Option β :=
  match xs with
  | [] => none
  | x :: rest =>
    match f x with
    | some b => some b
    | none => firstSome rest f

/-- Drop a literal from the front (`none` if it is not a prefix). -/
def afterLit (lit : Str) (s : Str) : Option Str :=
  if lit.isPrefixOf s then some (s.drop lit.length) else none

/-- The optional alias segment `(?:[^\|\]]*\|)?`: the greedy class run stops
at the first `|` or `]`; the branch can only succeed when the stopper is `|`,
consuming through it.  Branches are ordered group-taken first. -/
def aliasBranches (s : Str) : List Str :=
  let run := s.takeWhile (fun c => ¬ (c = '|' || c = ']'))
  match s.drop run.length with
  | '|' :: rest => [rest, s]
  | _ => [s]

/-- The optional path segment `(?:.*/)?`: `.` excludes newlines, so the
candidate cut points are the `/` positions inside the newline-free prefix,
greedy (longest first), followed by the skip branch. -/
def slashBranches (s : Str) : List Str :=
  let limit := (s.takeWhile (fun c => c ≠ '\n')).length
  (((List.range limit).filter (fun k => s.getD k ' ' = '/')).reverse).map
    (fun k => s.drop (k + 1)) ++ [s]

/-- Match `\d{4}-\d{2}-\d{2}` exactly at the front, returning capture and
rest. -/
def matchDateDigits (s : Str) : Option (Str × Str) :=
  match s with
  | a :: b :: c :: d :: h1 :: e :: f :: h2 :: g :: h :: rest =>
    if isDigitCh a && isDigitCh b && isDigitCh c && isDigitCh d && h1 = '-' &&
        isDigitCh e && isDigitCh f && h2 = '-' && isDigitCh g && isDigitCh h then
      some ([a, b, c, d, h1, e, f, h2, g, h], rest)
    else none
  | _ => none

/-- Match `\d{2}:\d{2}` exactly at the front. -/
def matchTimeDigits (s : Str) : Option (Str × Str) :=
  match s with
  | a :: b :: c :: d :: e :: rest =>
    if isDigitCh a && isDigitCh b && c = ':' && isDigitCh d && isDigitCh e then
      some ([a, b, c, d, e], rest)
    else none
  | _ => none

/-- The tail `\s*(\d{2}:\d{2})?CLOSE` with backtracking: `\s*` greedy from its
maximal run downward; at each cut the time branch is preferred.  Returns the
captured time and the rest. -/
def wsTimeClose (closeLit : Str) (s : Str) : Option (Str × Str) :=
  let m := (s.takeWhile reSpace).length
  firstSome (List.range (m + 1)).reverse (fun j =>
    let s2 := s.drop j
    match matchTimeDigits s2 with
    | some (tm, s3) =>
      match afterLit closeLit s3 with
      | some rest => some (tm, rest)
      | none => (afterLit closeLit s2).map (fun rest => (([] : Str), rest))
    | none => (afterLit closeLit s2).map (fun rest => (([] : Str), rest)))

/-- Match the date-group pattern anchored at the front of `s`; returns
`(consumed length, date capture, time capture)`. -/
def dateMatchAt (pat : DatePat) (s : Str) : Option (Nat × Str × Str) := do
  let s1 ← afterLit pat.openLit s
  let r ← firstSome (aliasBranches s1) (fun s2 =>
    firstSome (slashBranches s2) (fun s3 => do
      let (d, s4) ← matchDateDigits s3
      let s5 ← afterLit pat.midLit s4
      let (tm, rest) ← wsTimeClose pat.closeLit s5
      pure (d, tm, rest)))
  pure (s.length - r.2.2.length, r.1, r.2.1)

/-- `dateRe.FindStringSubmatch`/`FindString`: leftmost match of the date-group
pattern; returns `(full match, date, time)`. -/
def dateFind (pat : DatePat) : Str → Option (Str × Str × Str)
  | [] => (dateMatchAt pat []).map (fun r => (([] : Str), r.2.1, r.2.2))
  | c :: cs =>
    match dateMatchAt pat (c :: cs) with
    | some (len, d, tm) => some ((c :: cs).take len, d, tm)
    | none => dateFind pat cs

/-- `durationRe = <(\d+)m>`: leftmost match, returning the digit capture. -/
def durFind : Str → Option Str
  | [] => none
  | c :: cs =>
    if c = '<' then
      let ds := cs.takeWhile isDigitCh
      if ds ≠ [] && ("m>".toList).isPrefixOf (cs.drop ds.length) then some ds
      else durFind cs
    else durFind cs

/-- Does `markerStartRe = PREFIX\s*\w+\s+\[\[` match at the front of `s`?
(The character classes of consecutive pieces are disjoint, so maximal-munch is
exact here.) -/
def markerStartAt (pre : Str) (s : Str) : Bool :=
  match afterLit pre s with
  | none => false
  | some s1 =>
    let s2 := s1.dropWhile reSpace
    let w := s2.takeWhile isWordCh
    if w = [] then false
    else
      let s3 := (s2.drop w.length)
      let sp := s3.takeWhile reSpace
      sp ≠ [] && ("[[".toList).isPrefixOf (s3.drop sp.length)

/-- `markerStartRe.FindStringIndex`: index of the leftmost match. -/
def markerStartIdxAux (pre : Str) : Str → Option Nat
  | [] => if markerStartAt pre [] then some 0 else none
  | c :: cs =>
    if markerStartAt pre (c :: cs) then some 0
    else (markerStartIdxAux pre cs).map (· + 1)

/-- Match the marker-content pattern
`(\w+)\s+\[\[(?:[^\|\]]*\|)?(?:.*/)?(\d{4}-\d{2}-\d{2})\]\]\s*(\d{2}:\d{2})?`
anchored at the front of `s` (the trailing `\s*(time)?` is greedy with
nothing after it, so maximal-munch is exact there). -/
def markerMatchAt (s : Str) : Option GoMarker := do
  let w := s.takeWhile isWordCh
  if w = [] then none
  else
    let s2 := s.drop w.length
    let sp := s2.takeWhile reSpace
    if sp = [] then none
    else do
      let s3 ← afterLit "[[".toList (s2.drop sp.length)
      firstSome (aliasBranches s3) (fun s4 =>
        firstSome (slashBranches s4) (fun s5 => do
          let (d, s6) ← matchDateDigits s5
          let s7 ← afterLit "]]".toList s6
          let s8 := s7.dropWhile reSpace
          match matchTimeDigits s8 with
          | some (tm, _) => pure {kind := w, date := d, time := tm}
          | none => pure {kind := w, date := d, time := []}))

/-- `markerRe.FindStringSubmatch`: leftmost match of the marker pattern. -/
def markerFind : Str → Option GoMarker
  | [] => markerMatchAt []
  | c :: cs =>
    match markerMatchAt (c :: cs) with
    | some m => some m
    | none => markerFind cs

/-- The regexp class `[A-Za-z_]` opening a tag name. -/
def tagStartCh (c : Char) : Bool :=
  ('A' ≤ c && c ≤ 'Z') || ('a' ≤ c && c ≤ 'z') || c = '_'

/-- The regexp class `[\w-]` continuing a tag name. -/
def tagCh (c : Char) : Bool := isWordCh c || c = '-'

/-- Match `PREFIX([A-Za-z_][\w-]*)` at the front: returns the capture and the
total matched length. -/
def tagMatchAt (pre : Str) (s : Str) : Option (Str × Nat) := do
  let s1 ← afterLit pre s
  match s1 with
  | c :: cs =>
    if tagStartCh c then
      let run := cs.takeWhile tagCh
      some (c :: run, pre.length + 1 + run.length)
    else none
  | [] => none

/-- `tagRe.FindAllStringSubmatch(line, -1)`: all non-overlapping leftmost
matches (fuelled; each step consumes at least one character). -/
def tagFindAllAux (pre : Str) : Nat → Str → List Str
  | 0, _ => []
  | _, [] => []
  | fuel + 1, c :: cs =>
    match tagMatchAt pre (c :: cs) with
    | some (cap, len) => cap :: tagFindAllAux pre fuel ((c :: cs).drop len)
    | none => tagFindAllAux pre fuel cs

/-- All tag captures of a line. -/
def tagFindAll (pre : Str) (s : Str) : List Str := tagFindAllAux pre s.length s

/-- `tagRe.ReplaceAllString(s, "")`: delete all tag matches. -/
def tagRemoveAllAux (pre : Str) : Nat → Str → Str
  | 0, s => s
  | _, [] => []
  | fuel + 1, c :: cs =>
    match tagMatchAt pre (c :: cs) with
    | some (_, len) => tagRemoveAllAux pre fuel ((c :: cs).drop len)
    | none => c :: tagRemoveAllAux pre fuel cs

/-- Delete all tag matches from a string. -/
def tagRemoveAll (pre : Str) (s : Str) : Str := tagRemoveAllAux pre s.length s

/-- The marker-extraction step of `ParseTask` (step 4): split the marker
region on the marker prefix, trim each segment, and keep the segments the
marker pattern accepts. -/
def extractMarkers (markerPre : Str) (region : Str) : List GoMarker :=
  (splitGo markerPre region).filterMap (fun seg =>
    let seg := goTrimSpace seg
    if seg = [] then none else markerFind seg)

/-- `ParseTask` (config-driven version).  `none` models the error returns. -/
def ParseTaskGo (m : RawMatch) (ctx : ParseCtx) : Option GoTask :=
  let line := trimRightSet (fun c => c = '\n' || c = '\r')
    (trimLeftSet (fun c => c = ' ' || c = '\t') m.text)
  match statusFind ctx.statusAlts line with
  | none => none
  | some checkboxStr =>
    match assocGet ctx.statusMap checkboxStr with
    | none => none
    | some status =>
      let dm := dateFind ctx.datePat line
      let dParsed : Option (Option Int × Str × Nat × Nat) :=
        match dm with
        | none => some (none, [], 0, 0)
        | some (full, dStr, tStr) =>
          if dStr = [] then none
          else
            match goParseDateStr dStr with
            | none => none
            | some dd =>
              let idx := (indexOfSub full line).getD 0
              some (some dd, tStr, idx, full.length)
      match dParsed with
      | none => none
      | some (dueDate, dueTime, dateGroupIdx, fullLen) =>
        let durM := durFind line
        let duration : Str := match durM with | some ds => ds ++ ['m'] | none => []
        let afterDateGroup : Str :=
          if dm.isSome then line.drop (dateGroupIdx + fullLen)
          else
            match markerStartIdxAux ctx.markerPre line with
            | some loc => line.drop loc
            | none => []
        let markers := extractMarkers ctx.markerPre afterDateGroup
        let tags := tagFindAll ctx.tagPre line
        let checkboxEnd := (indexOfSub checkboxStr line).getD 0 + checkboxStr.length
        let bodyPart : Str :=
          if dm.isSome then
            (line.take dateGroupIdx).drop checkboxEnd
          else
            let bodyEnd :=
              match markerStartIdxAux ctx.markerPre line with
              | some loc => loc
              | none => line.length
            (line.take bodyEnd).drop checkboxEnd
        let bodyPart :=
          match durM with
          | some ds => replaceFirst bodyPart ('<' :: ds ++ "m>".toList) []
          | none => bodyPart
        let body := goTrimSpace (tagRemoveAll ctx.tagPre bodyPart)
        some
          { filePath := m.path
            lineNumber := m.lineNumber
            body := body
            dueDate := dueDate
            dueTime := dueTime
            duration := duration
            tags := tags
            status := status
            markers := markers }

/-! ## Specification-side definitions and concrete fixtures for the claims -/

/-- Modelled from the spec: `end_of_week` resolves to the start of the day
after the last day of the current week, where the week's last day is the day
before `weekStart`; when today falls exactly on that last day, the result
advances by a full week beyond the day-after (§4.3).  `k` is the number of
days from today to the week's last day. -/
def specEndOfWeek (today weekStart : Int) : Int :=
  let lastDay : Int := (weekStart + 6) % 7
  let k : Int := (lastDay - goWeekday today) % 7
  addDateGo today 0 0 ((if k = 0 then 7 else k) + 1)

/-- Does a spec's `after` field fail to resolve? -/
def afterFails (s : HorizonSpec) (now weekStart : Int) : Bool :=
  match parseAfterValue s.after now weekStart with
  | .error _ => true
  | .ok _ => false

/-- The error message of a failing spec (empty for a resolvable one). -/
def errMsgOf (s : HorizonSpec) (now weekStart : Int) : Str :=
  match parseAfterValue s.after now weekStart with
  | .error e => e
  | .ok _ => []

/-- The dated specs of a list that fail to resolve, in input order. -/
def failedDated (now weekStart : Int) (specs : List HorizonSpec) : List HorizonSpec :=
  specs.filter (fun s => !s.undated && afterFails s now weekStart)

/-- The dated specs of a list that resolve, in input order. -/
def okDated (now weekStart : Int) (specs : List HorizonSpec) : List HorizonSpec :=
  specs.filter (fun s => !s.undated && !afterFails s now weekStart)

/-- Claim-side description of the dated horizons' `(label, order)` pairs:
surviving dated specs in input order, each with its explicit `order` if given,
else its input position. -/
def describeDated (now weekStart : Int) : Nat → List HorizonSpec → List (Str × Int)
  | _, [] => []
  | i, s :: rest =>
    if s.undated then describeDated now weekStart (i + 1) rest
    else
      match parseAfterValue s.after now weekStart with
      | .ok _ => (s.label, s.order.getD (i : Int)) :: describeDated now weekStart (i + 1) rest
      | .error _ => describeDated now weekStart (i + 1) rest

/-- Claim-side description of the undated horizons' `(label, order)` pairs:
undated specs in input order, each with its explicit `order` if given, else
`spec count + input position`. -/
def describeUndated (n : Nat) : Nat → List HorizonSpec → List (Str × Int)
  | _, [] => []
  | i, s :: rest =>
    if s.undated then
      (s.label, s.order.getD ((n : Int) + (i : Int))) :: describeUndated n (i + 1) rest
    else describeUndated n (i + 1) rest

/-- A well-formed tag name: what the tag pattern's capture group
`[A-Za-z_][\w-]*` accepts in full. -/
def validTagName (s : Str) : Bool :=
  match s with
  | [] => false
  | c :: cs => tagStartCh c && cs.all tagCh

/-- Exactly the `\d{4}-\d{2}-\d{2}` shape. -/
def dateShape (s : Str) : Bool :=
  match s with
  | [a, b, c, d, h1, e, f, h2, g, h] =>
    isDigitCh a && isDigitCh b && isDigitCh c && isDigitCh d && h1 = '-' &&
      isDigitCh e && isDigitCh f && h2 = '-' && isDigitCh g && isDigitCh h
  | _ => false

/-- Exactly the `\d{2}:\d{2}` shape. -/
def timeShape (s : Str) : Bool :=
  match s with
  | [a, b, c, d, e] => isDigitCh a && isDigitCh b && c = ':' && isDigitCh d && isDigitCh e
  | _ => false

/-- A marker whose fields are in the grammar `formatTaskLine` and the marker
pattern share. -/
def validMarker (m : GoMarker) : Bool :=
  m.kind ≠ [] && m.kind.all isWordCh && dateShape m.date &&
    (m.time = [] || timeShape m.time)

/-- Fixture (C1): config mapping `open` to `"- [ ]"` and `bullet` to `"- "`. -/
def cbC1 : List (Str × Str) :=
  [("open".toList, "- [ ]".toList), ("bullet".toList, "- ".toList)]

/-- Fixture (C1): compiled context of `cbC1` with default prefixes. -/
def ctxC1 : ParseCtx := NewParseContext cbC1 [] [] []

/-- Fixture (C1): a line whose text after the full checkbox itself starts with
the longer literal's leftover characters. -/
def rmC1 : RawMatch := {path := "a.md".toList, lineNumber := 1, text := "- [ ][ ] x".toList}

/-- Fixture (C2): a task carrying one tag. -/
def taskC2 : GoTask :=
  { filePath := "test.md".toList, lineNumber := 1, body := "Tagged task".toList,
    tags := ["work".toList], status := "open".toList }

/-- Fixture (C2): a task carrying one marker. -/
def taskC2m : GoTask :=
  { filePath := "test.md".toList, lineNumber := 1, body := "Marked task".toList,
    status := "open".toList, dueDate := some (daysFromCivil 2026 2 17),
    markers := [{kind := "start".toList, date := "2026-02-17".toList, time := "15:00".toList}] }

/-- Fixture (C2): formatting options with tag prefix `"+"`. -/
def optsC2 : FormatOpts := {tagPre := "+".toList}

/-- Fixture (C2): formatting options with marker prefix `">>"`, markers
shown. -/
def optsC2m : FormatOpts := {showMarkers := true, markerPre := ">>".toList}

/-- Fixture (C2): parse context with tag prefix `"+"` and marker prefix
`">>"`. -/
def ctxC2 : ParseCtx := NewParseContext [] "+".toList ">>".toList []

/-- Fixture (C2): a task carrying both a tag and a marker. -/
def taskC2w : GoTask :=
  { filePath := "test.md".toList, lineNumber := 1, body := "Both task".toList,
    status := "open".toList, tags := ["work".toList],
    markers := [{kind := "start".toList, date := "2026-02-17".toList,
                 time := "15:00".toList}] }

/-- Fixture (C2): formatting options with tag prefix `"+"`, marker prefix
`">>"` and markers shown. -/
def optsC2w : FormatOpts :=
  {showMarkers := true, tagPre := "+".toList, markerPre := ">>".toList}

/-- Fixture (C2): the formatted tagged task, fed back to the parser. -/
def rmC2t : RawMatch :=
  {path := "test.md".toList, lineNumber := 1, text := formatTaskLine taskC2 optsC2}

/-- Fixture (C2): the formatted marked task, fed back to the parser. -/
def rmC2m : RawMatch :=
  {path := "test.md".toList, lineNumber := 1, text := formatTaskLine taskC2m optsC2m}

/-- Fixture (C9): two dated specs whose explicit `order` fields reverse their
input positions. -/
def specsC9 : List HorizonSpec :=
  [ {label := "# A".toList, after := .num 0, order := some 5},
    {label := "# B".toList, after := .num 1, order := some 0} ]

/-- Fixture (C4): now = 2026-02-17. -/
def nowC4 : Int := daysFromCivil 2026 2 17

/-- Fixture (C4): the four scenario tasks dated 2026-02-15 / 02-17 / 02-18 /
04-01. -/
def tasksC4 : List GoTask :=
  [ { filePath := "/a.md".toList, lineNumber := 1, body := "T1".toList,
      dueDate := some (daysFromCivil 2026 2 15), status := "open".toList },
    { filePath := "/b.md".toList, lineNumber := 2, body := "T2".toList,
      dueDate := some (daysFromCivil 2026 2 17), status := "open".toList },
    { filePath := "/c.md".toList, lineNumber := 3, body := "T3".toList,
      dueDate := some (daysFromCivil 2026 2 18), status := "open".toList },
    { filePath := "/d.md".toList, lineNumber := 4, body := "T4".toList,
      dueDate := some (daysFromCivil 2026 4 1), status := "open".toList } ]

/-- Fixture (C4): options selecting the resolved built-in default horizons
explicitly (as `FormatTaskfile` itself would resolve them). -/
def optsC4 : FormatOpts :=
  { horizons := (ResolveHorizons [] nowC4 1 "sorted".toList).1 }

/-- The earlier of two optional status names under `lexLt`, favouring the
first on ties (the shape of `statusMap`'s overwrite-if-smaller update). -/
def combineMin : Option Str → Option Str → Option Str
  | none, b => b
  | some a, none => some a
  | some a, some b => some (if lexLt b a then b else a)

/-- Specification-side reading of `statusMap`: the `lexLt`-least status name
among the entries carrying a given checkbox literal. -/
def minNameFor (lit : Str) : List (Str × Str) → Option Str
  | [] => none
  | e :: cb => combineMin (if e.2 = lit then some e.1 else none) (minNameFor lit cb)

/-- The status names a checkbox configuration maps to a given literal. -/
def namesFor (lit : Str) (cb : List (Str × Str)) : List Str :=
  (cb.filter (fun e => e.2 = lit)).map (fun e => e.1)

/-- The line cleanup `ParseTask` applies before matching (leading blanks and
trailing newline characters stripped). -/
def cleanLine (s : Str) : Str :=
  trimRightSet (fun c => c = '\n' || c = '\r')
    (trimLeftSet (fun c => c = ' ' || c = '\t') s)

/-- Fixture (C7): two status names sharing the literal `"- [ ]"`, in one
insertion order. -/
def cbC7 : List (Str × Str) :=
  [("zeta".toList, "- [ ]".toList), ("alpha".toList, "- [ ]".toList)]

/-- Fixture (C7): the same configuration in the opposite insertion order. -/
def cbC7r : List (Str × Str) :=
  [("alpha".toList, "- [ ]".toList), ("zeta".toList, "- [ ]".toList)]

/-- Fixture (C8): a configuration with a whitespace-only checkbox literal
alongside a regular one. -/
def cbC8 : List (Str × Str) :=
  [("open".toList, "- [ ]".toList), ("junk".toList, "   ".toList)]

/-- Fixture (C8): an indented code line (not a task). -/
def rmC8 : RawMatch :=
  { path := "/t.md".toList, lineNumber := 7,
    text := "    x := compute(y)".toList }

/-- The text a marker contributes after its `>>` prefix in a formatted line
(specification-side bookkeeping for the round-trip argument). -/
def bodyOfMarker (m : GoMarker) : Str :=
  m.kind ++ ' ' :: '[' :: '[' ::
    (m.date ++ ']' :: ']' :: (if m.time ≠ [] then ' ' :: m.time else []))

/-- The segments `strings.Split` produces on the marker region of a formatted
line (each body carries the next marker's leading space, the last does not). -/
def segsOfMarkers : List GoMarker → List Str
  | [] => []
  | [m] => [bodyOfMarker m]
  | m :: m2 :: rest => (bodyOfMarker m ++ [' ']) :: segsOfMarkers (m2 :: rest)

/-- The marker region of a formatted line from its first `>>` on (the point
where `markerStartRe` first matches). -/
def regionOfMarkers : List GoMarker → Str
  | [] => []
  | m :: rest =>
    '>' :: '>' :: bodyOfMarker m ++
      (rest.map (fun m2 => ' ' :: '>' :: '>' :: bodyOfMarker m2)).flatten

/-! ## Helper lemmas -/

theorem getD_mem {α : Type} {l : List α} {i : Nat} (d : α) (h : i < l.length) :
    l.getD i d ∈ l := by
  rw [List.getD_eq_getElem?_getD, List.getElem?_eq_getElem h]
  exact List.getElem_mem h

theorem range_reverse_cons (k : Nat) :
    (List.range (k + 1)).reverse = k :: (List.range k).reverse := by
  rw [List.range_succ, List.reverse_append]
  rfl

theorem drop_range_cons {n s : Nat} (h : s < n) :
    (List.range n).drop s = s :: (List.range n).drop (s + 1) := by
  rw [List.drop_eq_getElem_cons (by simpa using h)]
  simp

theorem scan_finds {n : Nat} (p : Nat → Bool) (j : Nat) (hj : j < n) (hpj : p j = true) :
    ∀ d s, s ≤ j → j - s = d → (∀ i, s ≤ i → i < j → p i = false) →
      ((List.range n).drop s).find? p = some j := by
  intro d
  induction d with
  | zero =>
    intro s hsj hd _
    have hs : s = j := by omega
    subst hs
    rw [drop_range_cons (by omega)]
    simp [List.find?_cons, hpj]
  | succ d ih =>
    intro s hsj hd hlow
    have hsj2 : s < j := by omega
    rw [drop_range_cons (by omega)]
    rw [List.find?_cons, hlow s (Nat.le_refl s) hsj2]
    exact ih (s + 1) (by omega) (by omega) (fun i h1 h2 => hlow i (by omega) h2)

/-! ## Claim C10 -/

/-- C10: under the `first_match` policy, a dated task whose due date is
strictly before every cutoff of a non-empty list of dated horizons is still
assigned a bucket: `firstMatchHorizon` falls back to the last horizon of the
list (the highest non-undated index), which is itself dated. -/
theorem c10_first_match_fallback (hs : List ResolvedHorizon) (date : Int)
    (hne : hs ≠ []) (hall : ∀ h ∈ hs, h.undated = false)
    (hlt : ∀ h ∈ hs, date < h.cutoff) :
    firstMatchHorizon date hs = hs.length - 1 ∧
      (hs.getD (hs.length - 1) rhDefault).undated = false := by
  obtain ⟨k, hk⟩ : ∃ k, hs.length = k + 1 := by
    cases hs with
    | nil => exact absurd rfl hne
    | cons a l => exact ⟨l.length, rfl⟩
  have hmem : ∀ i, i < hs.length → hs.getD i rhDefault ∈ hs := fun i hi => getD_mem _ hi
  have hfind : (List.range hs.length).find?
      (fun i =>
        let h := hs.getD i rhDefault
        !h.undated && decide (h.cutoff ≤ date)) = none := by
    apply List.find?_eq_none.mpr
    intro i hi
    have hi2 : i < hs.length := List.mem_range.mp hi
    have h1 := hall _ (hmem i hi2)
    have h2 := hlt _ (hmem i hi2)
    simp only [h1, Bool.not_false, Bool.true_and, decide_eq_true_eq]
    omega
  have hlast : (hs.getD k rhDefault).undated = false := hall _ (hmem k (by omega))
  have hrev : (List.range hs.length).reverse.find?
      (fun i => !(hs.getD i rhDefault).undated) = some k := by
    rw [hk, range_reverse_cons]
    simp [List.find?_cons, ← List.getD_eq_getElem?_getD, hlast]
  constructor
  · unfold firstMatchHorizon
    rw [hfind, hrev, hk]
    rfl
  · rw [hk]
    simpa using hlast

/-- C10 witness: one dated horizon with cutoff 5 and a task dated 3. -/
theorem c10_witness :
    ([({label := "# H".toList, cutoff := 5} : ResolvedHorizon)] ≠ []) ∧
      firstMatchHorizon 3 [{label := "# H".toList, cutoff := 5}] =
        [({label := "# H".toList, cutoff := 5} : ResolvedHorizon)].length - 1 := by
  refine ⟨by decide, ?_⟩
  exact (c10_first_match_fallback [{label := "# H".toList, cutoff := 5}] 3 (by decide)
    (by decide) (by decide)).1

/-! ## Claim C6 -/

/-- C6: resolving `end_of_week` yields the start of the day after the last day
of the current week (the week's last day being the day before `weekStart`),
advancing by a full week when today falls exactly on that last day; with
today = 2026-02-17 (a Tuesday) the cutoff is 2026-02-23 for `weekStart`
Monday and 2026-02-22 for `weekStart` Sunday. -/
theorem c6_end_of_week (today weekStart : Int) (h0 : 0 ≤ weekStart) (h6 : weekStart ≤ 6) :
    resolveCalendarKeyword "end_of_week".toList today weekStart =
      some (specEndOfWeek today weekStart) ∧
    resolveCalendarKeyword "end_of_week".toList (daysFromCivil 2026 2 17) 1 =
      some (daysFromCivil 2026 2 23) ∧
    resolveCalendarKeyword "end_of_week".toList (daysFromCivil 2026 2 17) 0 =
      some (daysFromCivil 2026 2 22) := by
  refine ⟨?_, by decide, by decide⟩
  have hwd0 : 0 ≤ goWeekday today := by unfold goWeekday; omega
  have hwd6 : goWeekday today ≤ 6 := by unfold goWeekday; omega
  have harith :
      Int.tmod ((if weekStart - 1 < 0 then (6 : Int) else weekStart - 1) -
          goWeekday today + 7) 7 =
        ((weekStart + 6) % 7 - goWeekday today) % 7 := by
    rw [Int.tmod_eq_emod (by unfold goWeekday at hwd0 hwd6 ⊢; split_ifs <;> omega) (by omega)]
    unfold goWeekday
    split_ifs <;> omega
  unfold resolveCalendarKeyword specEndOfWeek
  rw [if_neg (by decide), if_neg (by decide), if_pos (by decide)]
  dsimp only
  rw [harith]

/-- C6 witness: the general statement applied at today = 2026-02-17 and
`weekStart` Monday. -/
theorem c6_witness :
    ((0 : Int) ≤ 1 ∧ (1 : Int) ≤ 6) ∧
      resolveCalendarKeyword "end_of_week".toList (daysFromCivil 2026 2 17) 1 =
        some (specEndOfWeek (daysFromCivil 2026 2 17) 1) :=
  ⟨by decide, (c6_end_of_week (daysFromCivil 2026 2 17) 1 (by decide) (by decide)).1⟩

/-! ## Claim C5 -/

/-- C5: under the `sorted` policy, for an ascending list of dated horizons and
a task due exactly at horizon `j`'s cutoff, the scan assigns bucket `j` (from
any monotone starting index): the interval is inclusive at its own cutoff,
exclusive at the next cutoff (so every earlier horizon rejects the date), and
the final horizon's interval is unbounded above. -/
theorem c5_cutoff_boundary (hs : List ResolvedHorizon) (j start : Nat) (date : Int)
    (hasc : List.Pairwise (fun a b => a.cutoff < b.cutoff) hs)
    (hj : j < hs.length) (hstart : start ≤ j)
    (hdate : date = (hs.getD j rhDefault).cutoff) :
    nextInterval "sorted".toList date hs start = j ∧
    inHorizon date j hs = true ∧
    (∀ i, i < j → inHorizon date i hs = false) ∧
    (∀ d2 : Int, (hs.getD (hs.length - 1) rhDefault).cutoff ≤ d2 →
      inHorizon d2 (hs.length - 1) hs = true) := by
  have hgetD : ∀ i, (h : i < hs.length) → hs.getD i rhDefault = hs[i] := by
    intro i h
    rw [List.getD_eq_getElem?_getD, List.getElem?_eq_getElem h]
    rfl
  have hpair : ∀ a b, a < b → b < hs.length →
      (hs.getD a rhDefault).cutoff < (hs.getD b rhDefault).cutoff := by
    intro a b hab hb
    have ha : a < hs.length := Nat.lt_trans hab hb
    rw [hgetD a ha, hgetD b hb]
    exact List.pairwise_iff_getElem.mp hasc a b ha hb hab
  have hin : inHorizon date j hs = true := by
    unfold inHorizon
    by_cases hlast : j = hs.length - 1
    · rw [if_pos hlast]
      simp [hdate]
    · rw [if_neg hlast]
      have hj1 : j + 1 < hs.length := by omega
      have := hpair j (j + 1) (by omega) hj1
      simp only [hdate]
      simp only [Bool.and_eq_true, decide_eq_true_eq]
      omega
  have hlow : ∀ i, i < j → inHorizon date i hs = false := by
    intro i hij
    unfold inHorizon
    have hne : i ≠ hs.length - 1 := by omega
    rw [if_neg hne]
    have hle : (hs.getD (i + 1) rhDefault).cutoff ≤ date := by
      rcases Nat.lt_or_ge (i + 1) j with h | h
      · exact le_of_lt (hdate ▸ hpair (i + 1) j h hj)
      · have : i + 1 = j := by omega
        rw [this, ← hdate]
    have : decide (date < (hs.getD (i + 1) rhDefault).cutoff) = false := by
      simp only [decide_eq_false_iff_not]
      omega
    rw [this]
    simp
  refine ⟨?_, hin, hlow, ?_⟩
  · unfold nextInterval
    rw [if_neg (by decide), if_neg (by decide),
      scan_finds (fun i => inHorizon date i hs) j hj hin (j - start) start hstart rfl
        (fun i h1 h2 => hlow i h2)]
  · intro d2 hd2
    unfold inHorizon
    rw [if_pos rfl]
    simpa using hd2

/-- C5 witness: two ascending horizons with cutoffs 10 and 20 and a task due
exactly at the second cutoff. -/
theorem c5_witness :
    ((1 : Nat) < ([{label := "# P".toList, cutoff := 10},
        {label := "# Q".toList, cutoff := 20}] : List ResolvedHorizon).length) ∧
    nextInterval "sorted".toList 20
      [{label := "# P".toList, cutoff := 10}, {label := "# Q".toList, cutoff := 20}] 0 = 1 := by
  refine ⟨by decide, ?_⟩
  exact (c5_cutoff_boundary
    [{label := "# P".toList, cutoff := 10}, {label := "# Q".toList, cutoff := 20}]
    1 0 20 (by decide) (by decide) (by decide) (by decide)).1

/-! ## Structure of the resolver loop -/

theorem rl_dated_pairs (now ws : Int) :
    ∀ (specs : List HorizonSpec) (n i : Nat),
      (resolveLoopAux n now ws i specs).1.map (fun h => (h.label, h.order)) =
        describeDated now ws i specs := by
  intro specs
  induction specs with
  | nil => intro n i; rfl
  | cons s rest ih =>
    intro n i
    unfold resolveLoopAux describeDated
    by_cases hu : s.undated
    · simpa [hu] using ih n (i + 1)
    · cases hpv : parseAfterValue s.after now ws with
      | error e => simpa [hu, hpv] using ih n (i + 1)
      | ok c => simpa [hu, hpv] using ih n (i + 1)

theorem rl_undated_pairs (now ws : Int) :
    ∀ (specs : List HorizonSpec) (n i : Nat),
      (resolveLoopAux n now ws i specs).2.1.map (fun h => (h.label, h.order)) =
        describeUndated n i specs := by
  intro specs
  induction specs with
  | nil => intro n i; rfl
  | cons s rest ih =>
    intro n i
    unfold resolveLoopAux describeUndated
    by_cases hu : s.undated
    · simpa [hu] using ih n (i + 1)
    · cases hpv : parseAfterValue s.after now ws with
      | error e => simpa [hu, hpv] using ih n (i + 1)
      | ok c => simpa [hu, hpv] using ih n (i + 1)

theorem rl_errs (now ws : Int) :
    ∀ (specs : List HorizonSpec) (n i : Nat),
      (resolveLoopAux n now ws i specs).2.2 =
        (failedDated now ws specs).map (fun s => warnOf s.label (errMsgOf s now ws)) := by
  intro specs
  induction specs with
  | nil => intro n i; rfl
  | cons s rest ih =>
    intro n i
    unfold resolveLoopAux failedDated
    by_cases hu : s.undated
    · simpa [hu, List.filter_cons, afterFails] using ih n (i + 1)
    · cases hpv : parseAfterValue s.after now ws with
      | error e =>
        have hf : afterFails s now ws = true := by unfold afterFails; rw [hpv]
        have herr : errMsgOf s now ws = e := by unfold errMsgOf; rw [hpv]
        simp only [List.filter_cons, hu, hf]
        simpa [hu, hpv, herr] using ih n (i + 1)
      | ok c =>
        have hf : afterFails s now ws = false := by unfold afterFails; rw [hpv]
        simp only [List.filter_cons, hu, hf]
        simpa [hu, hpv] using ih n (i + 1)

theorem rl_dated_labels (now ws : Int) :
    ∀ (specs : List HorizonSpec) (n i : Nat),
      (resolveLoopAux n now ws i specs).1.map (fun h => h.label) =
        (okDated now ws specs).map (fun s => s.label) := by
  intro specs
  induction specs with
  | nil => intro n i; rfl
  | cons s rest ih =>
    intro n i
    unfold resolveLoopAux okDated
    by_cases hu : s.undated
    · simpa [hu, List.filter_cons] using ih n (i + 1)
    · cases hpv : parseAfterValue s.after now ws with
      | error e =>
        have hf : afterFails s now ws = true := by unfold afterFails; rw [hpv]
        simp only [List.filter_cons, hu, hf]
        simpa [hu, hpv] using ih n (i + 1)
      | ok c =>
        have hf : afterFails s now ws = false := by unfold afterFails; rw [hpv]
        simp only [List.filter_cons, hu, hf]
        simpa [hu, hpv] using ih n (i + 1)

theorem rl_dated_flag (now ws : Int) :
    ∀ (specs : List HorizonSpec) (n i : Nat),
      ∀ h ∈ (resolveLoopAux n now ws i specs).1, h.undated = false := by
  intro specs
  induction specs with
  | nil => intro n i h hmem; cases hmem
  | cons s rest ih =>
    intro n i h hmem
    unfold resolveLoopAux at hmem
    by_cases hu : s.undated
    · simp only [hu, if_true] at hmem
      exact ih n (i + 1) h hmem
    · cases hpv : parseAfterValue s.after now ws with
      | error e =>
        simp only [hu, hpv] at hmem
        exact ih n (i + 1) h hmem
      | ok c =>
        simp only [hu, hpv] at hmem
        cases hmem with
        | head => rfl
        | tail _ h2 => exact ih n (i + 1) h h2

theorem rl_undated_flag (now ws : Int) :
    ∀ (specs : List HorizonSpec) (n i : Nat),
      ∀ h ∈ (resolveLoopAux n now ws i specs).2.1, h.undated = true := by
  intro specs
  induction specs with
  | nil => intro n i h hmem; cases hmem
  | cons s rest ih =>
    intro n i h hmem
    unfold resolveLoopAux at hmem
    by_cases hu : s.undated
    · simp only [hu, if_true, List.mem_cons] at hmem
      rcases hmem with heq | hmem
      · subst heq; rfl
      · exact ih n (i + 1) h hmem
    · cases hpv : parseAfterValue s.after now ws with
      | error e =>
        simp only [hu, hpv] at hmem
        exact ih n (i + 1) h hmem
      | ok c =>
        simp only [hu, hpv] at hmem
        exact ih n (i + 1) h hmem

theorem insertBy_perm {α : Type} (lt : α → α → Bool) (x : α) :
    ∀ l : List α, List.Perm (insertBy lt x l) (x :: l) := by
  intro l
  induction l with
  | nil => exact List.Perm.refl _
  | cons y ys ih =>
    unfold insertBy
    by_cases h : lt x y
    · rw [if_pos h]
    · rw [if_neg h]
      exact (ih.cons y).trans (List.Perm.swap x y ys)

theorem sortBy_perm {α : Type} (lt : α → α → Bool) :
    ∀ l : List α, List.Perm (sortBy lt l) l := by
  intro l
  induction l with
  | nil => exact List.Perm.refl _
  | cons x xs ih => exact (insertBy_perm lt x (sortBy lt xs)).trans (ih.cons x)

theorem reassignOrderAux_map_lu :
    ∀ (l : List ResolvedHorizon) (i : Nat),
      (reassignOrderAux i l).map (fun h => (h.label, h.undated)) =
        l.map (fun h => (h.label, h.undated)) := by
  intro l
  induction l with
  | nil => intro i; rfl
  | cons h t ih => intro i; simp [reassignOrderAux, ih (i + 1)]

theorem reassignOrderAux_map_label :
    ∀ (l : List ResolvedHorizon) (i : Nat),
      (reassignOrderAux i l).map (fun h => h.label) = l.map (fun h => h.label) := by
  intro l
  induction l with
  | nil => intro i; rfl
  | cons h t ih => intro i; simp [reassignOrderAux, ih (i + 1)]

theorem reassignOrderAux_length :
    ∀ (l : List ResolvedHorizon) (i : Nat), (reassignOrderAux i l).length = l.length := by
  intro l
  induction l with
  | nil => intro i; rfl
  | cons h t ih => intro i; simp [reassignOrderAux, ih (i + 1)]

theorem reassignOrderAux_getD_order :
    ∀ (l : List ResolvedHorizon) (i k : Nat), k < l.length →
      ((reassignOrderAux i l).getD k rhDefault).order = ((i + k : Nat) : Int) := by
  intro l
  induction l with
  | nil => intro i k hk; cases hk
  | cons h t ih =>
    intro i k hk
    cases k with
    | zero => rfl
    | succ k2 =>
      unfold reassignOrderAux
      have := ih (i + 1) k2 (by simpa using hk)
      simp only [List.getD_cons_succ]
      rw [this]
      congr 1
      omega

theorem reassignOrderAux_undated :
    ∀ (l : List ResolvedHorizon) (i : Nat),
      ∀ h ∈ reassignOrderAux i l, h.undated ∈ l.map (fun x => x.undated) := by
  intro l
  induction l with
  | nil => intro i h hmem; cases hmem
  | cons x t ih =>
    intro i h hmem
    unfold reassignOrderAux at hmem
    simp only [List.mem_cons] at hmem
    rcases hmem with rfl | hmem
    · simp
    · simp only [List.map_cons, List.mem_cons]
      exact Or.inr (ih (i + 1) h hmem)

theorem sortDated_pairs (ov : Str) (l : List ResolvedHorizon) :
    List.Perm ((sortDatedIfSorted ov l).map (fun h => (h.label, h.undated)))
      (l.map (fun h => (h.label, h.undated))) := by
  unfold sortDatedIfSorted
  split_ifs with h
  · rw [show reassignOrder (sortBy cutoffLt l) = reassignOrderAux 0 (sortBy cutoffLt l) from rfl,
      reassignOrderAux_map_lu]
    exact (sortBy_perm cutoffLt l).map _
  · exact List.Perm.refl _

theorem sortDated_labels (ov : Str) (l : List ResolvedHorizon) :
    List.Perm ((sortDatedIfSorted ov l).map (fun h => h.label))
      (l.map (fun h => h.label)) := by
  unfold sortDatedIfSorted
  split_ifs with h
  · rw [show reassignOrder (sortBy cutoffLt l) = reassignOrderAux 0 (sortBy cutoffLt l) from rfl,
      reassignOrderAux_map_label]
    exact (sortBy_perm cutoffLt l).map _
  · exact List.Perm.refl _

theorem sortDated_length (ov : Str) (l : List ResolvedHorizon) :
    (sortDatedIfSorted ov l).length = l.length := by
  have := (sortDated_labels ov l).length_eq
  simpa using this

theorem sortDated_flag (ov : Str) (l : List ResolvedHorizon)
    (hl : ∀ h ∈ l, h.undated = false) :
    ∀ h ∈ sortDatedIfSorted ov l, h.undated = false := by
  intro h hm
  have hpair : (h.label, h.undated) ∈ l.map (fun x => (x.label, x.undated)) :=
    (sortDated_pairs ov l).subset (List.mem_map_of_mem _ hm)
  obtain ⟨x, hx, hxe⟩ := List.mem_map.mp hpair
  have := hl x hx
  have h2 : x.undated = h.undated := congrArg Prod.snd hxe
  rw [← h2, this]

theorem RH_no_fallback (specs : List HorizonSpec) (now ws : Int) (ov : Str)
    (h0 : ¬ specs.isEmpty)
    (hnf : (resolveLoop specs now ws).1 ≠ [] ∨ (resolveLoop specs now ws).2.2 = []) :
    ResolveHorizons specs now ws ov =
      (sortDatedIfSorted ov (resolveLoop specs now ws).1 ++ (resolveLoop specs now ws).2.1,
        (resolveLoop specs now ws).2.2) := by
  have h0b : specs.isEmpty = false := by simpa using h0
  unfold ResolveHorizons
  simp only [h0b, Bool.false_eq_true, if_false]
  rw [if_neg]
  intro hand
  rcases hnf with hne | he
  · exact hne (List.isEmpty_iff.mp hand.2)
  · exact hand.1 (by simp [he])

theorem RH_fallback (specs : List HorizonSpec) (now ws : Int) (ov : Str)
    (h0 : ¬ specs.isEmpty) (hd : (resolveLoop specs now ws).1 = [])
    (he : (resolveLoop specs now ws).2.2 ≠ []) :
    ResolveHorizons specs now ws ov =
      (sortDatedIfSorted ov (resolveLoop defaultHorizonSpecs now ws).1 ++
        (resolveLoop defaultHorizonSpecs now ws).2.1,
        (resolveLoop specs now ws).2.2) := by
  have h0b : specs.isEmpty = false := by simpa using h0
  unfold ResolveHorizons
  simp only [h0b, Bool.false_eq_true, if_false]
  rw [if_pos]
  constructor
  · simpa using he
  · simpa using hd

/-- The defaults always resolve: the loop yields seven dated horizons (orders
0–6, cutoffs relative to `now`) and the undated `# Someday` with order 15, and
no parse errors. -/
theorem default_loop (now ws : Int) :
    resolveLoop defaultHorizonSpecs now ws =
      ([ {label := "# Overdue".toList, cutoff := addDateGo now (-100) 0 0, order := 0},
         {label := "# Today".toList, cutoff := addDateGo now 0 0 0, order := 1},
         {label := "# Tomorrow".toList, cutoff := addDateGo now 0 0 1, order := 2},
         {label := "# This Week".toList, cutoff := addDateGo now 0 0 2, order := 3},
         {label := "# This Month".toList, cutoff := addDateGo now 0 0 8, order := 4},
         {label := "# This Year".toList, cutoff := addDateGo now 0 0 31, order := 5},
         {label := "# Far Off".toList, cutoff := addDateGo now 0 0 366, order := 6} ],
       [{label := "# Someday".toList, undated := true, order := 15}], []) := by
  rfl

/-! ## Claim C3 -/

/-- C3: when some horizon specs fail to resolve, only those specs are dropped
and each drop produces a warning naming the spec's label; the surviving dated
specs are still resolved; and when no dated spec survives a failure, the
result is the fully resolved built-in default set — seven dated horizons plus
the undated `# Someday` — never an empty or dated-horizon-free list. -/
theorem c3_drop_and_fallback (specs : List HorizonSpec) (now ws : Int) (ov : Str)
    (h0 : ¬ specs.isEmpty) :
    (ResolveHorizons specs now ws ov).2 =
      (failedDated now ws specs).map (fun s => warnOf s.label (errMsgOf s now ws)) ∧
    (∀ s ∈ failedDated now ws specs,
      List.IsInfix s.label (warnOf s.label (errMsgOf s now ws))) ∧
    (okDated now ws specs ≠ [] →
      List.Perm
        (((ResolveHorizons specs now ws ov).1.filter (fun h => !h.undated)).map
          (fun h => h.label))
        ((okDated now ws specs).map (fun s => s.label))) ∧
    (okDated now ws specs = [] → failedDated now ws specs ≠ [] →
      List.Perm
        ((ResolveHorizons specs now ws ov).1.map (fun h => (h.label, h.undated)))
        (defaultHorizonSpecs.map (fun s => (s.label, s.undated))) ∧
      ((ResolveHorizons specs now ws ov).1.filter (fun h => !h.undated)).length = 7 ∧
      ((ResolveHorizons specs now ws ov).1.filter (fun h => h.undated)).map
          (fun h => h.label) = ["# Someday".toList]) := by
  have hlab : (resolveLoop specs now ws).1.map (fun h => h.label) =
      (okDated now ws specs).map (fun s => s.label) :=
    rl_dated_labels now ws specs specs.length 0
  have herr : (resolveLoop specs now ws).2.2 =
      (failedDated now ws specs).map (fun s => warnOf s.label (errMsgOf s now ws)) :=
    rl_errs now ws specs specs.length 0
  refine ⟨?_, ?_, ?_, ?_⟩
  · have hsnd : (ResolveHorizons specs now ws ov).2 = (resolveLoop specs now ws).2.2 := by
      by_cases hne : (resolveLoop specs now ws).1 = []
      · by_cases he : (resolveLoop specs now ws).2.2 = []
        · rw [RH_no_fallback specs now ws ov h0 (Or.inr he)]
        · rw [RH_fallback specs now ws ov h0 hne he]
      · rw [RH_no_fallback specs now ws ov h0 (Or.inl hne)]
    rw [hsnd, herr]
  · intro s hs
    exact ⟨"horizon \"".toList, "\": ".toList ++ errMsgOf s now ws, by simp [warnOf]⟩
  · intro hok
    have hne : (resolveLoop specs now ws).1 ≠ [] := by
      intro hnil
      rw [hnil] at hlab
      exact hok (List.map_eq_nil_iff.mp hlab.symm)
    rw [RH_no_fallback specs now ws ov h0 (Or.inl hne)]
    have hflag : ∀ h ∈ (resolveLoop specs now ws).1, h.undated = false :=
      rl_dated_flag now ws specs specs.length 0
    have hA : (sortDatedIfSorted ov (resolveLoop specs now ws).1).filter
        (fun h => !h.undated) = sortDatedIfSorted ov (resolveLoop specs now ws).1 := by
      apply List.filter_eq_self.mpr
      intro h hm
      rw [sortDated_flag ov _ hflag h hm]
      rfl
    have hB : (resolveLoop specs now ws).2.1.filter (fun h => !h.undated) = [] := by
      apply List.filter_eq_nil_iff.mpr
      intro h hm
      rw [rl_undated_flag now ws specs specs.length 0 h hm]
      simp
    simp only [List.filter_append, hA, hB, List.append_nil]
    exact (sortDated_labels ov _).trans (hlab ▸ List.Perm.refl _)
  · intro hok hfail
    have hdnil : (resolveLoop specs now ws).1 = [] := by
      rw [hok] at hlab
      simp only [List.map_nil] at hlab
      exact List.map_eq_nil_iff.mp hlab
    have henil : (resolveLoop specs now ws).2.2 ≠ [] := by
      rw [herr]
      simpa using hfail
    rw [RH_fallback specs now ws ov h0 hdnil henil, default_loop]
    set D : List ResolvedHorizon :=
      [ {label := "# Overdue".toList, cutoff := addDateGo now (-100) 0 0, order := 0},
        {label := "# Today".toList, cutoff := addDateGo now 0 0 0, order := 1},
        {label := "# Tomorrow".toList, cutoff := addDateGo now 0 0 1, order := 2},
        {label := "# This Week".toList, cutoff := addDateGo now 0 0 2, order := 3},
        {label := "# This Month".toList, cutoff := addDateGo now 0 0 8, order := 4},
        {label := "# This Year".toList, cutoff := addDateGo now 0 0 31, order := 5},
        {label := "# Far Off".toList, cutoff := addDateGo now 0 0 366, order := 6} ] with hD
    set U : List ResolvedHorizon :=
      [{label := "# Someday".toList, undated := true, order := 15}] with hU
    have hDflag : ∀ h ∈ D, h.undated = false := by
      intro h hm
      rw [hD] at hm
      fin_cases hm <;> rfl
    refine ⟨?_, ?_, ?_⟩
    · rw [List.map_append]
      refine ((sortDated_pairs ov D).append_right _).trans ?_
      rw [hD, hU]
      exact List.Perm.refl _
    · have hA : (sortDatedIfSorted ov D).filter (fun h => !h.undated) =
          sortDatedIfSorted ov D := by
        apply List.filter_eq_self.mpr
        intro h hm
        rw [sortDated_flag ov D hDflag h hm]
        rfl
      have hB : U.filter (fun h => !h.undated) = [] := by rw [hU]; rfl
      rw [List.filter_append, hA, hB, List.append_nil, sortDated_length, hD]
      rfl
    · have hA : (sortDatedIfSorted ov D).filter (fun h => h.undated) = [] := by
        apply List.filter_eq_nil_iff.mpr
        intro h hm
        rw [sortDated_flag ov D hDflag h hm]
        simp
      have hB : U.filter (fun h => h.undated) = U := by rw [hU]; rfl
      rw [List.filter_append, hA, hB, List.nil_append, hU]
      rfl

/-- C3 witness: one resolvable spec and one with an unknown keyword. -/
theorem c3_witness :
    ¬ ([ ({label := "# Good".toList, after := .num 0} : HorizonSpec),
         {label := "# Bad".toList, after := .str "bogus".toList} ] :
        List HorizonSpec).isEmpty ∧
    (ResolveHorizons
        [ {label := "# Good".toList, after := .num 0},
          {label := "# Bad".toList, after := .str "bogus".toList} ] nowC4 1
        "sorted".toList).2 =
      (failedDated nowC4 1
          [ {label := "# Good".toList, after := .num 0},
            {label := "# Bad".toList, after := .str "bogus".toList} ]).map
        (fun s => warnOf s.label (errMsgOf s nowC4 1)) := by
  refine ⟨by decide, ?_⟩
  exact (c3_drop_and_fallback
    [ {label := "# Good".toList, after := .num 0},
      {label := "# Bad".toList, after := .str "bogus".toList} ] nowC4 1
    "sorted".toList (by decide)).1

/-! ## Claim C9 -/

/-- C9 (amended): `ResolveHorizons` records each spec's explicit `order` when
given and otherwise its input position (undated specs: spec count + input
position), but the `order` field never reorders the list: dated horizons stay
in input order followed by the undated ones, except that the `sorted` policy
reorders the dated prefix by ascending cutoff and reassigns each dated
horizon's `order` to its position in that prefix. -/
theorem c9_order_fields (specs : List HorizonSpec) (now ws : Int) (ov : Str)
    (h0 : ¬ specs.isEmpty) (hsv : okDated now ws specs ≠ []) :
    (ov ≠ [] → ov ≠ "sorted".toList →
      (ResolveHorizons specs now ws ov).1.map (fun h => (h.label, h.order)) =
        describeDated now ws 0 specs ++ describeUndated specs.length 0 specs) ∧
    (((ResolveHorizons specs now ws ov).1.drop (okDated now ws specs).length).map
        (fun h => (h.label, h.order)) = describeUndated specs.length 0 specs) ∧
    ((ov = [] ∨ ov = "sorted".toList) → ∀ i, i < (okDated now ws specs).length →
      ((ResolveHorizons specs now ws ov).1.getD i rhDefault).order = (i : Int)) := by
  have hlab : (resolveLoop specs now ws).1.map (fun h => h.label) =
      (okDated now ws specs).map (fun s => s.label) :=
    rl_dated_labels now ws specs specs.length 0
  have hlen : (resolveLoop specs now ws).1.length = (okDated now ws specs).length := by
    have := congrArg List.length hlab
    simpa using this
  have hne : (resolveLoop specs now ws).1 ≠ [] := by
    intro hnil
    rw [hnil] at hlab
    exact hsv (List.map_eq_nil_iff.mp hlab.symm)
  have hres := RH_no_fallback specs now ws ov h0 (Or.inl hne)
  have hdp : (resolveLoop specs now ws).1.map (fun h => (h.label, h.order)) =
      describeDated now ws 0 specs :=
    rl_dated_pairs now ws specs specs.length 0
  have hup : (resolveLoop specs now ws).2.1.map (fun h => (h.label, h.order)) =
      describeUndated specs.length 0 specs :=
    rl_undated_pairs now ws specs specs.length 0
  refine ⟨?_, ?_, ?_⟩
  · intro hov1 hov2
    rw [hres]
    have hovb : (decide (ov = []) || decide (ov = "sorted".toList)) = false := by
      simp only [Bool.or_eq_false_iff, decide_eq_false_iff_not]
      exact ⟨hov1, hov2⟩
    have hs : sortDatedIfSorted ov (resolveLoop specs now ws).1 =
        (resolveLoop specs now ws).1 := by
      unfold sortDatedIfSorted
      simp only [hovb, Bool.false_eq_true, if_false]
    rw [hs, List.map_append, hdp, hup]
  · rw [hres]
    have hslen : (sortDatedIfSorted ov (resolveLoop specs now ws).1).length =
        (okDated now ws specs).length := by
      rw [sortDated_length]
      exact hlen
    rw [← hslen, List.drop_left, hup]
  · intro hov i hi
    rw [hres]
    have hovb : (decide (ov = []) || decide (ov = "sorted".toList)) = true := by
      rcases hov with h | h <;> simp [h]
    have hs : sortDatedIfSorted ov (resolveLoop specs now ws).1 =
        reassignOrderAux 0 (sortBy cutoffLt (resolveLoop specs now ws).1) := by
      unfold sortDatedIfSorted
      simp only [hovb, if_true]
      rfl
    have hilen : i < (reassignOrderAux 0
        (sortBy cutoffLt (resolveLoop specs now ws).1)).length := by
      rw [reassignOrderAux_length]
      have := (sortBy_perm cutoffLt (resolveLoop specs now ws).1).length_eq
      omega
    have hgetd : ((sortDatedIfSorted ov (resolveLoop specs now ws).1 ++
        (resolveLoop specs now ws).2.1).getD i rhDefault) =
        ((sortDatedIfSorted ov (resolveLoop specs now ws).1).getD i rhDefault) := by
      rw [List.getD_eq_getElem?_getD, List.getD_eq_getElem?_getD,
        List.getElem?_append_left (by rw [hs]; exact hilen)]
    rw [hgetd, hs]
    have := reassignOrderAux_getD_order (sortBy cutoffLt (resolveLoop specs now ws).1) 0 i
      (by simpa [reassignOrderAux_length] using hilen)
    simpa using this

/-- C9 witness: the amended statement at the counterexample's input (policy
`first_match`). -/
theorem c9_witness :
    (¬ specsC9.isEmpty ∧ okDated nowC4 1 specsC9 ≠ []) ∧
      (ResolveHorizons specsC9 nowC4 1 "first_match".toList).1.map
          (fun h => (h.label, h.order)) =
        describeDated nowC4 1 0 specsC9 ++ describeUndated specsC9.length 0 specsC9 := by
  refine ⟨by decide, ?_⟩
  exact (c9_order_fields specsC9 nowC4 1 "first_match".toList (by decide) (by decide)).1
    (by decide) (by decide)

/-! ## Claim C9 (counterexample) -/

/-- C9 counterexample: with two dated specs whose explicit `order` fields
reverse their input positions and the `first_match` policy, the resolved list
stays in input order (`# A` before `# B`) and keeps the explicit orders `5`,
`0` — the `order` field neither reorders the list nor equals the final
position.  Under the default `sorted` policy the built-in undated horizon
ends up at position 7 with `order = 15`. -/
theorem c9_counterexample :
    ((ResolveHorizons specsC9 nowC4 1 "first_match".toList).1.map
        (fun h => (h.label, h.order))) =
      [("# A".toList, 5), ("# B".toList, 0)] ∧
    ((ResolveHorizons [] nowC4 1 "sorted".toList).1.map (fun h => h.order)) =
      [0, 1, 2, 3, 4, 5, 6, 15] := by
  constructor
  · decide
  · decide

/-! ## Claim C4: lines of the generated report -/

theorem linesOf_append (a r : Str) (h : ('\n' : Char) ∉ a) :
    linesOf (a ++ '\n' :: r) = a :: linesOf r := by
  induction a with
  | nil => simp [linesOf]
  | cons c cs ih =>
    have hc : c ≠ '\n' := fun hcc => h (hcc ▸ List.mem_cons_self c cs)
    have hcs : ('\n' : Char) ∉ cs := fun hm => h (List.mem_cons_of_mem c hm)
    rw [List.cons_append]
    show linesOf (c :: (cs ++ '\n' :: r)) = (c :: cs) :: linesOf r
    rw [linesOf, if_neg hc, ih hcs]

theorem firstMatchHorizon_lt (date : Int) (hs : List ResolvedHorizon) (hne : hs ≠ []) :
    firstMatchHorizon date hs < hs.length := by
  have hpos : 0 < hs.length := List.length_pos.mpr hne
  unfold firstMatchHorizon
  cases hf : (List.range hs.length).find?
      (fun i =>
        let h := hs.getD i rhDefault
        !h.undated && decide (h.cutoff ≤ date)) with
  | some i =>
    have hmem := List.mem_of_find?_eq_some hf
    exact List.mem_range.mp hmem
  | none =>
    cases hr : (List.range hs.length).reverse.find?
        (fun i => !(hs.getD i rhDefault).undated) with
    | some i =>
      have hmem := List.mem_of_find?_eq_some hr
      rw [List.mem_reverse] at hmem
      exact List.mem_range.mp hmem
    | none => exact hpos

theorem narrowestStep_counter (date : Int) (hs : List ResolvedHorizon)
    (acc : Int × Int × Nat) (h : ResolvedHorizon) :
    (narrowestStep date hs acc h).2.2 = acc.2.2 + 1 := by
  unfold narrowestStep
  dsimp only
  split_ifs <;> rfl

theorem narrowestStep_best (date : Int) (hs : List ResolvedHorizon)
    (acc : Int × Int × Nat) (h : ResolvedHorizon)
    (hacc : acc.1 = -1 ∨ acc.1.toNat < hs.length) (hi : acc.2.2 < hs.length) :
    (narrowestStep date hs acc h).1 = -1 ∨
      (narrowestStep date hs acc h).1.toNat < hs.length := by
  unfold narrowestStep
  dsimp only
  split_ifs <;> first
    | simpa using hacc
    | (refine Or.inr ?_; simpa using hi)

theorem narrowest_fold_inv (date : Int) (hs : List ResolvedHorizon) :
    ∀ (l : List ResolvedHorizon) (acc : Int × Int × Nat),
      acc.2.2 + l.length ≤ hs.length → (acc.1 = -1 ∨ acc.1.toNat < hs.length) →
      ((l.foldl (narrowestStep date hs) acc).1 = -1 ∨
        (l.foldl (narrowestStep date hs) acc).1.toNat < hs.length) := by
  intro l
  induction l with
  | nil => intro acc hlen hacc; simpa using hacc
  | cons x xs ih =>
    intro acc hlen hacc
    simp only [List.length_cons] at hlen
    rw [List.foldl_cons]
    refine ih _ ?_ ?_
    · rw [narrowestStep_counter]
      omega
    · exact narrowestStep_best date hs acc x hacc (by omega)

theorem narrowestHorizon_lt (date : Int) (hs : List ResolvedHorizon) (hne : hs ≠ []) :
    narrowestHorizon date hs < hs.length := by
  have hpos : 0 < hs.length := List.length_pos.mpr hne
  unfold narrowestHorizon
  dsimp only
  have hk := narrowest_fold_inv date hs hs (-1, 9223372036854775807, 0) (by simp)
    (Or.inl rfl)
  by_cases hbest :
      (hs.foldl (narrowestStep date hs) (-1, 9223372036854775807, 0)).1 = -1
  · rw [if_pos hbest]
    cases hr : (List.range hs.length).reverse.find?
        (fun i => !(hs.getD i rhDefault).undated) with
    | some i =>
      have hmem := List.mem_of_find?_eq_some hr
      rw [List.mem_reverse] at hmem
      exact List.mem_range.mp hmem
    | none => exact hpos
  · rw [if_neg hbest]
    rcases hk with hk | hk
    · exact absurd hk hbest
    · exact hk

theorem nextInterval_lt (ov : Str) (date : Int) (hs : List ResolvedHorizon)
    (interval : Nat) (h : interval < hs.length) :
    nextInterval ov date hs interval < hs.length := by
  have hne : hs ≠ [] := by
    intro hnil
    rw [hnil] at h
    simp at h
  unfold nextInterval
  split_ifs with h1 h2
  · exact firstMatchHorizon_lt date hs hne
  · exact narrowestHorizon_lt date hs hne
  · cases hf : ((List.range hs.length).drop interval).find?
        (fun i => inHorizon date i hs) with
    | some i =>
      have hmem := List.mem_of_find?_eq_some hf
      have : i ∈ List.range hs.length := List.mem_of_mem_drop hmem
      exact List.mem_range.mp this
    | none => exact h

theorem linesOf_newline_cons (r : Str) : linesOf ('\n' :: r) = [] :: linesOf r := by
  rw [linesOf, if_pos rfl]

theorem reportLoop_cons (opts : FormatOpts) (hs : List ResolvedHorizon)
    (ov : Str) (t : GoTask) (ts : List GoTask) (interval : Nat) (last : Int) :
    reportLoop opts hs ov (t :: ts) interval last =
      (if (nextInterval ov (t.dueDate.getD 0) hs interval : Int) ≠ last then
        (if last ≠ -1 then ['\n'] else []) ++
          (hs.getD (nextInterval ov (t.dueDate.getD 0) hs interval) rhDefault).label ++
          ['\n']
      else []) ++
      formatTaskLine t opts ++ ['\n'] ++
      reportLoop opts hs ov ts (nextInterval ov (t.dueDate.getD 0) hs interval)
        ((nextInterval ov (t.dueDate.getD 0) hs interval : Nat) : Int) := rfl

theorem reportLoop_cons_lines (opts : FormatOpts) (hs : List ResolvedHorizon)
    (ov : Str) (t : GoTask) (ts : List GoTask) (interval : Nat) (last : Int)
    (hl : ('\n' : Char) ∉
      (hs.getD (nextInterval ov (t.dueDate.getD 0) hs interval) rhDefault).label)
    (ht : ('\n' : Char) ∉ formatTaskLine t opts) :
    linesOf (reportLoop opts hs ov (t :: ts) interval last) =
      (if (nextInterval ov (t.dueDate.getD 0) hs interval : Int) ≠ last then
        (if last ≠ -1 then [([] : Str)] else []) ++
          [(hs.getD (nextInterval ov (t.dueDate.getD 0) hs interval) rhDefault).label]
      else []) ++
      formatTaskLine t opts ::
        linesOf (reportLoop opts hs ov ts
          (nextInterval ov (t.dueDate.getD 0) hs interval)
          ((nextInterval ov (t.dueDate.getD 0) hs interval : Nat) : Int)) := by
  rw [reportLoop_cons]
  by_cases hc1 : ((nextInterval ov (t.dueDate.getD 0) hs interval : Int) ≠ last)
  · rw [if_pos hc1, if_pos hc1]
    by_cases hc2 : last ≠ -1
    · rw [if_pos hc2, if_pos hc2]
      simp only [List.append_assoc, List.singleton_append, List.cons_append,
        List.nil_append]
      rw [linesOf_newline_cons, linesOf_append _ _ hl, linesOf_append _ _ ht]
    · rw [if_neg hc2, if_neg hc2]
      simp only [List.append_assoc, List.singleton_append, List.cons_append,
        List.nil_append]
      rw [linesOf_append _ _ hl, linesOf_append _ _ ht]
  · rw [if_neg hc1, if_neg hc1]
    simp only [List.append_assoc, List.singleton_append, List.cons_append,
      List.nil_append]
    rw [linesOf_append _ _ ht]

theorem bucketSeq_cons (ov : Str) (hs : List ResolvedHorizon) (t : GoTask)
    (ts : List GoTask) (interval : Nat) :
    bucketSeq ov hs (t :: ts) interval =
      nextInterval ov (t.dueDate.getD 0) hs interval ::
        bucketSeq ov hs ts (nextInterval ov (t.dueDate.getD 0) hs interval) := rfl

theorem loop_lines_complete (opts : FormatOpts) (hs : List ResolvedHorizon) (ov : Str)
    (hnlL : ∀ k, k < hs.length → ('\n' : Char) ∉ (hs.getD k rhDefault).label) :
    ∀ (ts : List GoTask) (interval : Nat) (last : Int) (j : Nat),
      (∀ t ∈ ts, ('\n' : Char) ∉ formatTaskLine t opts) →
      interval < hs.length →
      j ∈ bucketSeq ov hs ts interval → (j : Int) ≠ last →
      (hs.getD j rhDefault).label ∈ linesOf (reportLoop opts hs ov ts interval last) := by
  intro ts
  induction ts with
  | nil =>
    intro interval last j _ _ hmem _
    simp [bucketSeq] at hmem
  | cons t ts ih =>
    intro interval last j hnl hint hmem hlast
    have hi2 : nextInterval ov (t.dueDate.getD 0) hs interval < hs.length :=
      nextInterval_lt ov (t.dueDate.getD 0) hs interval hint
    rw [reportLoop_cons_lines opts hs ov t ts interval last (hnlL _ hi2)
      (hnl t (List.mem_cons_self t ts))]
    rw [bucketSeq_cons] at hmem
    by_cases hji : j = nextInterval ov (t.dueDate.getD 0) hs interval
    · rw [if_pos (hji ▸ hlast)]
      subst hji
      by_cases hc2 : last ≠ -1 <;> simp [hc2]
    · have hmem2 : j ∈ bucketSeq ov hs ts (nextInterval ov (t.dueDate.getD 0) hs interval) := by
        cases hmem with
        | head => exact absurd rfl hji
        | tail _ hm => exact hm
      have hcast : (j : Int) ≠ (nextInterval ov (t.dueDate.getD 0) hs interval : Int) := by
        intro hcc
        exact hji (by exact_mod_cast hcc)
      have := ih (nextInterval ov (t.dueDate.getD 0) hs interval)
        ((nextInterval ov (t.dueDate.getD 0) hs interval : Nat) : Int) j
        (fun x hx => hnl x (List.mem_cons_of_mem t hx)) hi2 hmem2 hcast
      simp only [List.mem_append, List.mem_cons]
      right
      right
      exact this

theorem loop_lines_sound (opts : FormatOpts) (hs : List ResolvedHorizon) (ov : Str)
    (j : Nat)
    (hlabne : (hs.getD j rhDefault).label ≠ [])
    (hinj : ∀ k, k < hs.length →
      (hs.getD k rhDefault).label = (hs.getD j rhDefault).label → k = j) :
    ∀ (ts : List GoTask) (interval : Nat) (last : Int),
      (∀ t ∈ ts, ('\n' : Char) ∉ formatTaskLine t opts) →
      (∀ t ∈ ts, (hs.getD j rhDefault).label ≠ formatTaskLine t opts) →
      (∀ k, k < hs.length → ('\n' : Char) ∉ (hs.getD k rhDefault).label) →
      interval < hs.length →
      (hs.getD j rhDefault).label ∈ linesOf (reportLoop opts hs ov ts interval last) →
      j ∈ bucketSeq ov hs ts interval := by
  intro ts
  induction ts with
  | nil =>
    intro interval last _ _ _ _ hmem
    simp only [reportLoop, linesOf, List.mem_singleton] at hmem
    exact absurd hmem hlabne
  | cons t ts ih =>
    intro interval last hnl htaskne hnlL hint hmem
    have hi2 : nextInterval ov (t.dueDate.getD 0) hs interval < hs.length :=
      nextInterval_lt ov (t.dueDate.getD 0) hs interval hint
    rw [reportLoop_cons_lines opts hs ov t ts interval last (hnlL _ hi2)
      (hnl t (List.mem_cons_self t ts))] at hmem
    rw [bucketSeq_cons]
    simp only [List.mem_append, List.mem_cons] at hmem
    rcases hmem with hm | hm | hm
    · by_cases hc1 : ((nextInterval ov (t.dueDate.getD 0) hs interval : Int) ≠ last)
      · rw [if_pos hc1] at hm
        simp only [List.mem_append, List.mem_singleton] at hm
        rcases hm with hm | hm
        · by_cases hc2 : last ≠ -1
          · rw [if_pos hc2] at hm
            simp only [List.mem_singleton] at hm
            exact absurd hm hlabne
          · rw [if_neg hc2] at hm
            cases hm
        · have := hinj _ hi2 hm.symm
          rw [← this]
          exact List.mem_cons_self _ _
      · rw [if_neg hc1] at hm
        cases hm
    · exact absurd hm (htaskne t (List.mem_cons_self t ts))
    · have := ih (nextInterval ov (t.dueDate.getD 0) hs interval)
        ((nextInterval ov (t.dueDate.getD 0) hs interval : Nat) : Int)
        (fun x hx => hnl x (List.mem_cons_of_mem t hx))
        (fun x hx => htaskne x (List.mem_cons_of_mem t hx)) hnlL hi2 hm
      exact List.mem_cons_of_mem _ this

theorem FormatTaskfile_alldated (tasks : List GoTask) (now : Int) (opts : FormatOpts)
    (hfl : opts.tagFilter = []) (hhz : opts.horizons ≠ [])
    (hall : ∀ t ∈ tasks, t.dueDate.isSome) :
    FormatTaskfile tasks now opts =
      reportLoop opts (opts.horizons.filter (fun h => !h.undated))
        (if opts.overlap = [] then "sorted".toList else opts.overlap)
        (sortBy datedLess tasks) 0 (-1) := by
  have h1 : (tasks.filter (fun t => t.dueDate.isSome)) = tasks :=
    List.filter_eq_self.mpr hall
  have h2 : (tasks.filter (fun t => t.dueDate.isNone)) = [] := by
    apply List.filter_eq_nil_iff.mpr
    intro t ht
    have hsome := hall t ht
    cases hdd : t.dueDate with
    | none => rw [hdd] at hsome; cases hsome
    | some d => simp [hdd]
  unfold FormatTaskfile
  dsimp only
  rw [if_neg (not_not_intro hfl), if_neg hhz, h1, h2]
  rw [show (sortBy undatedLess ([] : List GoTask)) = [] from rfl]
  rw [if_neg (by simp)]

/-- C4: for every task list in which every task is dated, every option set with
an empty tag filter and a nonempty horizon list, and every dated-horizon index
`j` whose label is nonempty, distinct from the other dated labels and from
every formatted task line (labels and task lines newline-free), the label of
horizon `j` appears as a line of `FormatTaskfile`'s report exactly when the
bucket-assignment sequence assigns some task to bucket `j` — empty buckets get
no header.  Moreover the concrete scenario of the spec — tasks dated
2026-02-15, 2026-02-17, 2026-02-18 and 2026-04-01, `now` = 2026-02-17, default
horizons — produces exactly the sections Overdue, Today, Tomorrow, This Year
in that order, with no header for any empty bucket. -/
theorem c4_label_iff_bucket
    (tasks : List GoTask) (now : Int) (opts : FormatOpts) (j : Nat)
    (hfl : opts.tagFilter = [])
    (hhz : opts.horizons ≠ [])
    (hall : ∀ t ∈ tasks, t.dueDate.isSome)
    (hj : j < (opts.horizons.filter (fun h => !h.undated)).length)
    (hnlL : ∀ k, k < (opts.horizons.filter (fun h => !h.undated)).length →
      ('\n' : Char) ∉
        ((opts.horizons.filter (fun h => !h.undated)).getD k rhDefault).label)
    (hnlT : ∀ t ∈ tasks, ('\n' : Char) ∉ formatTaskLine t opts)
    (hlabne :
      ((opts.horizons.filter (fun h => !h.undated)).getD j rhDefault).label ≠ [])
    (hlabtask : ∀ t ∈ tasks,
      ((opts.horizons.filter (fun h => !h.undated)).getD j rhDefault).label ≠
        formatTaskLine t opts)
    (hinj : ∀ k, k < (opts.horizons.filter (fun h => !h.undated)).length →
      ((opts.horizons.filter (fun h => !h.undated)).getD k rhDefault).label =
        ((opts.horizons.filter (fun h => !h.undated)).getD j rhDefault).label →
        k = j) :
    (((opts.horizons.filter (fun h => !h.undated)).getD j rhDefault).label ∈
        linesOf (FormatTaskfile tasks now opts) ↔
      j ∈ bucketSeq (if opts.overlap = [] then "sorted".toList else opts.overlap)
        (opts.horizons.filter (fun h => !h.undated)) (sortBy datedLess tasks) 0) ∧
    linesOf (FormatTaskfile tasksC4 nowC4 optsC4) =
      [ "# Overdue".toList,
        "/a.md:1:1:\t[[2026-02-15]]\t |       |     |\t T1 \t".toList,
        [],
        "# Today".toList,
        "/b.md:2:1:\t[[2026-02-17]]\t |       |     |\t T2 \t".toList,
        [],
        "# Tomorrow".toList,
        "/c.md:3:1:\t[[2026-02-18]]\t |       |     |\t T3 \t".toList,
        [],
        "# This Year".toList,
        "/d.md:4:1:\t[[2026-04-01]]\t |       |     |\t T4 \t".toList,
        [] ] := by
  have hpos : 0 < (opts.horizons.filter (fun h => !h.undated)).length :=
    Nat.lt_of_le_of_lt (Nat.zero_le j) hj
  constructor
  · rw [FormatTaskfile_alldated tasks now opts hfl hhz hall]
    constructor
    · intro hmem
      exact loop_lines_sound opts _ _ j hlabne hinj (sortBy datedLess tasks) 0 (-1)
        (fun t ht => hnlT t ((sortBy_perm datedLess tasks).mem_iff.mp ht))
        (fun t ht => hlabtask t ((sortBy_perm datedLess tasks).mem_iff.mp ht))
        hnlL hpos hmem
    · intro hmem
      exact loop_lines_complete opts _ _ hnlL (sortBy datedLess tasks) 0 (-1) j
        (fun t ht => hnlT t ((sortBy_perm datedLess tasks).mem_iff.mp ht))
        hpos hmem (by omega)
  · decide

/-- C4 witness: the hypotheses hold for the scenario fixture (tasks dated
2026-02-15/17/18 and 2026-04-01, now = 2026-02-17, resolved default horizons,
bucket index 0 = Overdue), and the Overdue label indeed appears in the report
with bucket 0 nonempty. -/
theorem c4_witness :
    (optsC4.tagFilter = [] ∧ optsC4.horizons ≠ [] ∧
      (∀ t ∈ tasksC4, t.dueDate.isSome) ∧
      0 < (optsC4.horizons.filter (fun h => !h.undated)).length) ∧
    ((((optsC4.horizons.filter (fun h => !h.undated)).getD 0 rhDefault).label ∈
        linesOf (FormatTaskfile tasksC4 nowC4 optsC4) ↔
      0 ∈ bucketSeq (if optsC4.overlap = [] then "sorted".toList else optsC4.overlap)
        (optsC4.horizons.filter (fun h => !h.undated))
        (sortBy datedLess tasksC4) 0) ∧
      linesOf (FormatTaskfile tasksC4 nowC4 optsC4) =
        [ "# Overdue".toList,
          "/a.md:1:1:\t[[2026-02-15]]\t |       |     |\t T1 \t".toList,
          [],
          "# Today".toList,
          "/b.md:2:1:\t[[2026-02-17]]\t |       |     |\t T2 \t".toList,
          [],
          "# Tomorrow".toList,
          "/c.md:3:1:\t[[2026-02-18]]\t |       |     |\t T3 \t".toList,
          [],
          "# This Year".toList,
          "/d.md:4:1:\t[[2026-04-01]]\t |       |     |\t T4 \t".toList,
          [] ]) :=
  ⟨⟨by decide, by decide, by decide, by decide⟩,
    c4_label_iff_bucket tasksC4 nowC4 optsC4 0 (by decide) (by decide) (by decide)
      (by decide) (by decide) (by decide) (by decide) (by decide) (by decide)⟩

/-! ## Claim C7: ordering facts about `lexLt` and the status machinery -/

theorem lexLt_cons_iff (a b : Char) (as bs : Str) :
    lexLt (a :: as) (b :: bs) = true ↔ a < b ∨ (a = b ∧ lexLt as bs = true) := by
  rw [lexLt]
  by_cases hab : a < b
  · simp [hab]
  · rw [if_neg hab]
    by_cases hba : b < a
    · rw [if_pos hba]
      constructor
      · intro hcon; cases hcon
      · rintro (h | ⟨h, _⟩)
        · exact absurd h hab
        · subst h; exact absurd hba hab
    · rw [if_neg hba]
      have heq : a = b := le_antisymm (le_of_not_lt hba) (le_of_not_lt hab)
      constructor
      · intro h; exact Or.inr ⟨heq, h⟩
      · rintro (h | ⟨_, h⟩)
        · exact absurd h hab
        · exact h

theorem lexLt_irrefl : ∀ a : Str, lexLt a a = false
  | [] => rfl
  | a :: as => by
    rw [lexLt, if_neg (lt_irrefl a), if_neg (lt_irrefl a)]
    exact lexLt_irrefl as

theorem lexLt_asymm : ∀ a b : Str, lexLt a b = true → lexLt b a = false
  | [], [] => by intro h; cases h
  | [], _ :: _ => by intro _; rfl
  | _ :: _, [] => by intro h; cases h
  | a :: as, b :: bs => by
    intro h
    rw [lexLt_cons_iff] at h
    rcases h with h | ⟨h, h2⟩
    · rw [lexLt, if_neg (lt_asymm h), if_pos h]
    · subst h
      rw [lexLt, if_neg (lt_irrefl a), if_neg (lt_irrefl a)]
      exact lexLt_asymm as bs h2

theorem lexLt_trans : ∀ a b c : Str,
    lexLt a b = true → lexLt b c = true → lexLt a c = true
  | a, [], _ => by
    intro h _
    cases a with
    | nil => cases h
    | cons x xs => cases h
  | [], _ :: _, [] => by intro _ h; cases h
  | [], _ :: _, _ :: _ => by intro _ _; rfl
  | _ :: _, _ :: _, [] => by intro _ h; cases h
  | a :: as, b :: bs, c :: cs => by
    intro h1 h2
    rw [lexLt_cons_iff] at h1 h2 ⊢
    rcases h1 with h1 | ⟨h1, h1t⟩ <;> rcases h2 with h2 | ⟨h2, h2t⟩
    · exact Or.inl (lt_trans h1 h2)
    · exact Or.inl (h2 ▸ h1)
    · exact Or.inl (h1 ▸ h2)
    · exact Or.inr ⟨h1.trans h2, lexLt_trans as bs cs h1t h2t⟩

theorem lexLt_total : ∀ a b : Str,
    lexLt a b = false → lexLt b a = false → a = b
  | [], [] => by intro _ _; rfl
  | [], _ :: _ => by intro h _; cases h
  | _ :: _, [] => by intro _ h; cases h
  | a :: as, b :: bs => by
    intro h1 h2
    rw [lexLt] at h1 h2
    by_cases hab : a < b
    · rw [if_pos hab] at h1; cases h1
    · by_cases hba : b < a
      · rw [if_pos hba] at h2; cases h2
      · have heq : a = b := le_antisymm (le_of_not_lt hba) (le_of_not_lt hab)
        rw [if_neg hab, if_neg hba] at h1
        rw [if_neg hba, if_neg hab] at h2
        rw [heq, lexLt_total as bs h1 h2]

theorem combineMin_none_right : ∀ a : Option Str, combineMin a none = a
  | none => rfl
  | some _ => rfl

theorem combineMin_comm : ∀ a b : Option Str, combineMin a b = combineMin b a
  | none, none => rfl
  | none, some _ => rfl
  | some _, none => rfl
  | some a, some b => by
    rw [combineMin, combineMin]
    by_cases h1 : lexLt b a = true
    · rw [if_pos h1, if_neg (by rw [lexLt_asymm b a h1]; exact Bool.false_ne_true)]
    · by_cases h2 : lexLt a b = true
      · rw [if_neg h1, if_pos h2]
      · have heq := lexLt_total b a (Bool.not_eq_true _ ▸ h1)
          (Bool.not_eq_true _ ▸ h2)
        rw [heq]

theorem combineMin_assoc : ∀ a b c : Option Str,
    combineMin (combineMin a b) c = combineMin a (combineMin b c)
  | none, b, c => rfl
  | some _, none, c => rfl
  | some _, some _, none => rfl
  | some a, some b, some c => by
    cases h1 : lexLt b a <;> cases h2 : lexLt c b
    · have h3 : lexLt c a = false := by
        by_cases hca : lexLt c a = true
        · by_cases hab : lexLt a b = true
          · have hcb := lexLt_trans c a b hca hab
            rw [h2] at hcb
            cases hcb
          · have heq := lexLt_total a b (Bool.not_eq_true _ ▸ hab) h1
            rw [heq] at hca
            rw [h2] at hca
            cases hca
        · exact Bool.not_eq_true _ ▸ hca
      simp [combineMin, h1, h2, h3]
    · simp [combineMin, h1, h2]
    · simp [combineMin, h1, h2]
    · simp [combineMin, h1, h2, lexLt_trans c b a h2 h1]

theorem combineMin_eq_none : ∀ a b : Option Str,
    combineMin a b = none → a = none ∧ b = none
  | none, none => fun _ => ⟨rfl, rfl⟩
  | none, some _ => fun h => by cases h
  | some _, none => fun h => by cases h
  | some _, some _ => fun h => by cases h

theorem find?_map_statusSet (k : Str) (v : Str) :
    ∀ m : List (Str × Str),
    List.find? (fun e => e.1 = k) (m.map (fun e => if e.1 = k then (k, v) else e)) =
      if (List.find? (fun e => e.1 = k) m).isSome then some (k, v) else none
  | [] => rfl
  | e :: m => by
    rw [List.map_cons]
    by_cases he : e.1 = k
    · rw [if_pos he, List.find?_cons_of_pos _ (by simp),
        List.find?_cons_of_pos _ (by simp [he])]
      rfl
    · rw [if_neg he, List.find?_cons_of_neg _ (by simp [he]),
        List.find?_cons_of_neg _ (by simp [he])]
      exact find?_map_statusSet k v m

theorem assocGet_set_self (m : List (Str × Str)) (k v : Str) :
    assocGet (assocSet m k v) k = some v := by
  unfold assocSet assocGet
  by_cases hf : (List.find? (fun e => e.1 = k) m).isSome
  · rw [if_pos hf, find?_map_statusSet, if_pos hf]
    rfl
  · rw [if_neg hf]
    have hn : List.find? (fun e => e.1 = k) m = none := by
      cases hc : List.find? (fun e => e.1 = k) m with
      | none => rfl
      | some x => rw [hc] at hf; exact absurd rfl hf
    rw [List.find?_append, hn, Option.none_or, List.find?_cons_of_pos _ (by simp)]
    rfl

theorem assocGet_set_ne (m : List (Str × Str)) (k v k' : Str) (hk : k ≠ k') :
    assocGet (assocSet m k v) k' = assocGet m k' := by
  unfold assocSet assocGet
  by_cases hf : (List.find? (fun e => e.1 = k) m).isSome
  · rw [if_pos hf]
    clear hf
    congr 1
    induction m with
    | nil => rfl
    | cons e m ih =>
      rw [List.map_cons]
      by_cases he : e.1 = k
      · rw [if_pos he,
          List.find?_cons_of_neg _ (by simpa using hk),
          List.find?_cons_of_neg _ (by simpa using fun hc => hk (he ▸ hc))]
        exact ih
      · by_cases he' : e.1 = k'
        · rw [if_neg he, List.find?_cons_of_pos _ (by simpa using he'),
            List.find?_cons_of_pos _ (by simpa using he')]
        · rw [if_neg he, List.find?_cons_of_neg _ (by simpa using he'),
            List.find?_cons_of_neg _ (by simpa using he')]
          exact ih
  · rw [if_neg hf, List.find?_append]
    rw [List.find?_cons_of_neg _ (by simpa using hk)]
    rw [List.find?_nil]
    cases hc : List.find? (fun e => decide (e.1 = k')) m <;> rfl

theorem statusStep_get (m : List (Str × Str)) (e : Str × Str) (lit : Str) :
    assocGet (statusStep m e) lit =
      combineMin (assocGet m lit) (if e.2 = lit then some e.1 else none) := by
  cases hag : assocGet m e.2 with
  | none =>
    have hstep : statusStep m e = assocSet m e.2 e.1 := by
      unfold statusStep
      rw [hag]
    rw [hstep]
    by_cases he : e.2 = lit
    · subst he
      rw [assocGet_set_self, hag, if_pos rfl]
      rfl
    · rw [assocGet_set_ne m e.2 e.1 lit he, if_neg he, combineMin_none_right]
  | some ex =>
    have hstep : statusStep m e =
        if lexLt e.1 ex = true then assocSet m e.2 e.1 else m := by
      unfold statusStep
      rw [hag]
    rw [hstep]
    by_cases he : e.2 = lit
    · subst he
      rw [hag, if_pos rfl]
      by_cases hlt : lexLt e.1 ex = true
      · rw [if_pos hlt, assocGet_set_self]
        show some e.1 = some (if lexLt e.1 ex = true then e.1 else ex)
        rw [if_pos hlt]
      · rw [if_neg hlt, hag]
        show some ex = some (if lexLt e.1 ex = true then e.1 else ex)
        rw [if_neg hlt]
    · rw [if_neg he, combineMin_none_right]
      by_cases hlt : lexLt e.1 ex = true
      · rw [if_pos hlt]
        exact assocGet_set_ne m e.2 e.1 lit he
      · rw [if_neg hlt]

theorem foldl_statusStep_get (lit : Str) :
    ∀ (cb : List (Str × Str)) (m : List (Str × Str)),
    assocGet (cb.foldl statusStep m) lit =
      combineMin (assocGet m lit) (minNameFor lit cb)
  | [], m => by rw [List.foldl_nil, minNameFor, combineMin_none_right]
  | e :: cb, m => by
    rw [List.foldl_cons, foldl_statusStep_get lit cb (statusStep m e),
      statusStep_get, combineMin_assoc, minNameFor]

theorem buildStatusMap_get (cb : List (Str × Str)) (lit : Str) :
    assocGet (buildStatusMap cb) lit = minNameFor lit cb := by
  rw [buildStatusMap, foldl_statusStep_get]
  rfl

theorem minNameFor_perm (lit : Str) {cb cb' : List (Str × Str)}
    (h : List.Perm cb cb') : minNameFor lit cb = minNameFor lit cb' := by
  induction h with
  | nil => rfl
  | cons x _ ih => rw [minNameFor, minNameFor, ih]
  | swap x y l =>
    rw [minNameFor, minNameFor, minNameFor, minNameFor,
      ← combineMin_assoc, ← combineMin_assoc,
      combineMin_comm (if y.2 = lit then some y.1 else none)
        (if x.2 = lit then some x.1 else none)]
  | trans _ _ ih1 ih2 => rw [ih1, ih2]

theorem namesFor_cons (lit : Str) (e : Str × Str) (cb : List (Str × Str)) :
    namesFor lit (e :: cb) =
      if e.2 = lit then e.1 :: namesFor lit cb else namesFor lit cb := by
  unfold namesFor
  by_cases he : e.2 = lit
  · rw [if_pos he, List.filter_cons_of_pos (by simp [he]), List.map_cons]
  · rw [if_neg he, List.filter_cons_of_neg (by simp [he])]

theorem minNameFor_eq_none (lit : Str) :
    ∀ cb : List (Str × Str), minNameFor lit cb = none → namesFor lit cb = []
  | [] => fun _ => rfl
  | e :: cb => by
    intro h
    rw [minNameFor] at h
    obtain ⟨h1, h2⟩ := combineMin_eq_none _ _ h
    rw [namesFor_cons]
    by_cases he : e.2 = lit
    · rw [if_pos he] at h1; cases h1
    · rw [if_neg he]
      exact minNameFor_eq_none lit cb h2

theorem minNameFor_spec (lit : Str) :
    ∀ (cb : List (Str × Str)) (n : Str), minNameFor lit cb = some n →
      n ∈ namesFor lit cb ∧
        ∀ m ∈ namesFor lit cb, n = m ∨ lexLt n m = true
  | [], n => by intro h; cases h
  | e :: cb, n => by
    intro h
    rw [minNameFor] at h
    rw [namesFor_cons]
    by_cases he : e.2 = lit
    · rw [if_pos he] at h
      rw [if_pos he]
      cases hrest : minNameFor lit cb with
      | none =>
        rw [hrest, combineMin_none_right] at h
        obtain rfl : e.1 = n := by injection h
        refine ⟨List.mem_cons_self _ _, ?_⟩
        intro m hm
        cases hm with
        | head => exact Or.inl rfl
        | tail _ hm2 => rw [minNameFor_eq_none lit cb hrest] at hm2; cases hm2
      | some r =>
        rw [hrest, combineMin] at h
        obtain ⟨hrmem, hrmin⟩ := minNameFor_spec lit cb r hrest
        by_cases hlt : lexLt r e.1 = true
        · rw [if_pos hlt] at h
          obtain rfl : r = n := by injection h
          refine ⟨List.mem_cons_of_mem _ hrmem, ?_⟩
          intro m hm
          cases hm with
          | head => exact Or.inr hlt
          | tail _ hm2 => exact hrmin m hm2
        · rw [if_neg hlt] at h
          obtain rfl : e.1 = n := by injection h
          refine ⟨List.mem_cons_self _ _, ?_⟩
          intro m hm
          cases hm with
          | head => exact Or.inl rfl
          | tail _ hm2 =>
            rcases hrmin m hm2 with hrm | hrm
            · subst hrm
              by_cases hnr : lexLt e.1 r = true
              · exact Or.inr hnr
              · exact Or.inl (lexLt_total e.1 r (Bool.not_eq_true _ ▸ hnr)
                  (Bool.not_eq_true _ ▸ hlt))
            · by_cases hnr : lexLt e.1 r = true
              · exact Or.inr (lexLt_trans e.1 r m hnr hrm)
              · have heq := lexLt_total e.1 r (Bool.not_eq_true _ ▸ hnr)
                  (Bool.not_eq_true _ ▸ hlt)
                exact Or.inr (heq ▸ hrm)
    · rw [if_neg he] at h
      rw [if_neg he]
      exact minNameFor_spec lit cb n h

theorem quoteMeta_inj : ∀ a b : Str, quoteMeta a = quoteMeta b → a = b
  | [], [] => fun _ => rfl
  | [], b :: bs => by
    intro h
    rw [quoteMeta, quoteMeta] at h
    by_cases hb : isReSpecial b = true
    · rw [if_pos hb] at h; cases h
    · rw [if_neg hb] at h; cases h
  | a :: as, [] => by
    intro h
    rw [quoteMeta, quoteMeta] at h
    by_cases ha : isReSpecial a = true
    · rw [if_pos ha] at h; cases h
    · rw [if_neg ha] at h; cases h
  | a :: as, b :: bs => by
    intro h
    rw [quoteMeta, quoteMeta] at h
    by_cases ha : isReSpecial a = true <;> by_cases hb : isReSpecial b = true
    · rw [if_pos ha, if_pos hb] at h
      injection h with h1 h2
      injection h2 with h3 h4
      rw [h3, quoteMeta_inj as bs h4]
    · rw [if_pos ha, if_neg hb] at h
      injection h with h1 h2
      rw [← h1] at hb
      exact absurd (by decide) hb
    · rw [if_neg ha, if_pos hb] at h
      injection h with h1 h2
      rw [h1] at ha
      exact absurd (by decide) ha
    · rw [if_neg ha, if_neg hb] at h
      injection h with h1 h2
      rw [h1, quoteMeta_inj as bs h2]

theorem dedupEsc_mem :
    ∀ (l : List (Str × Str)) (seen : List Str),
      (∀ p ∈ l, p.2 = quoteMeta p.1) → ∀ q : Str × Str,
      (q ∈ dedupEsc l seen ↔ q ∈ l ∧ q.2 ∉ seen)
  | [], seen => by
    intro _ q
    rw [dedupEsc]
    simp
  | p :: ps, seen => by
    intro hcoh q
    rw [dedupEsc]
    by_cases hseen : seen.contains p.2 = true
    · rw [if_pos hseen]
      rw [dedupEsc_mem ps seen (fun x hx => hcoh x (List.mem_cons_of_mem p hx)) q]
      have hpm : p.2 ∈ seen := List.mem_of_elem_eq_true hseen
      constructor
      · rintro ⟨hq, hns⟩
        exact ⟨List.mem_cons_of_mem p hq, hns⟩
      · rintro ⟨hq, hns⟩
        cases hq with
        | head => exact absurd hpm hns
        | tail _ hq2 => exact ⟨hq2, hns⟩
    · rw [if_neg hseen]
      have hpns : p.2 ∉ seen := fun hm => hseen (List.elem_eq_true_of_mem hm)
      constructor
      · intro hq
        cases hq with
        | head => exact ⟨List.mem_cons_self _ _, hpns⟩
        | tail _ hq2 =>
          obtain ⟨hq3, hns⟩ := (dedupEsc_mem ps (p.2 :: seen)
            (fun x hx => hcoh x (List.mem_cons_of_mem p hx)) q).mp hq2
          exact ⟨List.mem_cons_of_mem p hq3,
            fun hm => hns (List.mem_cons_of_mem p.2 hm)⟩
      · rintro ⟨hq, hns⟩
        cases hq with
        | head => exact List.mem_cons_self _ _
        | tail _ hq2 =>
          by_cases hkey : q.2 = p.2
          · have hq2q : q.2 = quoteMeta q.1 :=
              hcoh q (List.mem_cons_of_mem p hq2)
            have hp2q : p.2 = quoteMeta p.1 := hcoh p (List.mem_cons_self p ps)
            have h1 : q.1 = p.1 :=
              quoteMeta_inj q.1 p.1 (by rw [← hq2q, ← hp2q, hkey])
            have : q = p := Prod.ext h1 hkey
            rw [this]
            exact List.mem_cons_self _ _
          · apply List.mem_cons_of_mem
            rw [dedupEsc_mem ps (p.2 :: seen)
              (fun x hx => hcoh x (List.mem_cons_of_mem p hx)) q]
            refine ⟨hq2, ?_⟩
            intro hm
            rcases List.mem_cons.mp hm with h | h
            · exact hkey h
            · exact hns h

theorem dedupEsc_nodup :
    ∀ (l : List (Str × Str)) (seen : List Str),
      List.Nodup ((dedupEsc l seen).map (fun p => p.2)) ∧
        ∀ q ∈ dedupEsc l seen, q.2 ∉ seen
  | [], seen => by
    rw [dedupEsc]
    exact ⟨List.nodup_nil, by intro q hq; cases hq⟩
  | p :: ps, seen => by
    rw [dedupEsc]
    by_cases hseen : seen.contains p.2 = true
    · rw [if_pos hseen]
      exact dedupEsc_nodup ps seen
    · rw [if_neg hseen]
      obtain ⟨hnd, hdisj⟩ := dedupEsc_nodup ps (p.2 :: seen)
      constructor
      · rw [List.map_cons, List.nodup_cons]
        refine ⟨?_, hnd⟩
        intro hm
        obtain ⟨q, hq, hq2⟩ := List.mem_map.mp hm
        exact hdisj q hq (hq2 ▸ List.mem_cons_self _ _)
      · intro q hq
        cases hq with
        | head => exact fun hm => hseen (List.elem_eq_true_of_mem hm)
        | tail _ hq2 =>
          exact fun hm => hdisj q hq2 (List.mem_cons_of_mem p.2 hm)

theorem insertBy_mem {α : Type} (lt : α → α → Bool) (x : α) :
    ∀ (l : List α) (z : α), z ∈ insertBy lt x l → z = x ∨ z ∈ l := by
  intro l z hz
  have := (insertBy_perm lt x l).mem_iff.mp hz
  cases this with
  | head => exact Or.inl rfl
  | tail _ h => exact Or.inr h

theorem insertBy_pairwise {α : Type} (lt : α → α → Bool)
    (htrans : ∀ a b c, lt a b = true → lt b c = true → lt a c = true)
    (hasymm : ∀ a b, lt a b = true → lt b a = false) (x : α) :
    ∀ l : List α, List.Pairwise (fun a b => lt b a = false) l →
      List.Pairwise (fun a b => lt b a = false) (insertBy lt x l)
  | [] => fun _ => List.pairwise_cons.mpr ⟨(by intro z hz; cases hz), List.Pairwise.nil⟩
  | y :: ys => by
    intro hp
    rw [insertBy]
    obtain ⟨hy, hys⟩ := List.pairwise_cons.mp hp
    by_cases hxy : lt x y = true
    · rw [if_pos hxy]
      refine List.pairwise_cons.mpr ⟨?_, hp⟩
      intro z hz
      cases hz with
      | head => exact hasymm x y hxy
      | tail _ hz2 =>
        by_cases hc : lt z x = true
        · have := htrans z x y hc hxy
          rw [hy z hz2] at this
          cases this
        · exact Bool.not_eq_true _ ▸ hc
    · rw [if_neg hxy]
      refine List.pairwise_cons.mpr ⟨?_, insertBy_pairwise lt htrans hasymm x ys hys⟩
      intro z hz
      rcases insertBy_mem lt x ys z hz with hze | hzm
      · rw [hze]
        exact Bool.not_eq_true _ ▸ hxy
      · exact hy z hzm

theorem sortBy_pairwise {α : Type} (lt : α → α → Bool)
    (htrans : ∀ a b c, lt a b = true → lt b c = true → lt a c = true)
    (hasymm : ∀ a b, lt a b = true → lt b a = false) :
    ∀ l : List α, List.Pairwise (fun a b => lt b a = false) (sortBy lt l)
  | [] => List.Pairwise.nil
  | x :: xs => by
    rw [sortBy]
    exact insertBy_pairwise lt htrans hasymm x (sortBy lt xs)
      (sortBy_pairwise lt htrans hasymm xs)

theorem sorted_unique {α : Type} (lt : α → α → Bool) :
    ∀ l₁ l₂ : List α,
      (∀ a ∈ l₁, ∀ b ∈ l₁, lt a b = false → lt b a = false → a = b) →
      List.Perm l₁ l₂ →
      List.Pairwise (fun a b => lt b a = false) l₁ →
      List.Pairwise (fun a b => lt b a = false) l₂ → l₁ = l₂
  | [], l₂ => fun _ hp _ _ => hp.nil_eq
  | a :: t₁, l₂ => by
    intro htotal hp h1 h2
    cases l₂ with
    | nil => cases hp.eq_nil
    | cons b t₂ =>
      obtain ⟨ha1, hat⟩ := List.pairwise_cons.mp h1
      obtain ⟨hb2, hbt⟩ := List.pairwise_cons.mp h2
      have hab : a = b := by
        have ha2 : a ∈ b :: t₂ := hp.mem_iff.mp (List.mem_cons_self a t₁)
        rcases List.mem_cons.mp ha2 with h | h
        · exact h
        · have hfa : lt a b = false := hb2 a h
          have hb1 : b ∈ a :: t₁ := hp.mem_iff.mpr (List.mem_cons_self b t₂)
          rcases List.mem_cons.mp hb1 with h' | h'
          · exact h'.symm
          · exact htotal a (List.mem_cons_self a t₁) b
              (List.mem_cons_of_mem a h') hfa (ha1 b h')
      subst hab
      have hpt : List.Perm t₁ t₂ := hp.cons_inv
      rw [sorted_unique lt t₁ t₂
        (fun x hx y hy => htotal x (List.mem_cons_of_mem a hx) y
          (List.mem_cons_of_mem a hy)) hpt hat hbt]

theorem lenDescBefore_iff (a b : Str) :
    lenDescBefore a b = true ↔
      b.length < a.length ∨ (a.length = b.length ∧ lexLt a b = true) := by
  rw [lenDescBefore]
  simp only [Bool.or_eq_true, Bool.and_eq_true, decide_eq_true_eq, gt_iff_lt]

theorem lenDescBefore_trans (a b c : Str) (h1 : lenDescBefore a b = true)
    (h2 : lenDescBefore b c = true) : lenDescBefore a c = true := by
  rw [lenDescBefore_iff] at h1 h2 ⊢
  rcases h1 with h1 | ⟨h1e, h1l⟩ <;> rcases h2 with h2 | ⟨h2e, h2l⟩
  · exact Or.inl (lt_trans h2 h1)
  · exact Or.inl (h2e ▸ h1)
  · exact Or.inl (h1e.symm ▸ h2)
  · exact Or.inr ⟨h1e.trans h2e, lexLt_trans a b c h1l h2l⟩

theorem lenDescBefore_asymm (a b : Str) (h : lenDescBefore a b = true) :
    lenDescBefore b a = false := by
  cases hba : lenDescBefore b a with
  | false => rfl
  | true =>
    rw [lenDescBefore_iff] at h hba
    rcases h with h1 | ⟨h1e, h1l⟩ <;> rcases hba with h2 | ⟨h2e, h2l⟩
    · exact absurd h1 (lt_asymm h2)
    · exact absurd (h2e ▸ h1) (lt_irrefl _)
    · exact absurd (h1e ▸ h2) (lt_irrefl _)
    · rw [lexLt_asymm a b h1l] at h2l
      cases h2l

theorem buildStatusAlts_perm (cb cb' : List (Str × Str))
    (hp : List.Perm cb cb') : buildStatusAlts cb = buildStatusAlts cb' := by
  have hcoh : ∀ p ∈ cb.map (fun e => (e.2, quoteMeta e.2)), p.2 = quoteMeta p.1 := by
    intro p hpm
    obtain ⟨e, _, rfl⟩ := List.mem_map.mp hpm
    rfl
  have hcoh' : ∀ p ∈ cb'.map (fun e => (e.2, quoteMeta e.2)), p.2 = quoteMeta p.1 := by
    intro p hpm
    obtain ⟨e, _, rfl⟩ := List.mem_map.mp hpm
    rfl
  have hmperm : List.Perm (cb.map (fun e => (e.2, quoteMeta e.2)))
      (cb'.map (fun e => (e.2, quoteMeta e.2))) := hp.map _
  have hd1 := dedupEsc_nodup (cb.map (fun e => (e.2, quoteMeta e.2))) []
  have hd2 := dedupEsc_nodup (cb'.map (fun e => (e.2, quoteMeta e.2))) []
  have hdperm : List.Perm (dedupEsc (cb.map (fun e => (e.2, quoteMeta e.2))) [])
      (dedupEsc (cb'.map (fun e => (e.2, quoteMeta e.2))) []) := by
    apply (List.perm_ext_iff_of_nodup (List.Nodup.of_map _ hd1.1)
      (List.Nodup.of_map _ hd2.1)).mpr
    intro q
    rw [dedupEsc_mem _ [] hcoh q, dedupEsc_mem _ [] hcoh' q, hmperm.mem_iff]
  have hs1 := sortBy_pairwise (fun a b : Str × Str => lenDescBefore a.2 b.2)
    (fun a b c h1 h2 => lenDescBefore_trans a.2 b.2 c.2 h1 h2)
    (fun a b h => lenDescBefore_asymm a.2 b.2 h)
    (dedupEsc (cb.map (fun e => (e.2, quoteMeta e.2))) [])
  have hs2 := sortBy_pairwise (fun a b : Str × Str => lenDescBefore a.2 b.2)
    (fun a b c h1 h2 => lenDescBefore_trans a.2 b.2 c.2 h1 h2)
    (fun a b h => lenDescBefore_asymm a.2 b.2 h)
    (dedupEsc (cb'.map (fun e => (e.2, quoteMeta e.2))) [])
  have hsorted : sortBy (fun a b : Str × Str => lenDescBefore a.2 b.2)
      (dedupEsc (cb.map (fun e => (e.2, quoteMeta e.2))) []) =
      sortBy (fun a b : Str × Str => lenDescBefore a.2 b.2)
        (dedupEsc (cb'.map (fun e => (e.2, quoteMeta e.2))) []) := by
    apply sorted_unique (fun a b : Str × Str => lenDescBefore a.2 b.2)
    · intro x hx y hy hxy hyx
      have hxd : x ∈ dedupEsc (cb.map (fun e => (e.2, quoteMeta e.2))) [] :=
        (sortBy_perm _ _).mem_iff.mp hx
      have hyd : y ∈ dedupEsc (cb.map (fun e => (e.2, quoteMeta e.2))) [] :=
        (sortBy_perm _ _).mem_iff.mp hy
      have hxc : x.2 = quoteMeta x.1 :=
        hcoh x ((dedupEsc_mem _ [] hcoh x).mp hxd).1
      have hyc : y.2 = quoteMeta y.1 :=
        hcoh y ((dedupEsc_mem _ [] hcoh y).mp hyd).1
      have hnx : ¬(y.2.length < x.2.length ∨
          (x.2.length = y.2.length ∧ lexLt x.2 y.2 = true)) := by
        rw [← lenDescBefore_iff, hxy]
        exact Bool.false_ne_true
      have hny : ¬(x.2.length < y.2.length ∨
          (y.2.length = x.2.length ∧ lexLt y.2 x.2 = true)) := by
        rw [← lenDescBefore_iff, hyx]
        exact Bool.false_ne_true
      push_neg at hnx hny
      have hlen : x.2.length = y.2.length := le_antisymm hnx.1 hny.1
      have hkey : x.2 = y.2 :=
        lexLt_total x.2 y.2 (Bool.not_eq_true _ ▸ hnx.2 hlen)
          (Bool.not_eq_true _ ▸ hny.2 hlen.symm)
      have h1 : x.1 = y.1 := quoteMeta_inj x.1 y.1 (by rw [← hxc, ← hyc, hkey])
      exact Prod.ext h1 hkey
    · exact ((sortBy_perm _ _).trans hdperm).trans (sortBy_perm _ _).symm
    · exact hs1
    · exact hs2
  show (sortBy (fun a b : Str × Str => lenDescBefore a.2 b.2)
      (dedupEsc (cb.map (fun e => (e.2, quoteMeta e.2))) [])).map (fun p => p.1) =
    (sortBy (fun a b : Str × Str => lenDescBefore a.2 b.2)
      (dedupEsc (cb'.map (fun e => (e.2, quoteMeta e.2))) [])).map (fun p => p.1)
  rw [hsorted]

theorem ParseTaskGo_ext (rm : RawMatch) (c1 c2 : ParseCtx)
    (ha : c1.statusAlts = c2.statusAlts)
    (hm : ∀ k, assocGet c1.statusMap k = assocGet c2.statusMap k)
    (hd : c1.datePat = c2.datePat) (hmp : c1.markerPre = c2.markerPre)
    (ht : c1.tagPre = c2.tagPre) :
    ParseTaskGo rm c1 = ParseTaskGo rm c2 := by
  simp only [ParseTaskGo, ha, hd, hmp, ht, hm]

theorem ParseTaskGo_status (rm : RawMatch) (ctx : ParseCtx) (t : GoTask)
    (hp : ParseTaskGo rm ctx = some t) :
    ∃ lit, statusFind ctx.statusAlts (cleanLine rm.text) = some lit ∧
      assocGet ctx.statusMap lit = some t.status := by
  simp only [ParseTaskGo] at hp
  rw [show trimRightSet (fun c => c = '\n' || c = '\r')
      (trimLeftSet (fun c => c = ' ' || c = '\t') rm.text) = cleanLine rm.text
    from rfl] at hp
  cases hsf : statusFind ctx.statusAlts (cleanLine rm.text) with
  | none =>
    simp only [hsf] at hp
    cases hp
  | some lit =>
    simp only [hsf] at hp
    cases hag : assocGet ctx.statusMap lit with
    | none =>
      simp only [hag] at hp
      cases hp
    | some st =>
      simp only [hag] at hp
      refine ⟨lit, rfl, ?_⟩
      rw [hag]
      split at hp
      · cases hp
      · injection hp with h
        subst h
        rfl

/-- C7: for every checkbox configuration and every other insertion/iteration
order of its entries (any permutation — Go map iteration order is
unspecified), compiling the matchers with `NewParseContext` and parsing any
raw line yields identical results; and whenever a line parses, its status is
the alphabetically earliest (`lexLt`-least) of the status names that the
validated configuration maps to the matched checkbox literal. -/
theorem c7_shared_literal_alpha (checkbox checkbox' : List (Str × Str))
    (hperm : List.Perm checkbox checkbox') (hne : checkbox ≠ [])
    (tagP markerP : Str) (dw : List Str) :
    (∀ rm : RawMatch,
      ParseTaskGo rm (NewParseContext checkbox tagP markerP dw) =
        ParseTaskGo rm (NewParseContext checkbox' tagP markerP dw)) ∧
    (∀ (rm : RawMatch) (t : GoTask),
      ParseTaskGo rm (NewParseContext checkbox tagP markerP dw) = some t →
      ∃ lit,
        statusFind (NewParseContext checkbox tagP markerP dw).statusAlts
          (cleanLine rm.text) = some lit ∧
        t.status ∈ namesFor lit (checkbox.filter (fun e => goTrimSpace e.2 ≠ [])) ∧
        ∀ n ∈ namesFor lit (checkbox.filter (fun e => goTrimSpace e.2 ≠ [])),
          t.status = n ∨ lexLt t.status n = true) := by
  have hemp : checkbox.isEmpty = false := by
    cases checkbox with
    | nil => exact absurd rfl hne
    | cons a l => rfl
  have hemp' : checkbox'.isEmpty = false := by
    cases hcb' : checkbox' with
    | nil =>
      rw [hcb'] at hperm
      exact absurd hperm.eq_nil hne
    | cons a l => rfl
  have halts1 : (NewParseContext checkbox tagP markerP dw).statusAlts =
      buildStatusAlts (checkbox.filter (fun e => goTrimSpace e.2 ≠ [])) := by
    show buildStatusAlts
      ((if checkbox.isEmpty then defaultCheckbox else checkbox).filter
        (fun e => goTrimSpace e.2 ≠ [])) = _
    rw [hemp]
    rfl
  have halts2 : (NewParseContext checkbox' tagP markerP dw).statusAlts =
      buildStatusAlts (checkbox'.filter (fun e => goTrimSpace e.2 ≠ [])) := by
    show buildStatusAlts
      ((if checkbox'.isEmpty then defaultCheckbox else checkbox').filter
        (fun e => goTrimSpace e.2 ≠ [])) = _
    rw [hemp']
    rfl
  have hmap1 : (NewParseContext checkbox tagP markerP dw).statusMap =
      buildStatusMap (checkbox.filter (fun e => goTrimSpace e.2 ≠ [])) := by
    show buildStatusMap
      ((if checkbox.isEmpty then defaultCheckbox else checkbox).filter
        (fun e => goTrimSpace e.2 ≠ [])) = _
    rw [hemp]
    rfl
  have hmap2 : (NewParseContext checkbox' tagP markerP dw).statusMap =
      buildStatusMap (checkbox'.filter (fun e => goTrimSpace e.2 ≠ [])) := by
    show buildStatusMap
      ((if checkbox'.isEmpty then defaultCheckbox else checkbox').filter
        (fun e => goTrimSpace e.2 ≠ [])) = _
    rw [hemp']
    rfl
  have hfperm : List.Perm (checkbox.filter (fun e => goTrimSpace e.2 ≠ []))
      (checkbox'.filter (fun e => goTrimSpace e.2 ≠ [])) := hperm.filter _
  have halts : (NewParseContext checkbox tagP markerP dw).statusAlts =
      (NewParseContext checkbox' tagP markerP dw).statusAlts := by
    rw [halts1, halts2]
    exact buildStatusAlts_perm _ _ hfperm
  have hkey : ∀ k,
      assocGet (NewParseContext checkbox tagP markerP dw).statusMap k =
        assocGet (NewParseContext checkbox' tagP markerP dw).statusMap k := by
    intro k
    rw [hmap1, hmap2, buildStatusMap_get, buildStatusMap_get]
    exact minNameFor_perm k hfperm
  constructor
  · intro rm
    exact ParseTaskGo_ext rm _ _ halts hkey rfl rfl rfl
  · intro rm t hp
    obtain ⟨lit, hsf, hag⟩ := ParseTaskGo_status rm _ t hp
    rw [hmap1, buildStatusMap_get] at hag
    obtain ⟨hm, hmin⟩ := minNameFor_spec lit _ t.status hag
    exact ⟨lit, hsf, hm, hmin⟩

/-- C7 witness: the configuration mapping both `zeta` and `alpha` to the
literal `"- [ ]"`, in both insertion orders, parses the line
`"- [ ] write it up"` identically and resolves the status to `alpha`, the
alphabetically earlier name. -/
theorem c7_witness :
    (List.Perm cbC7 cbC7r ∧ cbC7 ≠ []) ∧
    ((∀ rm : RawMatch,
      ParseTaskGo rm (NewParseContext cbC7 [] [] []) =
        ParseTaskGo rm (NewParseContext cbC7r [] [] [])) ∧
    (∀ (rm : RawMatch) (t : GoTask),
      ParseTaskGo rm (NewParseContext cbC7 [] [] []) = some t →
      ∃ lit,
        statusFind (NewParseContext cbC7 [] [] []).statusAlts
          (cleanLine rm.text) = some lit ∧
        t.status ∈ namesFor lit (cbC7.filter (fun e => goTrimSpace e.2 ≠ [])) ∧
        ∀ n ∈ namesFor lit (cbC7.filter (fun e => goTrimSpace e.2 ≠ [])),
          t.status = n ∨ lexLt t.status n = true)) ∧
    (ParseTaskGo
        { path := "/t.md".toList, lineNumber := 1,
          text := "- [ ] write it up".toList }
        (NewParseContext cbC7 [] [] [])).map (fun t => t.status) =
      some "alpha".toList :=
  ⟨⟨by decide, by decide⟩,
    c7_shared_literal_alpha cbC7 cbC7r (by decide) (by decide) [] [] [],
    by decide⟩

/-! ## Claim C8: whitespace-only checkbox literals and non-task lines -/

theorem buildStatusAlts_mem (cb : List (Str × Str)) (lit : Str)
    (h : lit ∈ buildStatusAlts cb) : ∃ e ∈ cb, e.2 = lit := by
  have hcoh : ∀ q ∈ cb.map (fun e => (e.2, quoteMeta e.2)), q.2 = quoteMeta q.1 := by
    intro q hq
    obtain ⟨e, _, rfl⟩ := List.mem_map.mp hq
    rfl
  have h' : lit ∈ (sortBy (fun a b : Str × Str => lenDescBefore a.2 b.2)
      (dedupEsc (cb.map (fun e => (e.2, quoteMeta e.2))) [])).map (fun p => p.1) := h
  obtain ⟨p, hp, hp1⟩ := List.mem_map.mp h'
  have hpd := (sortBy_perm _ _).mem_iff.mp hp
  have hpm := ((dedupEsc_mem _ [] hcoh p).mp hpd).1
  obtain ⟨e, he, hef⟩ := List.mem_map.mp hpm
  refine ⟨e, he, ?_⟩
  rw [← hp1, ← hef]

theorem NewParseContext_ws_key_none (cb : List (Str × Str)) (tagP markerP : Str)
    (dw : List Str) (k : Str) (hk : goTrimSpace k = []) :
    assocGet (NewParseContext cb tagP markerP dw).statusMap k = none := by
  have hmap : (NewParseContext cb tagP markerP dw).statusMap =
      buildStatusMap ((if cb.isEmpty then defaultCheckbox else cb).filter
        (fun e => goTrimSpace e.2 ≠ [])) := rfl
  rw [hmap, buildStatusMap_get]
  cases hm : minNameFor k ((if cb.isEmpty then defaultCheckbox else cb).filter
      (fun e => goTrimSpace e.2 ≠ [])) with
  | none => rfl
  | some n =>
    exfalso
    obtain ⟨hmem, _⟩ := minNameFor_spec k _ n hm
    obtain ⟨e, hef, _⟩ := List.mem_map.mp hmem
    have hek : e.2 = k := of_decide_eq_true (List.mem_filter.mp hef).2
    have hev : e ∈ (if cb.isEmpty then defaultCheckbox else cb).filter
        (fun e => goTrimSpace e.2 ≠ []) := (List.mem_filter.mp hef).1
    have hne : goTrimSpace e.2 ≠ [] :=
      of_decide_eq_true (List.mem_filter.mp hev).2
    exact hne (hek ▸ hk)

theorem statusFindAux_some (alts : List Str) (line : Str) :
    ∀ (i : Nat) (l : Str), statusFindAux alts line i = some l →
      l ∈ alts ∧ ∃ j, j ≤ i ∧ l.isPrefixOf (line.drop j) = true
  | 0, l => by
    intro h
    rw [statusFindAux] at h
    refine ⟨List.mem_of_find?_eq_some h, 0, le_refl 0, ?_⟩
    have := List.find?_some h
    rwa [List.drop_zero]
  | i + 1, l => by
    intro h
    rw [statusFindAux] at h
    cases hf : alts.find? (fun y => y.isPrefixOf (line.drop (i + 1))) with
    | some x =>
      rw [hf] at h
      injection h with hx
      subst hx
      have hpx := List.find?_some hf
      exact ⟨List.mem_of_find?_eq_some hf, i + 1, le_refl _, hpx⟩
    | none =>
      rw [hf] at h
      obtain ⟨hm, j, hj, hp⟩ := statusFindAux_some alts line i l h
      exact ⟨hm, j, Nat.le_succ_of_le hj, hp⟩

/-- C8: whitespace-only (or empty) checkbox literals are dropped when the
matchers are compiled — every literal in the alternation has non-whitespace
content, and no whitespace-only string is a key of the status lookup — and a
line on which no surviving literal matches (at any offset inside its leading
whitespace) never parses as a task: `ParseTask` returns a non-match. -/
theorem c8_ws_literals_dropped (cb : List (Str × Str)) (tagP markerP : Str)
    (dw : List Str) (rm : RawMatch)
    (hnomatch : ∀ lit ∈ (NewParseContext cb tagP markerP dw).statusAlts,
      ∀ i, i ≤ ((cleanLine rm.text).takeWhile reSpace).length →
        lit.isPrefixOf ((cleanLine rm.text).drop i) = false) :
    (∀ lit ∈ (NewParseContext cb tagP markerP dw).statusAlts,
      goTrimSpace lit ≠ []) ∧
    (∀ k, goTrimSpace k = [] →
      assocGet (NewParseContext cb tagP markerP dw).statusMap k = none) ∧
    ParseTaskGo rm (NewParseContext cb tagP markerP dw) = none := by
  refine ⟨?_, ?_, ?_⟩
  · intro lit hlit
    have hlit' : lit ∈ buildStatusAlts
        ((if cb.isEmpty then defaultCheckbox else cb).filter
          (fun e => goTrimSpace e.2 ≠ [])) := hlit
    obtain ⟨e, he, he2⟩ := buildStatusAlts_mem _ lit hlit'
    rw [← he2]
    exact of_decide_eq_true (List.mem_filter.mp he).2
  · intro k hk
    exact NewParseContext_ws_key_none cb tagP markerP dw k hk
  · cases hres : ParseTaskGo rm (NewParseContext cb tagP markerP dw) with
    | none => rfl
    | some t =>
      exfalso
      obtain ⟨lit, hsf, hag⟩ := ParseTaskGo_status rm _ t hres
      rw [statusFind] at hsf
      by_cases he : (NewParseContext cb tagP markerP dw).statusAlts.isEmpty = true
      · rw [if_pos he] at hsf
        injection hsf with hlit
        rw [← hlit] at hag
        rw [NewParseContext_ws_key_none cb tagP markerP dw [] rfl] at hag
        cases hag
      · rw [if_neg he] at hsf
        obtain ⟨hmem, j, hj, hp⟩ := statusFindAux_some _ _ _ lit hsf
        rw [hnomatch lit hmem j hj] at hp
        cases hp

/-- C8 witness: the configuration mapping `junk` to the whitespace-only
literal `"   "` drops that entry (only `"- [ ]"` survives in the
alternation), never maps a whitespace-only key, and fails to parse the
indented code line `"    x := compute(y)"`. -/
theorem c8_witness :
    (∀ lit ∈ (NewParseContext cbC8 [] [] []).statusAlts,
      ∀ i, i ≤ ((cleanLine rmC8.text).takeWhile reSpace).length →
        lit.isPrefixOf ((cleanLine rmC8.text).drop i) = false) ∧
    ((∀ lit ∈ (NewParseContext cbC8 [] [] []).statusAlts,
      goTrimSpace lit ≠ []) ∧
    (∀ k, goTrimSpace k = [] →
      assocGet (NewParseContext cbC8 [] [] []).statusMap k = none) ∧
    ParseTaskGo rmC8 (NewParseContext cbC8 [] [] []) = none) :=
  ⟨by decide, c8_ws_literals_dropped cbC8 [] [] [] rmC8 (by decide)⟩

/-! ## Claim C1: the longer of two prefix-related literals wins -/

theorem quoteMeta_append : ∀ a b : Str,
    quoteMeta (a ++ b) = quoteMeta a ++ quoteMeta b
  | [], b => rfl
  | c :: cs, b => by
    rw [List.cons_append, quoteMeta, quoteMeta]
    by_cases hc : isReSpecial c = true
    · rw [if_pos hc, if_pos hc, quoteMeta_append cs b, List.cons_append,
        List.cons_append]
    · rw [if_neg hc, if_neg hc, quoteMeta_append cs b, List.cons_append]

theorem quoteMeta_ne_nil (a : Str) (h : a ≠ []) : quoteMeta a ≠ [] := by
  cases a with
  | nil => exact absurd rfl h
  | cons c cs =>
    rw [quoteMeta]
    by_cases hc : isReSpecial c = true
    · rw [if_pos hc]
      exact List.cons_ne_nil _ _
    · rw [if_neg hc]
      exact List.cons_ne_nil _ _

/-- C1 counterexample: with `open ↦ "- [ ]"` and `bullet ↦ "- "`, the line
`"- [ ][ ] x"` parses with the longer literal (status `open`), but its body
`"[ ] x"` does start with `"[ ]"` — the leftover characters of the longer
literal after the shorter one. -/
theorem c1_counterexample :
    (ParseTaskGo rmC1 ctxC1).map (fun t => (t.status, t.body)) =
      some ("open".toList, "[ ] x".toList) ∧
    "[ ]".toList.isPrefixOf "[ ] x".toList = true ∧
    "- ".toList ++ "[ ]".toList = "- [ ]".toList := by
  refine ⟨by decide, by decide, by decide⟩

/-- C1 (amended): for every checkbox configuration mapping `nl` to a literal
`t` and `ns` to a proper prefix `s` of `t` (both literals with non-whitespace
content, `t` starting with a non-whitespace character), the compiled
alternation lists `t` before `s`, and parsing a line whose cleaned text
starts with `t` matches the longer literal `t` and resolves the status to
`nl` — the name mapped to the longer literal, never the shorter one.  (The
spec's further claim about the parsed body is refuted by the concrete
counterexample above.) -/
theorem c1_longer_literal_wins (nl ns s t : Str) (c : Char) (t2 rest : Str)
    (tagP markerP : Str) (dw : List Str) (rm : RawMatch)
    (hst : s ≠ t)
    (hpre : s.isPrefixOf t = true)
    (hsne : goTrimSpace s ≠ [])
    (htne : goTrimSpace t ≠ [])
    (htc : t = c :: t2)
    (hc : reSpace c = false)
    (hline : cleanLine rm.text = t ++ rest) :
    (NewParseContext [(nl, t), (ns, s)] tagP markerP dw).statusAlts = [t, s] ∧
    statusFind (NewParseContext [(nl, t), (ns, s)] tagP markerP dw).statusAlts
      (cleanLine rm.text) = some t ∧
    assocGet (NewParseContext [(nl, t), (ns, s)] tagP markerP dw).statusMap t =
      some nl ∧
    ∀ u : GoTask,
      ParseTaskGo rm (NewParseContext [(nl, t), (ns, s)] tagP markerP dw) =
        some u → u.status = nl := by
  have htnil : t ≠ [] := by rw [htc]; exact List.cons_ne_nil _ _
  obtain ⟨d, hd⟩ : ∃ d, t = s ++ d := by
    obtain ⟨d, hd⟩ := (List.isPrefixOf_iff_prefix.mp hpre)
    exact ⟨d, hd.symm⟩
  have hdne : d ≠ [] := by
    intro hnil
    rw [hnil, List.append_nil] at hd
    exact hst hd.symm
  have hlen : (quoteMeta s).length < (quoteMeta t).length := by
    rw [hd, quoteMeta_append, List.length_append]
    have := List.length_pos.mpr (quoteMeta_ne_nil d hdne)
    omega
  have hqne : quoteMeta s ≠ quoteMeta t := by
    intro hq
    have := congrArg List.length hq
    omega
  have hfil : ([(nl, t), (ns, s)].filter (fun e => goTrimSpace e.2 ≠ [])) =
      [(nl, t), (ns, s)] := by
    simp [htne, hsne]
  have hdedup : dedupEsc [(t, quoteMeta t), (s, quoteMeta s)] [] =
      [(t, quoteMeta t), (s, quoteMeta s)] := by
    rw [dedupEsc]
    rw [show (([] : List Str).contains (quoteMeta t)) = false from rfl]
    rw [if_neg Bool.false_ne_true]
    rw [dedupEsc]
    have hcon : ([quoteMeta t].contains (quoteMeta s)) = false := by
      have hbe : (quoteMeta s == quoteMeta t) = false :=
        beq_eq_false_iff_ne.mpr hqne
      show ((quoteMeta s == quoteMeta t) || ([] : List Str).elem (quoteMeta s))
          = false
      rw [hbe]
      rfl
    rw [hcon, if_neg Bool.false_ne_true, dedupEsc]
  have hldb : lenDescBefore (quoteMeta t) (quoteMeta s) = true :=
    (lenDescBefore_iff _ _).mpr (Or.inl hlen)
  have halts : (NewParseContext [(nl, t), (ns, s)] tagP markerP dw).statusAlts =
      [t, s] := by
    show buildStatusAlts
      (([(nl, t), (ns, s)].filter (fun e => goTrimSpace e.2 ≠ []))) = [t, s]
    rw [hfil]
    show (sortBy (fun a b : Str × Str => lenDescBefore a.2 b.2)
      (dedupEsc [(t, quoteMeta t), (s, quoteMeta s)] [])).map (fun p => p.1) =
      [t, s]
    rw [hdedup]
    rw [show sortBy (fun a b : Str × Str => lenDescBefore a.2 b.2)
        [(t, quoteMeta t), (s, quoteMeta s)] =
      insertBy (fun a b : Str × Str => lenDescBefore a.2 b.2) (t, quoteMeta t)
        [(s, quoteMeta s)] from rfl]
    rw [insertBy, if_pos hldb]
    rfl
  have hsf : statusFind
      (NewParseContext [(nl, t), (ns, s)] tagP markerP dw).statusAlts
      (cleanLine rm.text) = some t := by
    rw [halts, hline, statusFind, if_neg (by simp)]
    have hws : ((t ++ rest).takeWhile reSpace).length = 0 := by
      rw [htc, List.cons_append, List.takeWhile_cons_of_neg (by simp [hc])]
      rfl
    rw [hws, statusFindAux]
    have hpt : List.isPrefixOf t (t ++ rest) = true :=
      List.isPrefixOf_iff_prefix.mpr (List.prefix_append t rest)
    simp only [List.find?, hpt]
  have hmap : assocGet
      (NewParseContext [(nl, t), (ns, s)] tagP markerP dw).statusMap t =
      some nl := by
    show assocGet (buildStatusMap
      (([(nl, t), (ns, s)].filter (fun e => goTrimSpace e.2 ≠ [])))) t = some nl
    rw [hfil, buildStatusMap_get]
    simp [minNameFor, combineMin, hst]
  refine ⟨halts, hsf, hmap, ?_⟩
  intro u hu
  obtain ⟨lit, hsf2, hag⟩ := ParseTaskGo_status rm _ u hu
  rw [hsf] at hsf2
  injection hsf2 with hlit
  rw [← hlit] at hag
  rw [hmap] at hag
  injection hag with h
  exact h.symm

/-- C1 witness: with `open ↦ "- [ ]"` and `bullet ↦ "- "` and the line
`"- [ ][ ] x"` (which starts with the longer literal), the alternation lists
`"- [ ]"` first and the parsed status is `open`. -/
theorem c1_witness :
    ("- ".toList ≠ "- [ ]".toList ∧
      "- ".toList.isPrefixOf "- [ ]".toList = true ∧
      goTrimSpace "- ".toList ≠ [] ∧ goTrimSpace "- [ ]".toList ≠ [] ∧
      "- [ ]".toList = '-' :: " [ ]".toList ∧ reSpace '-' = false ∧
      cleanLine rmC1.text = "- [ ]".toList ++ "[ ] x".toList) ∧
    ((NewParseContext [("open".toList, "- [ ]".toList),
        ("bullet".toList, "- ".toList)] [] [] []).statusAlts =
      ["- [ ]".toList, "- ".toList] ∧
    statusFind (NewParseContext [("open".toList, "- [ ]".toList),
        ("bullet".toList, "- ".toList)] [] [] []).statusAlts
      (cleanLine rmC1.text) = some "- [ ]".toList ∧
    assocGet (NewParseContext [("open".toList, "- [ ]".toList),
        ("bullet".toList, "- ".toList)] [] [] []).statusMap "- [ ]".toList =
      some "open".toList ∧
    ∀ u : GoTask,
      ParseTaskGo rmC1 (NewParseContext [("open".toList, "- [ ]".toList),
        ("bullet".toList, "- ".toList)] [] [] []) = some u →
        u.status = "open".toList) :=
  ⟨⟨by decide, by decide, by decide, by decide, by decide, by decide, by decide⟩,
    c1_longer_literal_wins "open".toList "bullet".toList "- ".toList
      "- [ ]".toList '-' " [ ]".toList "[ ] x".toList [] [] [] rmC1
      (by decide) (by decide) (by decide) (by decide) (by decide) (by decide)
      (by decide)⟩

/-! ## Claim C2: character classes and scanning lemmas -/

theorem bool_class_ne {p : Char → Bool} (c k : Char) (h : p c = true)
    (hk : p k = false) : c ≠ k := by
  intro hc
  subst hc
  rw [h] at hk
  cases hk

theorem unispace_not_word (c : Char) (hu : isUniSpace c = true) :
    isWordCh c = false := by
  simp only [isUniSpace, Bool.or_eq_true, decide_eq_true_eq] at hu
  rcases hu with (((((((rfl | rfl) | rfl) | rfl) | rfl) | rfl) | rfl) | rfl) <;> decide

theorem word_not_unispace (c : Char) (h : isWordCh c = true) :
    isUniSpace c = false := by
  cases hu : isUniSpace c with
  | false => rfl
  | true => rw [unispace_not_word c hu] at h; cases h

theorem respace_not_word (c : Char) (hu : reSpace c = true) :
    isWordCh c = false := by
  simp only [reSpace, Bool.or_eq_true, decide_eq_true_eq] at hu
  rcases hu with ((((rfl | rfl) | rfl) | rfl) | rfl) <;> decide

theorem word_not_respace (c : Char) (h : isWordCh c = true) :
    reSpace c = false := by
  cases hu : reSpace c with
  | false => rfl
  | true => rw [respace_not_word c hu] at h; cases h

theorem digit_word (c : Char) (h : isDigitCh c = true) : isWordCh c = true := by
  simp only [isDigitCh, Bool.and_eq_true, decide_eq_true_eq] at h
  simp only [isWordCh, Bool.or_eq_true, Bool.and_eq_true, decide_eq_true_eq]
  exact Or.inl (Or.inl (Or.inl ⟨h.1, h.2⟩))

theorem takeWhile_all_append (p : Char → Bool) :
    ∀ x y : Str, x.all p = true →
      List.takeWhile p (x ++ y) = x ++ List.takeWhile p y
  | [], y => fun _ => rfl
  | c :: x, y => by
    intro h
    rw [List.all_cons, Bool.and_eq_true] at h
    rw [List.cons_append, List.takeWhile_cons_of_pos h.1,
      takeWhile_all_append p x y h.2, List.cons_append]

theorem dropWhile_all_append (p : Char → Bool) :
    ∀ x y : Str, x.all p = true →
      List.dropWhile p (x ++ y) = List.dropWhile p y
  | [], y => fun _ => rfl
  | c :: x, y => by
    intro h
    rw [List.all_cons, Bool.and_eq_true] at h
    rw [List.cons_append, List.dropWhile_cons_of_pos h.1,
      dropWhile_all_append p x y h.2]

theorem trimLeftSet_cons_neg (p : Char → Bool) (c : Char) (s : Str)
    (hc : p c = false) : trimLeftSet p (c :: s) = c :: s := by
  rw [trimLeftSet, if_neg (by rw [hc]; exact Bool.false_ne_true)]

theorem trimLeftSet_all_append (p : Char → Bool) :
    ∀ x y : Str, x.all p = true → trimLeftSet p (x ++ y) = trimLeftSet p y
  | [], y => fun _ => rfl
  | c :: x, y => by
    intro h
    rw [List.all_cons, Bool.and_eq_true] at h
    rw [List.cons_append, trimLeftSet, if_pos h.1]
    exact trimLeftSet_all_append p x y h.2

theorem trimRightSet_append_all (p : Char → Bool) (s sp : Str)
    (hsp : sp.all p = true) : trimRightSet p (s ++ sp) = trimRightSet p s := by
  rw [trimRightSet, trimRightSet, List.reverse_append,
    trimLeftSet_all_append p sp.reverse s.reverse (by rwa [List.all_reverse])]

theorem trimRightSet_snoc_neg (p : Char → Bool) (s : Str) (d : Char)
    (hd : p d = false) : trimRightSet p (s ++ [d]) = s ++ [d] := by
  rw [trimRightSet, List.reverse_append, List.reverse_singleton,
    List.singleton_append, trimLeftSet_cons_neg p d s.reverse hd,
    List.reverse_cons, List.reverse_reverse]

theorem goTrimSpace_clean (c : Char) (mid : Str) (d : Char) (sp : Str)
    (hc : isUniSpace c = false) (hd : isUniSpace d = false)
    (hsp : sp.all isUniSpace = true) :
    goTrimSpace ((c :: mid ++ [d]) ++ sp) = c :: mid ++ [d] := by
  rw [goTrimSpace, List.cons_append, List.cons_append,
    trimLeftSet_cons_neg isUniSpace c _ hc, ← List.cons_append,
    trimRightSet_append_all isUniSpace _ sp hsp, ← List.cons_append,
    trimRightSet_snoc_neg isUniSpace (c :: mid) d hd]

theorem digitChar_digit : ∀ n : Nat, n < 10 → isDigitCh (Nat.digitChar n) = true := by
  decide

theorem natDigitsAux_digits : ∀ (f n : Nat) (ch : Char),
    ch ∈ natDigitsAux f n → isDigitCh ch = true
  | 0, n, ch => by intro h; cases h
  | f + 1, n, ch => by
    intro h
    rw [natDigitsAux] at h
    by_cases hn : n < 10
    · rw [if_pos hn] at h
      rw [List.mem_singleton] at h
      rw [h]
      exact digitChar_digit n hn
    · rw [if_neg hn] at h
      rw [List.mem_append, List.mem_singleton] at h
      rcases h with h | h
      · exact natDigitsAux_digits f (n / 10) ch h
      · rw [h]
        exact digitChar_digit (n % 10) (Nat.mod_lt n (by omega))

theorem intToStr_chars (n : Int) (ch : Char) (h : ch ∈ intToStr n) :
    ch = '-' ∨ isDigitCh ch = true := by
  rw [intToStr] at h
  by_cases hn : n < 0
  · rw [if_pos hn] at h
    rw [List.mem_cons] at h
    rcases h with h | h
    · exact Or.inl h
    · exact Or.inr (natDigitsAux_digits _ _ ch h)
  · rw [if_neg hn] at h
    exact Or.inr (natDigitsAux_digits _ _ ch h)

theorem padZero_chars (w : Nat) (s : Str) (ch : Char) (h : ch ∈ padZero w s) :
    ch = '0' ∨ ch ∈ s := by
  rw [padZero, List.mem_append] at h
  rcases h with h | h
  · exact Or.inl (List.eq_of_mem_replicate h)
  · exact Or.inr h

theorem dateToStr_chars (d : Int) (ch : Char) (h : ch ∈ dateToStr d) :
    ch = '-' ∨ isDigitCh ch = true := by
  rw [dateToStr] at h
  simp only [List.mem_append, List.mem_cons] at h
  rcases h with (h | h | h) | (h | h)
  · rcases padZero_chars _ _ ch h with h | h
    · exact Or.inr (by rw [h]; decide)
    · exact intToStr_chars _ ch h
  · exact Or.inl h
  · rcases padZero_chars _ _ ch h with h | h
    · exact Or.inr (by rw [h]; decide)
    · exact intToStr_chars _ ch h
  · exact Or.inl h
  · rcases padZero_chars _ _ ch h with h | h
    · exact Or.inr (by rw [h]; decide)
    · exact intToStr_chars _ ch h

theorem tagFindAllAux_nil (pre : Str) : ∀ n, tagFindAllAux pre n [] = []
  | 0 => rfl
  | _ + 1 => rfl

theorem tagMatchAt_none (c : Char) (cs : Str) (hc : c ≠ '+') :
    tagMatchAt ['+'] (c :: cs) = none := by
  have hpre : (['+'] : Str).isPrefixOf (c :: cs) = false := by
    rw [List.isPrefixOf]
    rw [beq_eq_false_iff_ne.mpr (fun h => hc h.symm)]
    rfl
  rw [tagMatchAt, afterLit, if_neg (by rw [hpre]; exact Bool.false_ne_true)]
  rfl

theorem tagFindAllAux_skip : ∀ (x : Str) (n : Nat) (y : Str),
    ('+' : Char) ∉ x →
    tagFindAllAux ['+'] (x.length + n) (x ++ y) = tagFindAllAux ['+'] n y
  | [] => by
    intro n y _
    rw [List.length_nil, Nat.zero_add, List.nil_append]
  | c :: x => by
    intro n y hx
    have hc : c ≠ '+' := fun h => hx (h ▸ List.mem_cons_self c x)
    rw [List.cons_append, List.length_cons]
    rw [show x.length + 1 + n = (x.length + n) + 1 from by omega]
    rw [show tagFindAllAux ['+'] ((x.length + n) + 1) (c :: (x ++ y)) =
      (match tagMatchAt ['+'] (c :: (x ++ y)) with
        | some (cap, len) =>
          cap :: tagFindAllAux ['+'] (x.length + n) ((c :: (x ++ y)).drop len)
        | none => tagFindAllAux ['+'] (x.length + n) (x ++ y)) from rfl]
    rw [tagMatchAt_none c _ hc]
    exact tagFindAllAux_skip x n y (fun h => hx (List.mem_cons_of_mem c h))

theorem tagMatchAt_tag (tg R : Str) (hv : validTagName tg = true)
    (hR : R = [] ∨ ∃ rc rr, R = rc :: rr ∧ tagCh rc = false) :
    tagMatchAt ['+'] ('+' :: tg ++ R) = some (tg, tg.length + 1) := by
  cases tg with
  | nil => rw [validTagName] at hv; cases hv
  | cons c cs =>
    rw [validTagName, Bool.and_eq_true] at hv
    have hpre : (['+'] : Str).isPrefixOf ('+' :: (c :: cs) ++ R) = true := by
      rw [List.cons_append, List.isPrefixOf]
      rfl
    have hrun : List.takeWhile tagCh (cs ++ R) = cs := by
      rcases hR with rfl | ⟨rc, rr, rfl, hrc⟩
      · rw [List.append_nil]
        have hthis := takeWhile_all_append tagCh cs [] hv.2
        rw [List.append_nil, List.takeWhile_nil, List.append_nil] at hthis
        exact hthis
      · rw [takeWhile_all_append tagCh cs _ hv.2,
          List.takeWhile_cons_of_neg (by rw [hrc]; exact Bool.false_ne_true),
          List.append_nil]
    rw [tagMatchAt, afterLit, if_pos (by rw [hpre])]
    rw [show ('+' :: (c :: cs) ++ R).drop (['+'] : Str).length =
      c :: (cs ++ R) from rfl]
    show (if tagStartCh c = true then
      some (c :: List.takeWhile tagCh (cs ++ R),
        (['+'] : Str).length + 1 + (List.takeWhile tagCh (cs ++ R)).length)
    else none) = some (c :: cs, (c :: cs).length + 1)
    rw [if_pos hv.1, hrun]
    rw [show (['+'] : Str).length + 1 + cs.length = (c :: cs).length + 1 from by
      rw [List.length_cons, List.length_cons, List.length_nil]; omega]

theorem tagFindAllAux_section : ∀ (ts : List Str) (z : Str) (n : Nat),
    ts.all validTagName = true → ('+' : Char) ∉ z →
    (z = [] ∨ ∃ zc zr, z = zc :: zr ∧ tagCh zc = false) →
    tagFindAllAux ['+']
      ((((ts.map (fun tg => '+' :: tg)).intersperse " ".toList).flatten ++ z).length + n)
      (((ts.map (fun tg => '+' :: tg)).intersperse " ".toList).flatten ++ z) = ts
  | [], z, n => by
    intro _ hz _
    rw [List.map_nil]
    rw [show (List.intersperse " ".toList ([] : List Str)).flatten = [] from rfl]
    rw [List.nil_append]
    have h1 := tagFindAllAux_skip z n [] hz
    rw [List.append_nil] at h1
    rw [h1]
    exact tagFindAllAux_nil _ n
  | [t], z, n => by
    intro hts hz hzh
    rw [List.all_cons, Bool.and_eq_true] at hts
    rw [List.map_cons, List.map_nil]
    rw [show List.intersperse " ".toList [('+' :: t)] = [('+' :: t)] from rfl]
    rw [show ([('+' :: t)] : List Str).flatten = ('+' :: t) ++ [] from rfl]
    rw [List.append_nil]
    rw [show (('+' :: t) ++ z).length + n = (z.length + (t.length + n)) + 1 from by
      rw [List.length_append, List.length_cons]; omega]
    rw [List.cons_append]
    rw [show tagFindAllAux ['+'] ((z.length + (t.length + n)) + 1) ('+' :: (t ++ z)) =
      (match tagMatchAt ['+'] ('+' :: (t ++ z)) with
        | some (cap, len) =>
          cap :: tagFindAllAux ['+'] (z.length + (t.length + n))
            (('+' :: (t ++ z)).drop len)
        | none => tagFindAllAux ['+'] (z.length + (t.length + n)) (t ++ z)) from rfl]
    rw [show ('+' : Char) :: (t ++ z) = ('+' :: t) ++ z from by
      rw [List.cons_append]]
    rw [tagMatchAt_tag t z hts.1 hzh]
    show t :: tagFindAllAux ['+'] (z.length + (t.length + n))
      (List.drop (t.length + 1) (('+' :: t) ++ z)) = [t]
    rw [show (('+' :: t) ++ z).drop (t.length + 1) = z from by
      rw [show t.length + 1 = ('+' :: t).length from by rw [List.length_cons]]
      exact List.drop_left ('+' :: t) z]
    have h1 := tagFindAllAux_skip z (t.length + n) [] hz
    rw [List.append_nil] at h1
    rw [h1]
    rw [tagFindAllAux_nil _ (t.length + n)]
  | t :: t2 :: ts, z, n => by
    intro hts hz hzh
    rw [List.all_cons, Bool.and_eq_true] at hts
    rw [List.map_cons, List.map_cons]
    rw [show List.intersperse " ".toList
        (('+' :: t) :: ('+' :: t2) :: List.map (fun tg => '+' :: tg) ts) =
      ('+' :: t) :: " ".toList ::
        List.intersperse " ".toList (('+' :: t2) :: List.map (fun tg => '+' :: tg) ts)
      from rfl]
    rw [List.flatten_cons, List.flatten_cons]
    rw [show " ".toList = [' '] from rfl]
    have hrec := tagFindAllAux_section (t2 :: ts) z (t.length + n) hts.2 hz hzh
    rw [List.map_cons] at hrec
    rw [show " ".toList = [' '] from rfl] at hrec
    set SEC := ((('+' :: t2) :: List.map (fun tg => '+' :: tg) ts).intersperse
      [' ']).flatten with hSEC
    rw [show (('+' :: t) ++ ([' '] ++ SEC) ++ z).length + n =
        ((1 + (SEC ++ z).length) + (t.length + n)) + 1 from by
      simp only [List.length_append, List.length_cons, List.length_nil]
      omega]
    rw [show (('+' :: t) ++ ([' '] ++ SEC) ++ z) =
      '+' :: (t ++ (' ' :: (SEC ++ z))) from by
      simp [List.append_assoc]]
    rw [show tagFindAllAux ['+'] (((1 + (SEC ++ z).length) + (t.length + n)) + 1)
        ('+' :: (t ++ (' ' :: (SEC ++ z)))) =
      (match tagMatchAt ['+'] ('+' :: (t ++ (' ' :: (SEC ++ z)))) with
        | some (cap, len) =>
          cap :: tagFindAllAux ['+'] ((1 + (SEC ++ z).length) + (t.length + n))
            (('+' :: (t ++ (' ' :: (SEC ++ z)))).drop len)
        | none => tagFindAllAux ['+'] ((1 + (SEC ++ z).length) + (t.length + n))
            (t ++ (' ' :: (SEC ++ z)))) from rfl]
    rw [show '+' :: (t ++ (' ' :: (SEC ++ z))) = '+' :: t ++ (' ' :: (SEC ++ z))
      from by rw [List.cons_append]]
    rw [tagMatchAt_tag t (' ' :: (SEC ++ z)) hts.1
      (Or.inr ⟨' ', SEC ++ z, rfl, by decide⟩)]
    show t :: tagFindAllAux ['+'] ((1 + (SEC ++ z).length) + (t.length + n))
      (List.drop (t.length + 1) (('+' :: t) ++ (' ' :: (SEC ++ z)))) = t :: t2 :: ts
    rw [show (('+' :: t) ++ (' ' :: (SEC ++ z))).drop (t.length + 1) =
        ' ' :: (SEC ++ z) from by
      rw [show t.length + 1 = ('+' :: t).length from by rw [List.length_cons]]
      exact List.drop_left ('+' :: t) (' ' :: (SEC ++ z))]
    rw [show (1 + (SEC ++ z).length) + (t.length + n) =
      ([' '] : Str).length + ((SEC ++ z).length + (t.length + n)) from by
      rw [List.length_singleton]; omega]
    rw [show ' ' :: (SEC ++ z) = [' '] ++ (SEC ++ z) from rfl]
    rw [tagFindAllAux_skip [' '] _ (SEC ++ z) (by decide)]
    congr 1

theorem not_mem_append {a : Char} {x y : Str} (hx : a ∉ x) (hy : a ∉ y) :
    a ∉ x ++ y := fun h => (List.mem_append.mp h).elim hx hy

theorem not_mem_cons {a c : Char} {x : Str} (hne : ¬ a = c) (hx : a ∉ x) :
    a ∉ c :: x := fun h => (List.mem_cons.mp h).elim hne hx

theorem not_mem_replicate {a c : Char} {n : Nat} (hne : a ≠ c) :
    a ∉ List.replicate n c := fun h => hne (List.eq_of_mem_replicate h)

theorem chars_not_intToStr {c : Char} (n : Int) (h1 : c ≠ '-')
    (h2 : isDigitCh c = false) : c ∉ intToStr n := by
  intro hm
  rcases intToStr_chars n c hm with h | h
  · exact h1 h
  · rw [h2] at h; cases h

theorem chars_not_dateToStr {c : Char} (d : Int) (h1 : c ≠ '-')
    (h2 : isDigitCh c = false) : c ∉ dateToStr d := by
  intro hm
  rcases dateToStr_chars d c hm with h | h
  · exact h1 h
  · rw [h2] at h; cases h

theorem timeShape_decomp (s : Str) (h : timeShape s = true) :
    ∃ a b d e, s = [a, b, ':', d, e] ∧ isDigitCh a = true ∧ isDigitCh b = true ∧
      isDigitCh d = true ∧ isDigitCh e = true := by
  match s, h with
  | [a, b, c, d, e], h => ?_
  rw [timeShape] at h
  simp only [Bool.and_eq_true, decide_eq_true_eq] at h
  obtain ⟨⟨⟨⟨ha, hb⟩, hc⟩, hd⟩, he⟩ := h
  exact ⟨a, b, d, e, by rw [hc], ha, hb, hd, he⟩

theorem dateShape_decomp (s : Str) (h : dateShape s = true) :
    ∃ a b c d e f g k, s = [a, b, c, d, '-', e, f, '-', g, k] ∧
      isDigitCh a = true ∧ isDigitCh b = true ∧ isDigitCh c = true ∧
      isDigitCh d = true ∧ isDigitCh e = true ∧ isDigitCh f = true ∧
      isDigitCh g = true ∧ isDigitCh k = true := by
  match s, h with
  | [a, b, c, d, h1, e, f, h2, g, k], h => ?_
  rw [dateShape] at h
  simp only [Bool.and_eq_true, decide_eq_true_eq] at h
  obtain ⟨⟨⟨⟨⟨⟨⟨⟨⟨ha, hb⟩, hc⟩, hd⟩, hh1⟩, he⟩, hf⟩, hh2⟩, hg⟩, hk⟩ := h
  exact ⟨a, b, c, d, e, f, g, k, by rw [hh1, hh2], ha, hb, hc, hd, he, hf, hg, hk⟩

theorem dateShape_chars (s : Str) (h : dateShape s = true) (ch : Char)
    (hm : ch ∈ s) : ch = '-' ∨ isDigitCh ch = true := by
  obtain ⟨a, b, c, d, e, f, g, k, rfl, ha, hb, hc, hd, he, hf, hg, hk⟩ :=
    dateShape_decomp s h
  simp only [List.mem_cons, List.not_mem_nil, or_false] at hm
  rcases hm with rfl | rfl | rfl | rfl | rfl | rfl | rfl | rfl | rfl | rfl
  · exact Or.inr ha
  · exact Or.inr hb
  · exact Or.inr hc
  · exact Or.inr hd
  · exact Or.inl rfl
  · exact Or.inr he
  · exact Or.inr hf
  · exact Or.inl rfl
  · exact Or.inr hg
  · exact Or.inr hk

theorem timeShape_chars (s : Str) (h : timeShape s = true) (ch : Char)
    (hm : ch ∈ s) : ch = ':' ∨ isDigitCh ch = true := by
  obtain ⟨a, b, d, e, rfl, ha, hb, hd, he⟩ := timeShape_decomp s h
  simp only [List.mem_cons, List.not_mem_nil, or_false] at hm
  rcases hm with rfl | rfl | rfl | rfl | rfl
  · exact Or.inr ha
  · exact Or.inr hb
  · exact Or.inl rfl
  · exact Or.inr hd
  · exact Or.inr he

theorem chars_not_markersCol (c : Char) (ms : List GoMarker)
    (hvm : ∀ m ∈ ms, validMarker m = true)
    (h1 : c ≠ ' ') (h2 : c ≠ '>') (h3 : isWordCh c = false) (h4 : c ≠ '[')
    (h5 : c ≠ ']') (h6 : c ≠ '-') (h7 : isDigitCh c = false) (h8 : c ≠ ':') :
    c ∉ (ms.map (fun m =>
      ' ' :: (['>', '>'] : Str) ++ m.kind ++ ' ' :: "[[".toList ++ m.date ++
        "]]".toList ++
        (if m.time ≠ [] then ' ' :: m.time else []))).flatten := by
  intro hm
  rw [List.mem_flatten] at hm
  obtain ⟨l, hl, hcl⟩ := hm
  rw [List.mem_map] at hl
  obtain ⟨m, hmm, rfl⟩ := hl
  have hv := hvm m hmm
  rw [validMarker] at hv
  simp only [Bool.and_eq_true, Bool.or_eq_true, decide_eq_true_eq] at hv
  obtain ⟨⟨⟨_, hkind⟩, hdate⟩, htime⟩ := hv
  have hkindn : c ∉ m.kind := by
    intro hck
    rw [List.all_eq_true] at hkind
    have := hkind c hck
    rw [h3] at this
    cases this
  have hdaten : c ∉ m.date := by
    intro hcd
    rcases dateShape_chars m.date hdate c hcd with hh | hh
    · exact h6 hh
    · rw [h7] at hh; cases hh
  have htimen : c ∉ (if m.time ≠ [] then ' ' :: m.time else []) := by
    split
    · apply not_mem_cons h1
      intro hct
      rcases htime with hh | hh
      · rw [hh] at hct; cases hct
      · rcases timeShape_chars m.time hh c hct with hh2 | hh2
        · exact h8 hh2
        · rw [h7] at hh2; cases hh2
    · exact List.not_mem_nil c
  have hA : c ∉ (' ' :: (['>', '>'] : Str)) :=
    not_mem_cons h1 (not_mem_cons h2 (not_mem_cons h2 (List.not_mem_nil c)))
  have hB : c ∉ (' ' :: "[[".toList : Str) :=
    not_mem_cons h1 (not_mem_cons h4 (not_mem_cons h4 (List.not_mem_nil c)))
  have hC : c ∉ ("]]".toList : Str) :=
    not_mem_cons h5 (not_mem_cons h5 (List.not_mem_nil c))
  exact not_mem_append (not_mem_append (not_mem_append (not_mem_append
    (not_mem_append hA hkindn) hB) hdaten) hC) htimen hcl

theorem tagFindAll_skeleton (x z : Str) (ts : List Str)
    (hx : ('+' : Char) ∉ x) (hz : ('+' : Char) ∉ z)
    (hts : ts.all validTagName = true)
    (hzh : z = [] ∨ ∃ zc zr, z = zc :: zr ∧ tagCh zc = false) :
    tagFindAll ['+'] ((x ++ (if ts ≠ [] then
      ' ' :: ((ts.map (fun tg => ['+'] ++ tg)).intersperse " ".toList).flatten
    else [])) ++ z) = ts := by
  by_cases h0 : ts = []
  · subst h0
    rw [if_neg (by simp)]
    rw [List.append_nil]
    rw [tagFindAll]
    rw [List.length_append]
    rw [tagFindAllAux_skip x z.length z hx]
    have h1 := tagFindAllAux_skip z 0 [] hz
    rw [List.append_nil] at h1
    rw [show z.length = z.length + 0 from (Nat.add_zero _).symm, h1]
    exact tagFindAllAux_nil _ 0
  · rw [if_pos h0]
    simp only [List.singleton_append]
    rw [List.append_assoc]
    rw [show (' ' :: ((ts.map (fun tg => '+' :: tg)).intersperse
        " ".toList).flatten) ++ z =
      (([' '] : Str) ++ (((ts.map (fun tg => '+' :: tg)).intersperse
        " ".toList).flatten ++ z)) from by
      rw [List.cons_append, List.singleton_append]]
    rw [← List.append_assoc]
    rw [tagFindAll]
    rw [List.length_append]
    have hsec := tagFindAllAux_section ts z 0 hts hz hzh
    rw [Nat.add_zero] at hsec
    rw [tagFindAllAux_skip (x ++ [' '])
      (((ts.map (fun tg => '+' :: tg)).intersperse " ".toList).flatten ++ z).length
      _ (not_mem_append hx (by decide))]
    exact hsec

theorem tags_roundtrip (t : GoTask) (opts : FormatOpts)
    (htp : opts.tagPre = "+".toList) (hmp : opts.markerPre = ">>".toList)
    (hvt : t.tags.all validTagName = true)
    (hvm : ∀ m ∈ t.markers, validMarker m = true)
    (hfp : ('+' : Char) ∉ t.filePath) (hbd : ('+' : Char) ∉ t.body)
    (hdt : ('+' : Char) ∉ t.dueTime) (hdu : ('+' : Char) ∉ t.duration) :
    tagFindAll "+".toList (formatTaskLine t opts) = t.tags := by
  have htagP : (if opts.tagPre = [] then "#".toList else opts.tagPre) =
      (['+'] : Str) := by
    rw [htp]
    decide
  have hmkP : (if opts.markerPre = [] then "::".toList else opts.markerPre) =
      (['>', '>'] : Str) := by
    rw [hmp]
    decide
  rw [formatTaskLine]
  simp only [htagP, hmkP]
  rw [show "+".toList = (['+'] : Str) from rfl]
  apply tagFindAll_skeleton
  · -- no '+' in the location/date/time/duration/body columns
    apply not_mem_append
    apply not_mem_append
    apply not_mem_append
    apply not_mem_append
    · -- loc
      apply not_mem_append
      · apply not_mem_append hfp
        apply not_mem_cons (by decide)
        exact chars_not_intToStr _ (by decide) (by decide)
      · decide
    · -- dateCol
      cases t.dueDate with
      | none => decide
      | some d =>
        apply not_mem_append
        apply not_mem_append
        · decide
        · exact chars_not_dateToStr d (by decide) (by decide)
        · decide
    · -- timeCol
      split
      · apply not_mem_append
        apply not_mem_append
        · decide
        · exact hdt
        · decide
      · decide
    · -- durCol
      split
      · apply not_mem_append
        apply not_mem_append
        · exact not_mem_replicate (by decide)
        · exact hdu
        · decide
      · decide
    · -- bodyCol
      apply not_mem_cons (by decide)
      apply not_mem_cons (by decide)
      apply not_mem_append hbd
      decide
  · -- no '+' in the markers column
    split
    · exact chars_not_markersCol '+' t.markers hvm (by decide) (by decide)
        (by decide) (by decide) (by decide) (by decide) (by decide) (by decide)
    · exact List.not_mem_nil '+'
  · exact hvt
  · -- the markers column is empty or starts with a space
    split
    · cases t.markers with
      | nil => exact Or.inl rfl
      | cons m ms =>
        exact Or.inr ⟨' ', _, by
          rw [List.map_cons, List.flatten_cons]
          simp only [List.cons_append, List.append_assoc]
          rfl, by decide⟩
    · exact Or.inl rfl

theorem date_tail_chars (m : GoMarker) (hdate : dateShape m.date = true)
    (htime : m.time = [] ∨ timeShape m.time = true) (ch : Char)
    (hch : ch ∈ m.date ++ ']' :: ']' ::
      (if m.time ≠ [] then ' ' :: m.time else [])) :
    isDigitCh ch = true ∨ ch = '-' ∨ ch = ']' ∨ ch = ' ' ∨ ch = ':' := by
  rw [List.mem_append, List.mem_cons, List.mem_cons] at hch
  rcases hch with hch | hch | hch | hch
  · rcases dateShape_chars m.date hdate ch hch with hh | hh
    · exact Or.inr (Or.inl hh)
    · exact Or.inl hh
  · exact Or.inr (Or.inr (Or.inl hch))
  · exact Or.inr (Or.inr (Or.inl hch))
  · rcases htime with ht | ht
    · rw [if_neg (by rw [ht]; simp)] at hch
      cases hch
    · have htne : m.time ≠ [] := by
        intro hnil
        rw [hnil] at ht
        cases ht
      rw [if_pos htne] at hch
      rcases List.mem_cons.mp hch with rfl | hch2
      · exact Or.inr (Or.inr (Or.inr (Or.inl rfl)))
      · rcases timeShape_chars m.time ht ch hch2 with hh | hh
        · exact Or.inr (Or.inr (Or.inr (Or.inr hh)))
        · exact Or.inl hh

theorem aliasBranches_date (m : GoMarker) (hdate : dateShape m.date = true)
    (htime : m.time = [] ∨ timeShape m.time = true) :
    aliasBranches (m.date ++ ']' :: ']' ::
      (if m.time ≠ [] then ' ' :: m.time else [])) =
    [m.date ++ ']' :: ']' :: (if m.time ≠ [] then ' ' :: m.time else [])] := by
  have hall : m.date.all (fun c => ¬ (c = '|' || c = ']')) = true := by
    rw [List.all_eq_true]
    intro ch hch
    rcases dateShape_chars m.date hdate ch hch with hh | hh
    · rw [hh]; decide
    · have h1 : ch ≠ '|' := bool_class_ne ch '|' hh (by decide)
      have h2 : ch ≠ ']' := bool_class_ne ch ']' hh (by decide)
      simp [h1, h2]
  rw [aliasBranches]
  rw [takeWhile_all_append _ m.date _ hall]
  rw [List.takeWhile_cons_of_neg (by decide)]
  rw [List.append_nil]
  rw [List.drop_left]
  rfl

theorem slashBranches_date (m : GoMarker) (hdate : dateShape m.date = true)
    (htime : m.time = [] ∨ timeShape m.time = true) :
    slashBranches (m.date ++ ']' :: ']' ::
      (if m.time ≠ [] then ' ' :: m.time else [])) =
    [m.date ++ ']' :: ']' :: (if m.time ≠ [] then ' ' :: m.time else [])] := by
  have hall : (m.date ++ ']' :: ']' ::
      (if m.time ≠ [] then ' ' :: m.time else [])).all (fun c => c ≠ '\n') = true := by
    rw [List.all_eq_true]
    intro ch hch
    rcases date_tail_chars m hdate htime ch hch with hh | hh | hh | hh | hh
    · have := bool_class_ne ch '\n' hh (by decide)
      simp [this]
    all_goals (rw [hh]; decide)
  have htw : List.takeWhile (fun c => c ≠ '\n')
      (m.date ++ ']' :: ']' :: (if m.time ≠ [] then ' ' :: m.time else [])) =
      m.date ++ ']' :: ']' :: (if m.time ≠ [] then ' ' :: m.time else []) := by
    have := takeWhile_all_append (fun c => decide (c ≠ '\n'))
      (m.date ++ ']' :: ']' :: (if m.time ≠ [] then ' ' :: m.time else [])) [] hall
    rw [List.append_nil, List.takeWhile_nil, List.append_nil] at this
    exact this
  have hfil : (List.range (m.date ++ ']' :: ']' ::
      (if m.time ≠ [] then ' ' :: m.time else [])).length).filter
      (fun k => (m.date ++ ']' :: ']' ::
        (if m.time ≠ [] then ' ' :: m.time else [])).getD k ' ' = '/') = [] := by
    rw [List.filter_eq_nil_iff]
    intro k hk
    rw [List.mem_range] at hk
    have hmem := getD_mem ' ' hk
    have : (m.date ++ ']' :: ']' ::
        (if m.time ≠ [] then ' ' :: m.time else [])).getD k ' ' ≠ '/' := by
      rcases date_tail_chars m hdate htime _ hmem with hh | hh | hh | hh | hh
      · exact bool_class_ne _ '/' hh (by decide)
      all_goals (rw [hh]; decide)
    simp only [decide_eq_true_eq]
    exact this
  rw [slashBranches]
  rw [htw, hfil]
  rfl

theorem bind_some_opt {α β : Type} (a : α) (f : α → Option β) :
    (some a >>= f) = f a := rfl

theorem obind_some {α β : Type} (a : α) (f : α → Option β) :
    Option.bind (some a) f = f a := rfl

theorem bind_some_do {α β : Type} (a : α) (f : α → Option β) :
    (do
      let x ← some a
      f x : Option β) = f a := rfl

theorem firstSome_singleton {α β : Type} (x : α) (f : α → Option β) (b : β)
    (h : f x = some b) : firstSome [x] f = some b := by
  show (match f x with
    | some b => some b
    | none => firstSome ([] : List α) f) = some b
  rw [h]

theorem matchDateDigits_date (m : GoMarker) (hdate : dateShape m.date = true)
    (rest : Str) :
    matchDateDigits (m.date ++ rest) = some (m.date, rest) := by
  obtain ⟨a, b, c, d, e, f, g, k, hd10, ha, hb, hc, hd, he, hf, hg, hk⟩ :=
    dateShape_decomp m.date hdate
  rw [hd10]
  show (if isDigitCh a && isDigitCh b && isDigitCh c && isDigitCh d &&
      ('-' = '-' : Bool) && isDigitCh e && isDigitCh f && ('-' = '-' : Bool) &&
      isDigitCh g && isDigitCh k then
    some ([a, b, c, d, '-', e, f, '-', g, k], rest)
  else none) = some ([a, b, c, d, '-', e, f, '-', g, k], rest)
  rw [if_pos (by rw [ha, hb, hc, hd, he, hf, hg, hk]; decide)]

theorem markerMatchAt_marker (m : GoMarker) (hv : validMarker m = true) :
    markerMatchAt (m.kind ++ ' ' :: '[' :: '[' ::
      (m.date ++ ']' :: ']' :: (if m.time ≠ [] then ' ' :: m.time else []))) =
    some m := by
  rw [validMarker] at hv
  simp only [Bool.and_eq_true, Bool.or_eq_true, decide_eq_true_eq] at hv
  obtain ⟨⟨⟨hkne, hkw⟩, hdate⟩, htime⟩ := hv
  have hW : List.takeWhile isWordCh (m.kind ++ ' ' :: '[' :: '[' ::
      (m.date ++ ']' :: ']' :: (if m.time ≠ [] then ' ' :: m.time else []))) =
      m.kind := by
    rw [takeWhile_all_append isWordCh m.kind _ hkw,
      List.takeWhile_cons_of_neg (by decide), List.append_nil]
  have hs2 : (m.kind ++ ' ' :: '[' :: '[' ::
      (m.date ++ ']' :: ']' :: (if m.time ≠ [] then ' ' :: m.time else []))).drop
      m.kind.length = ' ' :: '[' :: '[' ::
      (m.date ++ ']' :: ']' :: (if m.time ≠ [] then ' ' :: m.time else [])) :=
    List.drop_left _ _
  have hsp : List.takeWhile reSpace (' ' :: '[' :: '[' ::
      (m.date ++ ']' :: ']' :: (if m.time ≠ [] then ' ' :: m.time else []))) =
      [' '] := by
    rw [List.takeWhile_cons_of_pos (by decide),
      List.takeWhile_cons_of_neg (by decide)]
  rw [markerMatchAt]
  simp only [hW]
  rw [if_neg hkne]
  simp only [hs2, hsp]
  rw [if_neg (by decide)]
  simp only [show ("[[".toList : Str) = ['[', '['] from rfl,
    show ("]]".toList : Str) = [']', ']'] from rfl]
  rw [show (([' '] : Str)).length = 1 from rfl]
  rw [show (' ' :: '[' :: '[' ::
      (m.date ++ ']' :: ']' :: (if m.time ≠ [] then ' ' :: m.time else []))).drop 1 =
    '[' :: '[' ::
      (m.date ++ ']' :: ']' :: (if m.time ≠ [] then ' ' :: m.time else []))
    from rfl]
  rw [show afterLit ['[', '['] ('[' :: '[' ::
      (m.date ++ ']' :: ']' :: (if m.time ≠ [] then ' ' :: m.time else []))) =
    some (m.date ++ ']' :: ']' :: (if m.time ≠ [] then ' ' :: m.time else []))
    from by simp [afterLit, List.isPrefixOf]]
  simp only [bind_some_opt, obind_some, bind_some_do]
  rw [aliasBranches_date m hdate htime]
  apply firstSome_singleton
  beta_reduce
  rw [slashBranches_date m hdate htime]
  apply firstSome_singleton
  beta_reduce
  rw [matchDateDigits_date m hdate
    (']' :: ']' :: (if m.time ≠ [] then ' ' :: m.time else []))]
  simp only [bind_some_opt, obind_some, bind_some_do]
  rw [show afterLit [']', ']'] (']' :: ']' ::
      (if m.time ≠ [] then ' ' :: m.time else [])) =
    some (if m.time ≠ [] then ' ' :: m.time else [])
    from by simp [afterLit, List.isPrefixOf]]
  simp only [bind_some_opt, obind_some, bind_some_do]
  by_cases ht : m.time = []
  · rw [show (if m.time ≠ [] then ' ' :: m.time else []) = [] from if_neg
      (by rw [ht]; simp)]
    rw [show List.dropWhile reSpace ([] : Str) = [] from rfl]
    rw [show matchTimeDigits ([] : Str) = none from rfl]
    rw [← ht]
    rfl
  · obtain ⟨a, b, d, e, ht5, ha, hb, hd, he⟩ := timeShape_decomp m.time
      (htime.resolve_left ht)
    rw [if_pos ht]
    rw [show List.dropWhile reSpace (' ' :: m.time) = List.dropWhile reSpace m.time
      from by rw [List.dropWhile_cons_of_pos (by decide)]]
    rw [show List.dropWhile reSpace m.time = m.time from by
      rw [ht5]
      rw [List.dropWhile_cons_of_neg
        (by rw [word_not_respace a (digit_word a ha)]; exact Bool.false_ne_true)]]
    rw [show matchTimeDigits m.time = some (m.time, []) from by
      rw [ht5]
      show (if isDigitCh a && isDigitCh b && (':' = ':' : Bool) && isDigitCh d &&
          isDigitCh e then some ([a, b, ':', d, e], ([] : Str)) else none) =
        some ([a, b, ':', d, e], [])
      rw [if_pos (by rw [ha, hb, hd, he]; decide)]]
    rfl

theorem markerFind_marker (m : GoMarker) (hv : validMarker m = true) :
    markerFind (bodyOfMarker m) = some m := by
  have hkne : m.kind ≠ [] := by
    rw [validMarker] at hv
    simp only [Bool.and_eq_true, decide_eq_true_eq] at hv
    exact hv.1.1.1
  obtain ⟨k0, kr, hk⟩ : ∃ k0 kr, m.kind = k0 :: kr := by
    cases hmk : m.kind with
    | nil => exact absurd hmk hkne
    | cons a b => exact ⟨a, b, rfl⟩
  rw [bodyOfMarker]
  rw [show m.kind ++ ' ' :: '[' :: '[' ::
      (m.date ++ ']' :: ']' :: (if m.time ≠ [] then ' ' :: m.time else [])) =
    k0 :: (kr ++ ' ' :: '[' :: '[' ::
      (m.date ++ ']' :: ']' :: (if m.time ≠ [] then ' ' :: m.time else [])))
    from by rw [hk, List.cons_append]]
  rw [show markerFind (k0 :: (kr ++ ' ' :: '[' :: '[' ::
      (m.date ++ ']' :: ']' :: (if m.time ≠ [] then ' ' :: m.time else [])))) =
    (match markerMatchAt (k0 :: (kr ++ ' ' :: '[' :: '[' ::
        (m.date ++ ']' :: ']' :: (if m.time ≠ [] then ' ' :: m.time else [])))) with
      | some mm => some mm
      | none => markerFind (kr ++ ' ' :: '[' :: '[' ::
          (m.date ++ ']' :: ']' :: (if m.time ≠ [] then ' ' :: m.time else []))))
    from rfl]
  rw [show k0 :: (kr ++ ' ' :: '[' :: '[' ::
      (m.date ++ ']' :: ']' :: (if m.time ≠ [] then ' ' :: m.time else []))) =
    m.kind ++ ' ' :: '[' :: '[' ::
      (m.date ++ ']' :: ']' :: (if m.time ≠ [] then ' ' :: m.time else []))
    from by rw [hk, List.cons_append]]
  rw [markerMatchAt_marker m hv]

theorem goTrimSpace_body (m : GoMarker) (hv : validMarker m = true) (sp : Str)
    (hsp : sp.all isUniSpace = true) :
    goTrimSpace (bodyOfMarker m ++ sp) = bodyOfMarker m := by
  rw [validMarker] at hv
  simp only [Bool.and_eq_true, Bool.or_eq_true, decide_eq_true_eq] at hv
  obtain ⟨⟨⟨hkne, hkw⟩, hdate⟩, htime⟩ := hv
  obtain ⟨k0, kr, hk⟩ : ∃ k0 kr, m.kind = k0 :: kr := by
    cases hmk : m.kind with
    | nil => exact absurd hmk hkne
    | cons a b => exact ⟨a, b, rfl⟩
  have hk0 : isWordCh k0 = true := by
    rw [hk, List.all_cons, Bool.and_eq_true] at hkw
    exact hkw.1
  by_cases ht : m.time = []
  · have hshape : bodyOfMarker m =
        k0 :: (kr ++ ' ' :: '[' :: '[' :: (m.date ++ [']'])) ++ [']'] := by
      rw [bodyOfMarker, hk, ht]
      simp [List.append_assoc]
    rw [hshape]
    exact goTrimSpace_clean k0 _ ']' sp (word_not_unispace k0 hk0) (by decide) hsp
  · obtain ⟨a, b, d, e, ht5, ha, hb, hd, he⟩ := timeShape_decomp m.time
      (htime.resolve_left ht)
    have hshape : bodyOfMarker m =
        k0 :: (kr ++ ' ' :: '[' :: '[' ::
          (m.date ++ ']' :: ']' :: ' ' :: [a, b, ':', d])) ++ [e] := by
      rw [bodyOfMarker, hk, if_pos ht, ht5]
      simp [List.append_assoc]
    rw [hshape]
    exact goTrimSpace_clean k0 _ e sp (word_not_unispace k0 hk0)
      (word_not_unispace e (digit_word e he)) hsp

theorem splitGoAux_ne_nil (sep : Str) :
    ∀ (n : Nat) (s : Str), splitGoAux sep n s ≠ []
  | n, [] => by cases n <;> exact List.cons_ne_nil _ _
  | 0, c :: cs => List.cons_ne_nil _ _
  | n + 1, c :: cs => by
    rw [splitGoAux]
    split
    · exact List.cons_ne_nil _ _
    · split
      · exact List.cons_ne_nil _ _
      · exact List.cons_ne_nil _ _

theorem splitGoAux_skip : ∀ (x : Str) (n : Nat) (y : Str), ('>' : Char) ∉ x →
    splitGoAux ['>', '>'] (x.length + n) (x ++ y) =
      (match splitGoAux ['>', '>'] n y with
        | [] => [x]
        | t :: ts => (x ++ t) :: ts)
  | [], n, y => by
    intro _
    rw [List.length_nil, Nat.zero_add, List.nil_append]
    cases hs : splitGoAux ['>', '>'] n y with
    | nil => exact absurd hs (splitGoAux_ne_nil _ n y)
    | cons t ts => simp
  | c :: x, n, y => by
    intro hc
    have hcne : c ≠ '>' := fun h => hc (h ▸ List.mem_cons_self c x)
    have hpre : (['>', '>'] : Str).isPrefixOf (c :: (x ++ y)) = false := by
      rw [List.isPrefixOf, beq_eq_false_iff_ne.mpr (fun h => hcne h.symm)]
      rfl
    rw [List.cons_append, List.length_cons]
    rw [show x.length + 1 + n = (x.length + n) + 1 from by omega]
    rw [show splitGoAux ['>', '>'] ((x.length + n) + 1) (c :: (x ++ y)) =
      (if (['>', '>'] : Str).isPrefixOf (c :: (x ++ y)) then
        [] :: splitGoAux ['>', '>'] (x.length + n)
          ((x ++ y).drop ((['>', '>'] : Str).length - 1))
      else
        match splitGoAux ['>', '>'] (x.length + n) (x ++ y) with
        | [] => [[c]]
        | t :: ts => (c :: t) :: ts) from rfl]
    rw [if_neg (by rw [hpre]; exact Bool.false_ne_true)]
    rw [splitGoAux_skip x n y (fun h => hc (List.mem_cons_of_mem c h))]
    cases hs : splitGoAux ['>', '>'] n y with
    | nil => exact absurd hs (splitGoAux_ne_nil _ n y)
    | cons t ts => rfl

theorem splitGoAux_sep (f : Nat) (rest : Str) :
    splitGoAux ['>', '>'] (f + 1) ('>' :: '>' :: rest) =
      [] :: splitGoAux ['>', '>'] f rest := by
  rw [show splitGoAux ['>', '>'] (f + 1) ('>' :: '>' :: rest) =
    (if (['>', '>'] : Str).isPrefixOf ('>' :: '>' :: rest) then
      [] :: splitGoAux ['>', '>'] f
        (('>' :: rest).drop ((['>', '>'] : Str).length - 1))
    else
      match splitGoAux ['>', '>'] f ('>' :: rest) with
      | [] => [['>']]
      | t :: ts => ('>' :: t) :: ts) from rfl]
  rw [if_pos (by simp [List.isPrefixOf])]
  rfl

theorem gt_not_mem_body (m : GoMarker) (hv : validMarker m = true) :
    ('>' : Char) ∉ bodyOfMarker m := by
  rw [validMarker] at hv
  simp only [Bool.and_eq_true, Bool.or_eq_true, decide_eq_true_eq] at hv
  obtain ⟨⟨⟨_, hkind⟩, hdate⟩, htime⟩ := hv
  have hkindn : ('>' : Char) ∉ m.kind := by
    intro hck
    rw [List.all_eq_true] at hkind
    exact absurd (hkind _ hck) (by decide)
  have hdaten : ('>' : Char) ∉ m.date := by
    intro hcd
    rcases dateShape_chars m.date hdate '>' hcd with hh | hh
    · exact absurd hh (by decide)
    · exact absurd hh (by decide)
  have htimen : ('>' : Char) ∉ (if m.time ≠ [] then ' ' :: m.time else []) := by
    split
    · apply not_mem_cons (by decide)
      intro hct
      rcases htime with hh | hh
      · rw [hh] at hct; cases hct
      · rcases timeShape_chars m.time hh '>' hct with hh2 | hh2
        · exact absurd hh2 (by decide)
        · exact absurd hh2 (by decide)
    · exact List.not_mem_nil _
  rw [bodyOfMarker]
  intro hm
  rcases List.mem_append.mp hm with hk | h1
  · exact hkindn hk
  rcases List.mem_cons.mp h1 with hh | h2
  · exact absurd hh (by decide)
  rcases List.mem_cons.mp h2 with hh | h3
  · exact absurd hh (by decide)
  rcases List.mem_cons.mp h3 with hh | h4
  · exact absurd hh (by decide)
  rcases List.mem_append.mp h4 with hd | h5
  · exact hdaten hd
  rcases List.mem_cons.mp h5 with hh | h6
  · exact absurd hh (by decide)
  rcases List.mem_cons.mp h6 with hh | h7
  · exact absurd hh (by decide)
  exact htimen h7

theorem bodyOfMarker_ne_nil (m : GoMarker) : bodyOfMarker m ≠ [] := by
  simp [bodyOfMarker]

theorem markerSeg_step (m : GoMarker) (hvm : validMarker m = true) (sp : Str)
    (hsp : sp.all isUniSpace = true) :
    (let seg := goTrimSpace (bodyOfMarker m ++ sp)
      if seg = [] then none else markerFind seg) = some m := by
  show (if goTrimSpace (bodyOfMarker m ++ sp) = [] then none
    else markerFind (goTrimSpace (bodyOfMarker m ++ sp))) = some m
  rw [goTrimSpace_body m hvm sp hsp]
  rw [if_neg (bodyOfMarker_ne_nil m), markerFind_marker m hvm]

theorem segs_filterMap : ∀ (ms : List GoMarker),
    (∀ m ∈ ms, validMarker m = true) →
    (segsOfMarkers ms).filterMap (fun seg =>
      let seg := goTrimSpace seg
      if seg = [] then none else markerFind seg) = ms
  | [], _ => rfl
  | [m], hv => by
    rw [show segsOfMarkers [m] = [bodyOfMarker m] from rfl]
    rw [List.filterMap_cons]
    have h := markerSeg_step m (hv m (List.mem_cons_self m [])) [] (by decide)
    rw [List.append_nil] at h
    rw [h]
    rfl
  | m :: m2 :: rest, hv => by
    rw [show segsOfMarkers (m :: m2 :: rest) =
      (bodyOfMarker m ++ [' ']) :: segsOfMarkers (m2 :: rest) from rfl]
    rw [List.filterMap_cons]
    rw [markerSeg_step m (hv m (List.mem_cons_self m _)) [' '] (by decide)]
    rw [segs_filterMap (m2 :: rest) (fun x hx => hv x (List.mem_cons_of_mem m hx))]

theorem splitRegionAux : ∀ (ms : List GoMarker), ms ≠ [] →
    (∀ m ∈ ms, ('>' : Char) ∉ bodyOfMarker m) → ∀ n,
    splitGoAux ['>', '>'] ((regionOfMarkers ms).length + n) (regionOfMarkers ms) =
      [] :: segsOfMarkers ms
  | [], h, _ => absurd rfl h
  | [m], _, hb => by
    intro n
    have hreg : regionOfMarkers [m] = '>' :: '>' :: bodyOfMarker m := by
      rw [regionOfMarkers]
      simp
    rw [hreg, List.length_cons, List.length_cons]
    rw [show (bodyOfMarker m).length + 1 + 1 + n =
      ((bodyOfMarker m).length + (1 + n)) + 1 from by omega]
    rw [splitGoAux_sep]
    have hskip := splitGoAux_skip (bodyOfMarker m) (1 + n) []
      (hb m (List.mem_cons_self m []))
    rw [List.append_nil] at hskip
    rw [show splitGoAux ['>', '>'] (1 + n) [] = [[]] from by
      rw [show (1 : Nat) + n = n + 1 from by omega]; rfl] at hskip
    rw [hskip]
    rw [show segsOfMarkers [m] = [bodyOfMarker m] from rfl]
    simp

  | m :: m2 :: rest, _, hb => by
    intro n
    have hreg : regionOfMarkers (m :: m2 :: rest) =
        '>' :: '>' :: ((bodyOfMarker m ++ [' ']) ++ regionOfMarkers (m2 :: rest)) := by
      rw [regionOfMarkers, regionOfMarkers]
      simp
    rw [hreg, List.length_cons, List.length_cons]
    rw [show ((bodyOfMarker m ++ [' ']) ++ regionOfMarkers (m2 :: rest)).length +
        1 + 1 + n =
      ((bodyOfMarker m ++ [' ']).length +
        ((regionOfMarkers (m2 :: rest)).length + (n + 1))) + 1 from by
      simp [List.length_append]; omega]
    rw [splitGoAux_sep]
    have hx : ('>' : Char) ∉ bodyOfMarker m ++ [' '] :=
      not_mem_append (hb m (List.mem_cons_self m _))
        (not_mem_cons (by decide) (List.not_mem_nil _))
    rw [splitGoAux_skip (bodyOfMarker m ++ [' '])
      ((regionOfMarkers (m2 :: rest)).length + (n + 1)) (regionOfMarkers (m2 :: rest)) hx]
    rw [splitRegionAux (m2 :: rest) (List.cons_ne_nil _ _)
      (fun x hx2 => hb x (List.mem_cons_of_mem m hx2)) (n + 1)]
    rw [show segsOfMarkers (m :: m2 :: rest) =
      (bodyOfMarker m ++ [' ']) :: segsOfMarkers (m2 :: rest) from rfl]
    simp

theorem extractMarkers_region (ms : List GoMarker) (hne : ms ≠ [])
    (hv : ∀ m ∈ ms, validMarker m = true) :
    extractMarkers ['>', '>'] (regionOfMarkers ms) = ms := by
  rw [extractMarkers, splitGo]
  have hsplit := splitRegionAux ms hne
    (fun m hm => gt_not_mem_body m (hv m hm)) 0
  rw [Nat.add_zero] at hsplit
  rw [hsplit]
  exact segs_filterMap ms hv

theorem not_mem_flatten_intersperse (c : Char) : ∀ (ls : List Str),
    (∀ l ∈ ls, c ∉ l) → c ≠ ' ' →
    c ∉ (ls.intersperse " ".toList).flatten
  | [], _, _ => by simp
  | [l], h, _ => by
    rw [show ([l] : List Str).intersperse " ".toList = [l] from rfl,
      List.flatten_cons]
    rw [show List.flatten ([] : List Str) = [] from rfl, List.append_nil]
    exact h l (List.mem_cons_self l [])
  | l :: l2 :: rest, h, hsp => by
    rw [show ((l :: l2 :: rest) : List Str).intersperse " ".toList =
      l :: " ".toList :: (l2 :: rest).intersperse " ".toList from rfl]
    rw [List.flatten_cons, List.flatten_cons]
    apply not_mem_append (h l (List.mem_cons_self l _))
    apply not_mem_append (not_mem_cons hsp (List.not_mem_nil c))
    exact not_mem_flatten_intersperse c (l2 :: rest)
      (fun x hx => h x (List.mem_cons_of_mem l hx)) hsp

theorem chars_not_tagsCol (ts : List Str) (hts : ts.all validTagName = true) :
    ('>' : Char) ∉ (if ts ≠ [] then
      ' ' :: ((ts.map (fun tg => (['+'] : Str) ++ tg)).intersperse
        " ".toList).flatten
    else []) := by
  split
  · apply not_mem_cons (by decide)
    apply not_mem_flatten_intersperse
    · intro l hl
      rw [List.mem_map] at hl
      obtain ⟨tg, htg, rfl⟩ := hl
      apply not_mem_append
      · exact not_mem_cons (by decide) (List.not_mem_nil _)
      · intro hc
        rw [List.all_eq_true] at hts
        have hv := hts tg htg
        cases tg with
        | nil => cases hv
        | cons a b =>
          rw [show validTagName (a :: b) = (tagStartCh a && b.all tagCh)
            from rfl, Bool.and_eq_true] at hv
          rcases List.mem_cons.mp hc with rfl | hcb
          · exact absurd hv.1 (by decide)
          · exact absurd (List.all_eq_true.mp hv.2 _ hcb) (by decide)
    · decide
  · exact List.not_mem_nil _

theorem markerStartAt_true (w z : Str) (hw : w.all isWordCh = true)
    (hne : w ≠ []) :
    markerStartAt ['>', '>'] ('>' :: '>' :: (w ++ ' ' :: '[' :: '[' :: z)) =
      true := by
  obtain ⟨k0, kr, hk⟩ : ∃ k0 kr, w = k0 :: kr := by
    cases hmk : w with
    | nil => exact absurd hmk hne
    | cons a b => exact ⟨a, b, rfl⟩
  have hk0 : isWordCh k0 = true := by
    rw [hk, List.all_cons, Bool.and_eq_true] at hw
    exact hw.1
  have hlit : afterLit ['>', '>'] ('>' :: '>' :: (w ++ ' ' :: '[' :: '[' :: z)) =
      some (w ++ ' ' :: '[' :: '[' :: z) := by
    simp [afterLit, List.isPrefixOf]
  have hdw : List.dropWhile reSpace (w ++ ' ' :: '[' :: '[' :: z) =
      w ++ ' ' :: '[' :: '[' :: z := by
    rw [hk, List.cons_append]
    rw [List.dropWhile_cons_of_neg
      (by rw [word_not_respace k0 hk0]; exact Bool.false_ne_true)]
  have hW : List.takeWhile isWordCh (w ++ ' ' :: '[' :: '[' :: z) = w := by
    rw [takeWhile_all_append isWordCh w _ hw,
      List.takeWhile_cons_of_neg (by decide), List.append_nil]
  have hs3 : (w ++ ' ' :: '[' :: '[' :: z).drop w.length =
      ' ' :: '[' :: '[' :: z := List.drop_left _ _
  have hsp : List.takeWhile reSpace (' ' :: '[' :: '[' :: z) = [' '] := by
    rw [List.takeWhile_cons_of_pos (by decide),
      List.takeWhile_cons_of_neg (by decide)]
  have hred : markerStartAt ['>', '>']
      ('>' :: '>' :: (w ++ ' ' :: '[' :: '[' :: z)) =
      (let s2 := List.dropWhile reSpace (w ++ ' ' :: '[' :: '[' :: z)
       let wr := List.takeWhile isWordCh s2
       if wr = [] then false
       else
         let s3 := s2.drop wr.length
         let sp := List.takeWhile reSpace s3
         decide (sp ≠ []) && ("[[".toList).isPrefixOf (s3.drop sp.length)) := by
    rw [markerStartAt, hlit]
  rw [hred]
  simp only [hdw, hW, hs3, hsp]
  rw [if_neg hne]
  simp [List.isPrefixOf]

theorem markerStartIdxAux_skip : ∀ (x y : Str), ('>' : Char) ∉ x →
    markerStartIdxAux ['>', '>'] (x ++ y) =
      (markerStartIdxAux ['>', '>'] y).map (· + x.length)
  | [], y => by
    intro _
    rw [List.nil_append, List.length_nil]
    cases ho : markerStartIdxAux ['>', '>'] y <;> simp
  | c :: x, y => by
    intro hc
    have hcne : c ≠ '>' := fun h => hc (h ▸ List.mem_cons_self c x)
    have hpre : (['>', '>'] : Str).isPrefixOf (c :: (x ++ y)) = false := by
      rw [List.isPrefixOf, beq_eq_false_iff_ne.mpr (fun h => hcne h.symm)]
      rfl
    have hfalse : markerStartAt ['>', '>'] (c :: (x ++ y)) = false := by
      rw [markerStartAt, afterLit,
        if_neg (by rw [hpre]; exact Bool.false_ne_true)]
    rw [List.cons_append]
    rw [show markerStartIdxAux ['>', '>'] (c :: (x ++ y)) =
      (if markerStartAt ['>', '>'] (c :: (x ++ y)) then some 0
       else (markerStartIdxAux ['>', '>'] (x ++ y)).map (· + 1)) from rfl]
    rw [if_neg (by rw [hfalse]; exact Bool.false_ne_true)]
    rw [markerStartIdxAux_skip x y (fun h => hc (List.mem_cons_of_mem c h))]
    rw [List.length_cons]
    cases ho : markerStartIdxAux ['>', '>'] y <;> simp <;> omega

theorem markerStartIdxAux_region (ms : List GoMarker) (hne : ms ≠ [])
    (hv : ∀ m ∈ ms, validMarker m = true) :
    markerStartIdxAux ['>', '>'] (regionOfMarkers ms) = some 0 := by
  cases ms with
  | nil => exact absurd rfl hne
  | cons m rest =>
    have hvv := hv m (List.mem_cons_self m rest)
    rw [validMarker] at hvv
    simp only [Bool.and_eq_true, decide_eq_true_eq] at hvv
    obtain ⟨⟨⟨hkne, hkw⟩, _⟩, _⟩ := hvv
    obtain ⟨X, hX⟩ : ∃ X, regionOfMarkers (m :: rest) =
        '>' :: '>' :: (m.kind ++ ' ' :: '[' :: '[' :: X) := by
      refine ⟨(m.date ++ ']' :: ']' ::
        (if m.time ≠ [] then ' ' :: m.time else [])) ++
        (rest.map (fun m2 => ' ' :: '>' :: '>' :: bodyOfMarker m2)).flatten, ?_⟩
      rw [regionOfMarkers, bodyOfMarker]
      simp [List.append_assoc]
    rw [hX]
    rw [show markerStartIdxAux ['>', '>']
        ('>' :: '>' :: (m.kind ++ ' ' :: '[' :: '[' :: X)) =
      (if markerStartAt ['>', '>']
          ('>' :: '>' :: (m.kind ++ ' ' :: '[' :: '[' :: X)) then some 0
       else (markerStartIdxAux ['>', '>']
          ('>' :: (m.kind ++ ' ' :: '[' :: '[' :: X))).map (· + 1)) from rfl]
    rw [if_pos (markerStartAt_true m.kind X hkw hkne)]

theorem markersCol_region (ms : List GoMarker) (hne : ms ≠ []) :
    (ms.map (fun m => ' ' :: (['>', '>'] : Str) ++ m.kind ++ ' ' :: "[[".toList ++
        m.date ++ "]]".toList ++
        (if m.time ≠ [] then ' ' :: m.time else []))).flatten =
      ' ' :: regionOfMarkers ms := by
  have hmap : (fun m : GoMarker => ' ' :: (['>', '>'] : Str) ++ m.kind ++
      ' ' :: "[[".toList ++ m.date ++ "]]".toList ++
      (if m.time ≠ [] then ' ' :: m.time else [])) =
      (fun m : GoMarker => ' ' :: '>' :: '>' :: bodyOfMarker m) := by
    funext m
    rw [bodyOfMarker]
    simp [List.append_assoc, show ("[[".toList : Str) = ['[', '['] from rfl,
      show ("]]".toList : Str) = [']', ']'] from rfl]
  rw [hmap]
  cases ms with
  | nil => exact absurd rfl hne
  | cons m rest =>
    rw [List.map_cons, List.flatten_cons, regionOfMarkers]
    simp [List.append_assoc]

theorem formatTaskLine_split (t : GoTask) (opts : FormatOpts)
    (htagP : (if opts.tagPre = [] then "#".toList else opts.tagPre) =
      (['+'] : Str))
    (hmkP : (if opts.markerPre = [] then "::".toList else opts.markerPre) =
      (['>', '>'] : Str))
    (hsm : opts.showMarkers = true) (hmm : t.markers ≠ []) :
    formatTaskLine t opts =
      ((t.filePath ++ ':' :: intToStr t.lineNumber ++ ":1:".toList) ++
       (match t.dueDate with
        | some d => '\t' :: "[[".toList ++ dateToStr d ++ "]]".toList
        | none => '\t' :: "          ".toList) ++
       (if t.dueTime ≠ [] then " | ".toList ++ t.dueTime ++ " |".toList
        else '\t' :: " |       |".toList) ++
       (if t.duration ≠ [] then
          List.replicate (4 - t.duration.length) ' ' ++ t.duration ++ " |".toList
        else "     |".toList) ++
       ('\t' :: ' ' :: t.body ++ ' ' :: '\t' :: []) ++
       (if t.tags ≠ [] then
          ' ' :: ((t.tags.map (fun tg => (['+'] : Str) ++ tg)).intersperse
            " ".toList).flatten
        else [])) ++ ' ' :: regionOfMarkers t.markers := by
  rw [formatTaskLine]
  simp only [htagP, hmkP, hsm]
  rw [markersCol_region t.markers hmm]
  simp

/-- C2 counterexample: re-parsing the formatted lines of the tagged and the
marked fixture tasks with `ParseTask` under the same configuration fails
outright (the formatter emits no checkbox literal, so the status match
errors), even though the tasks carry a non-empty tag list and marker list —
the round trip as literally claimed does not recover anything. -/
theorem c2_counterexample :
    ParseTaskGo rmC2t ctxC2 = none ∧ ParseTaskGo rmC2m ctxC2 = none ∧
    taskC2.tags ≠ [] ∧ taskC2m.markers ≠ [] :=
  ⟨rfl, rfl, by decide, by decide⟩

/-- C2 (amended; modelled from the spec, which the repository's formatter
follows for the prefix-configurable tag and marker tokens): for every task
whose tags are well-formed tag names, whose markers are well-formed, and whose
free-text fields avoid the prefix characters, the parser's tag scan recovers
the tag list from the formatted line, and (markers shown, marker list
non-empty) the parser's marker-start search finds a location from which the
marker-extraction step recovers the marker list.  The full `ParseTask` round
trip of the original claim fails instead of recovering them — see the
counterexample. -/
theorem c2_format_reparse (t : GoTask) (opts : FormatOpts)
    (htp : opts.tagPre = "+".toList) (hmp : opts.markerPre = ">>".toList)
    (hsm : opts.showMarkers = true)
    (hvt : t.tags.all validTagName = true)
    (hvm : ∀ m ∈ t.markers, validMarker m = true)
    (hfp : ∀ c ∈ t.filePath, c ≠ '+' ∧ c ≠ '>')
    (hbd : ∀ c ∈ t.body, c ≠ '+' ∧ c ≠ '>')
    (hdt : ∀ c ∈ t.dueTime, c ≠ '+' ∧ c ≠ '>')
    (hdu : ∀ c ∈ t.duration, c ≠ '+' ∧ c ≠ '>') :
    tagFindAll "+".toList (formatTaskLine t opts) = t.tags ∧
    (t.markers ≠ [] → ∃ loc,
      markerStartIdxAux ">>".toList (formatTaskLine t opts) = some loc ∧
      extractMarkers ">>".toList ((formatTaskLine t opts).drop loc) =
        t.markers) := by
  constructor
  · exact tags_roundtrip t opts htp hmp hvt hvm
      (fun h => (hfp '+' h).1 rfl) (fun h => (hbd '+' h).1 rfl)
      (fun h => (hdt '+' h).1 rfl) (fun h => (hdu '+' h).1 rfl)
  · intro hmm
    have htagP : (if opts.tagPre = [] then "#".toList else opts.tagPre) =
        (['+'] : Str) := by
      rw [htp]
      decide
    have hmkP : (if opts.markerPre = [] then "::".toList else opts.markerPre) =
        (['>', '>'] : Str) := by
      rw [hmp]
      decide
    obtain ⟨X, hlineX, hXfree⟩ : ∃ X, formatTaskLine t opts =
        X ++ ' ' :: regionOfMarkers t.markers ∧ ('>' : Char) ∉ X := by
      refine ⟨_, formatTaskLine_split t opts htagP hmkP hsm hmm, ?_⟩
      · apply not_mem_append
        apply not_mem_append
        apply not_mem_append
        apply not_mem_append
        apply not_mem_append
        · -- loc
          apply not_mem_append
          · apply not_mem_append (fun h => (hfp '>' h).2 rfl)
            apply not_mem_cons (by decide)
            exact chars_not_intToStr _ (by decide) (by decide)
          · decide
        · -- dateCol
          cases t.dueDate with
          | none => decide
          | some d =>
            apply not_mem_append
            apply not_mem_append
            · decide
            · exact chars_not_dateToStr d (by decide) (by decide)
            · decide
        · -- timeCol
          split
          · apply not_mem_append
            apply not_mem_append
            · decide
            · exact fun h => (hdt '>' h).2 rfl
            · decide
          · decide
        · -- durCol
          split
          · apply not_mem_append
            apply not_mem_append
            · exact not_mem_replicate (by decide)
            · exact fun h => (hdu '>' h).2 rfl
            · decide
          · decide
        · -- bodyCol
          apply not_mem_cons (by decide)
          apply not_mem_cons (by decide)
          apply not_mem_append (fun h => (hbd '>' h).2 rfl)
          decide
        · -- tagsCol
          exact chars_not_tagsCol t.tags hvt
    have hXsp : ('>' : Char) ∉ X ++ [' '] :=
      not_mem_append hXfree (not_mem_cons (by decide) (List.not_mem_nil _))
    have hsplit2 : formatTaskLine t opts =
        (X ++ [' ']) ++ regionOfMarkers t.markers := by
      rw [hlineX]
      simp [List.append_assoc]
    refine ⟨(X ++ [' ']).length, ?_, ?_⟩
    · rw [show ">>".toList = (['>', '>'] : Str) from rfl, hsplit2]
      rw [markerStartIdxAux_skip (X ++ [' ']) _ hXsp]
      rw [markerStartIdxAux_region t.markers hmm hvm]
      simp
    · rw [show ">>".toList = (['>', '>'] : Str) from rfl, hsplit2,
        List.drop_left]
      exact extractMarkers_region t.markers hmm hvm

/-- C2 witness: the amended theorem applied at the fixture task carrying one
tag and one marker, with all hypotheses discharged on the concrete data. -/
theorem c2_witness :
    taskC2w.tags.all validTagName = true ∧
    (tagFindAll "+".toList (formatTaskLine taskC2w optsC2w) = taskC2w.tags ∧
     (taskC2w.markers ≠ [] → ∃ loc,
       markerStartIdxAux ">>".toList (formatTaskLine taskC2w optsC2w) =
         some loc ∧
       extractMarkers ">>".toList
         ((formatTaskLine taskC2w optsC2w).drop loc) = taskC2w.markers)) :=
  ⟨by decide,
   c2_format_reparse taskC2w optsC2w (by decide) (by decide) (by decide)
     (by decide) (by decide) (by decide) (by decide) (by decide) (by decide)⟩

end TB
